import Mathlib

/-!
# A shallow embedding of `nli.js`

The interpreter of `src/nli.js` (fraction library, lexer, parser, evaluator)
and its formatter `pretty` as Lean definitions, followed by theorems about
them.

Conventions of the embedding:

* The numbers of the program are JavaScript doubles that hold integers; the
  embedding holds them as `Int`.  A product or a sum of two of them is the
  exact integer rounded to 53 significant bits (`roundToDouble`); from `2^1023`
  on, where JavaScript may answer `Infinity`, the embedding gives no result.
  `a % b` is the truncating `Int.tmod`, and it and the division by a divisor
  are exact on doubles.  Where JavaScript leaves a number to the
  implementation (`parseInt` beyond 20 digits, `10 ** k` beyond `10^22`, the
  digits `toString` prints from `2^53` on) the embedding gives no result.
* A `Buffer` is a list of bytes (`Nat`, each below 256) together with a
  reference `ref : Nat` that stands for the identity of the JavaScript object:
  `===` on two buffers compares references, never contents.  The lexer and the
  evaluator hand out fresh references from a counter (the `Heap`).
* JavaScript strings are `String`s; `Buffer.from(s)` is UTF-8 encoding and
  `buf.toString('utf8')` is UTF-8 decoding.
* Tokens, tree nodes and runtime values are JavaScript objects with a `type`
  field; tokens and tree nodes form the type `Branch`, runtime values the type
  `Value`.
* Functions that loop over an index become recursive functions; where the
  source recursion is not structural the embedding takes a `fuel` argument and
  answers `Err.outOfFuel` when it runs out.  A JavaScript `TypeError` is
  `Err.typeError`; behaviour that leaves the language's values (for instance a
  bare JavaScript `undefined` used as a value) is `Err.unmodelled`, which
  says nothing about what JavaScript does there.
* An object used as a map (`ctx`, the `val` of a DICTIONARY) is the list of
  its own properties in insertion order; reading a name that every object
  inherits from `Object.prototype` and does not own is `Err.unmodelled`.
-/

namespace Nli

/-! ## Numbers -/

/-- The number of low bits that do not fit into 53: the least `e` with
`n / 2^e < 2^53`, found by halving at most `fuel` times. -/
def excessBits : Nat → Nat → Nat
  | 0, _ => 0
  | fuel + 1, n => if n < 9007199254740992 then 0 else excessBits fuel (n / 2) + 1

/-- The double that JavaScript returns for an operation on integers whose exact
result is the integer `x`.  An integer below `2^53` in absolute value is a
double; a larger one is rounded to the nearest integer with 53 significant
bits, a tie going to the one whose last kept bit is 0.  From `2^1023` on,
which is more than 970 excess bits, the result may be `Infinity`; the
embedding has no such number and answers `none`. -/
def roundToDouble (x : Int) : Option Int :=
  let n := x.natAbs
  if n < 9007199254740992 then some x
  else
    let e := excessBits 1024 n
    if 970 < e then none
    else
      let q := n / 2 ^ e
      let r := n % 2 ^ e
      let half := 2 ^ (e - 1)
      let m := if half < r ∨ (r = half ∧ q % 2 = 1) then q + 1 else q
      some (Int.sign x * ((m * 2 ^ e : Nat) : Int))

/-! ## `fraction` -/

namespace fraction

/-- The recursion of `fraction.gcd`, unrolled at most `fuel` times. -/
def gcdLoop : Nat → Int → Int → Int
  | 0, a, _ => a
  | fuel + 1, a, b => if b = 0 then a else gcdLoop fuel b (Int.tmod a b)

/-- `gcd: (a, b) => b ? fraction.gcd(b, a % b) : a`.  The absolute value of
the second argument drops at every call, so `|b| + 1` unrollings reach the
base case. -/
def gcd (a b : Int) : Int := gcdLoop (b.natAbs + 1) a b

/-- `simplify: (n, d) => { const g = Math.abs(gcd(n, d)) || 1; return [n / g, d / g]; }`.
The divisions are exact, `g` divides both. -/
def simplify (n d : Int) : Int × Int :=
  let g : Int := if |gcd n d| = 0 then 1 else |gcd n d|
  (n / g, d / g)

/-- `debool: x => NUMBER [+!!x, 1]`, as the pair. -/
def debool (x : Bool) : Int × Int := (if x then 1 else 0, 1)

/-- `deint: x => NUMBER [x, 1]`, as the pair. -/
def deint (x : Int) : Int × Int := (x, 1)

/-- Case `*` of `fraction.operate`: `[f1[0] * f2[0], f1[1] * f2[1]]`, each
product a double. -/
def mul (a b : Int × Int) : Option (Int × Int) :=
  let f1 := simplify a.1 b.2
  let f2 := simplify b.1 a.2
  match roundToDouble (f1.1 * f2.1), roundToDouble (f1.2 * f2.2) with
  | some n, some d => some (n, d)
  | _, _ => none

/-- Case `+` of `fraction.operate`:
`simplify(a0 * b1 + b0 * a1, a1 * b1)`, each product and the sum a double. -/
def add (a b : Int × Int) : Option (Int × Int) :=
  match roundToDouble (a.1 * b.2), roundToDouble (b.1 * a.2), roundToDouble (a.2 * b.2) with
  | some p, some q, some d =>
    match roundToDouble (p + q) with
    | some n => some (simplify n d)
    | none => none
  | _, _, _ => none

/-- Case `=` of `fraction.operate`:
`debool(a.val[0] === b.val[0] && a.val[1] === b.val[1])`. -/
def eq (a b : Int × Int) : Int × Int :=
  debool (decide (a.1 = b.1) && decide (a.2 = b.2))

/-- Case `<` of `fraction.operate`:
`debool(a.val[0] * b.val[1] < b.val[0] * a.val[1])`, each product a double. -/
def lt (a b : Int × Int) : Option (Int × Int) :=
  match roundToDouble (a.1 * b.2), roundToDouble (b.1 * a.2) with
  | some p, some q => some (debool (decide (p < q)))
  | _, _ => none

/-- Case `<=` of `fraction.operate`:
`debool(operate('=', a, b).val[0] || operate('<', a, b).val[0])`; the `||`
evaluates its right side only when the left one is 0. -/
def le (a b : Int × Int) : Option (Int × Int) :=
  if (eq a b).1 ≠ 0 then some (debool true)
  else
    match lt a b with
    | some r => some (debool (decide (r.1 ≠ 0)))
    | none => none

/-- `fraction.operate(op, a, b)` on the `val` pairs of two NUMBER objects.
`none` is where the embedding has no pair to give: a product or a sum that is
not a finite double, and the `undefined` that the JavaScript `switch` returns
for any other `op`. -/
def operate (op : String) (a b : Int × Int) : Option (Int × Int) :=
  match op with
  | "*" => mul a b
  | "/" => mul a (b.2, b.1)
  | "+" => add a b
  | "-" => add a (-b.1, b.2)
  | "=" => some (eq a b)
  | "<" => lt a b
  | ">" => lt b a
  | "<=" => le a b
  | ">=" => le b a
  | _ => none

end fraction

/-! ## Tokens and tree nodes -/

/-- The objects of `types.token` and `types.branch`.  The parser pushes tokens
into the tree as leaves, so both kinds share one type.  `UNDEFINED` is the
JavaScript `undefined` that `splice` yields for an operator without a right
neighbour.  `NUMERAL` is a NUMBER token whose `val` the embedding does not
compute: it keeps the digits `ns` of the literal and its count `dec` of
characters after the point, and stands where the result of `parseInt` or of
`**` is left to the JavaScript implementation. -/
inductive Branch where
  | BRACKET (val : Char)
  | SPECIAL (val : Char)
  | OPERATOR (val : String)
  | WORD (val : String)
  | NUMBER (num den : Int)
  | NUMERAL (ns : List Char) (dec : Option Nat)
  | STRING (ref : Nat) (val : List Nat)
  | NULL
  | COMBINATION (op : String) (a b : Branch)
  | APPLICATION (a b : Branch)
  | FUNCTION (var : Option String) (expression : Branch)
  | LIST (val : List Branch)
  | DICTIONARY (val : List (Branch × Branch))
  | EXPRESSION (val : Branch)
  | UNDEFINED

/-- The eleven tiers of `const precedence`. -/
def precedence : List (List String) :=
  [["."], [".>"], ["/<", "/>"], ["--"], ["++", "..", "//"], ["*", "/"], ["+", "-"],
   ["<<", ">>"], ["<=", ">=", "<", ">"], ["=", "~="], ["&", "|", "^"]]

/-! ## UTF-8 and UTF-16 -/

/-- The bytes `Buffer.from(c, 'utf8')` gives for one character. -/
def utf8EncodeChar (c : Char) : List Nat :=
  let n := c.toNat
  if n < 0x80 then [n]
  else if n < 0x800 then [0xC0 + n / 0x40, 0x80 + n % 0x40]
  else if n < 0x10000 then [0xE0 + n / 0x1000, 0x80 + n / 0x40 % 0x40, 0x80 + n % 0x40]
  else [0xF0 + n / 0x40000, 0x80 + n / 0x1000 % 0x40, 0x80 + n / 0x40 % 0x40, 0x80 + n % 0x40]

/-- `Buffer.from(str, 'utf8')`: the bytes of a string. -/
def utf8Encode (s : List Char) : List Nat := s.flatMap utf8EncodeChar

/-- `buf.toString('utf8')` on well-formed UTF-8; `none` on bytes that are not
well-formed (where JavaScript substitutes replacement characters).  A
character is accepted exactly when encoding it gives back the bytes read. -/
def utf8Decode : List Nat → Option (List Char)
  | [] => some []
  | b0 :: rest =>
    if b0 < 0x80 then (utf8Decode rest).map (Char.ofNat b0 :: ·)
    else
      match rest with
      | [] => none
      | b1 :: rest1 =>
        let c2 := Char.ofNat (b0 % 0x20 * 0x40 + b1 % 0x40)
        if utf8EncodeChar c2 = [b0, b1] then (utf8Decode rest1).map (c2 :: ·)
        else
          match rest1 with
          | [] => none
          | b2 :: rest2 =>
            let c3 := Char.ofNat (b0 % 0x10 * 0x1000 + b1 % 0x40 * 0x40 + b2 % 0x40)
            if utf8EncodeChar c3 = [b0, b1, b2] then (utf8Decode rest2).map (c3 :: ·)
            else
              match rest2 with
              | [] => none
              | b3 :: rest3 =>
                let c4 := Char.ofNat
                  (b0 % 0x8 * 0x40000 + b1 % 0x40 * 0x1000 + b2 % 0x40 * 0x40 + b3 % 0x40)
                if utf8EncodeChar c4 = [b0, b1, b2, b3] then (utf8Decode rest3).map (c4 :: ·)
                else none

/-- The UTF-16 code units of one character, the units JavaScript compares
strings by. -/
def utf16Units (c : Char) : List Nat :=
  if c.toNat < 0x10000 then [c.toNat]
  else [0xD800 + (c.toNat - 0x10000) / 0x400, 0xDC00 + (c.toNat - 0x10000) % 0x400]

/-- Lexicographic `<` on lists of code units. -/
def unitsLt : List Nat → List Nat → Bool
  | _, [] => false
  | [], _ :: _ => true
  | x :: xs, y :: ys => if x < y then true else if y < x then false else unitsLt xs ys

/-- JavaScript `a < b` on strings. -/
def strLt (a b : String) : Bool := unitsLt (a.toList.flatMap utf16Units) (b.toList.flatMap utf16Units)

/-- Insertion of a key into a sorted list of keys. -/
def insertKey (k : String) : List String → List String
  | [] => [k]
  | x :: xs => if strLt x k then x :: insertKey k xs else k :: x :: xs

/-- `keys.sort()` with the default comparison (by UTF-16 code units). -/
def sortKeys (keys : List String) : List String := keys.foldr insertKey []

/-! ## `lex` -/

/-- The values of the lexer's `ctype` variable other than `null`. -/
inductive CType where
  | OPERATOR
  | WORD
  deriving DecidableEq

/-- The variables `tokens`, `token` and `ctype` of `lex`. -/
structure LexState where
  tokens : List Branch
  token : List Char
  ctype : Option CType

/-- Where the scan stands: in the main loop, or inside one of its inner loops
(comment, string literal, numeric literal) with that loop's variables.  For a
numeric literal `dec` holds `i - dec` of the source: the number of characters
consumed after the decimal point. -/
inductive Mode where
  | normal
  | comment (escaped : Bool)
  | string (str : List Char) (escaped : Bool)
  | number (ns : List Char) (dec : Option Nat)

/-- `tokens.push(t)`. -/
def LexState.push (s : LexState) (t : Branch) : LexState :=
  { s with tokens := s.tokens ++ [t] }

/-- `endToken()`: push the accumulated text, if any, as a token of kind `ctype`
and reset both.  `token` is non-empty only while `ctype` is set. -/
def endToken (s : LexState) : LexState :=
  let tokens :=
    if s.token.length > 0 then
      match s.ctype with
      | some CType.OPERATOR => s.tokens ++ [Branch.OPERATOR (String.mk s.token)]
      | some CType.WORD => s.tokens ++ [Branch.WORD (String.mk s.token)]
      | none => s.tokens ++ [Branch.UNDEFINED]
    else s.tokens
  { tokens := tokens, token := [], ctype := none }

/-- The characters of the `case '+': ... case '^':` labels. -/
def operatorChars : List Char :=
  ['+', '-', '*', '/', '<', '>', '=', '.', '~', '&', '|', '^']

/-- The integer that a string of decimal digits denotes. -/
def decimalValue (ns : List Char) : Int :=
  ns.foldl (fun acc c => acc * 10 + ((c.toNat - 48 : Nat) : Int)) 0

/-- `parseInt(ns)` for a string of decimal digits: the double nearest to the
integer the digits denote.  Beyond 20 significant digits JavaScript leaves the
later digits to the implementation, and the embedding answers `none`. -/
def parseInt (ns : List Char) : Option Int :=
  if (ns.dropWhile (· = '0')).length ≤ 20 then roundToDouble (decimalValue ns) else none

/-- `10 ** k` for a count `k` of characters.  The powers of ten up to `10^22`
are doubles; a larger one is an approximation left to the implementation, and
the embedding answers `none`. -/
def powerOfTen (k : Nat) : Option Int :=
  if k ≤ 22 then some (10 ^ k) else none

/-- The token of a string literal: `{ type: STRING, val: Buffer.from(str, 'utf8') }`.
The new buffer's reference is the number of tokens pushed before it. -/
def stringToken (s : LexState) (str : List Char) : Branch :=
  Branch.STRING s.tokens.length (utf8Encode str)

/-- The token of a numeric literal:
`simplify(parseInt(ns), dec == null ? 1 : 10 ** (i - dec))`. -/
def numberToken (ns : List Char) (dec : Option Nat) : Branch :=
  let denom : Option Int := match dec with
    | none => some 1
    | some k => powerOfTen k
  match parseInt ns, denom with
  | some num, some d => Branch.NUMBER (fraction.simplify num d).1 (fraction.simplify num d).2
  | _, _ => Branch.NUMERAL ns dec

/-- One turn of the main loop of `lex` on the character `c`. -/
def stepNormal (c : Char) (s : LexState) : Mode × LexState :=
  if c = '#' then (Mode.comment false, s)
  else if c = '"' then (Mode.string [] false, endToken s)
  else if c = ' ' ∨ c = '\t' ∨ c = '\r' ∨ c = '\n' then (Mode.normal, endToken s)
  else if c = '(' ∨ c = ')' ∨ c = '[' ∨ c = ']' ∨ c = '\x7b' ∨ c = '\x7d' then
    (Mode.normal, (endToken s).push (Branch.BRACKET c))
  else if c = '\\' ∨ c = ':' ∨ c = ',' then
    (Mode.normal, (endToken s).push (Branch.SPECIAL c))
  else if c = '_' then (Mode.normal, (endToken s).push Branch.NULL)
  else if c = '@' then (Mode.normal, (endToken s).push (Branch.NUMBER 1 0))
  else if 48 ≤ c.toNat ∧ c.toNat ≤ 57 then (Mode.number [c] none, endToken s)
  else if c ∈ operatorChars then
    let s1 := if s.ctype ≠ some CType.OPERATOR then
      { endToken s with ctype := some CType.OPERATOR } else s
    (Mode.normal, { s1 with token := s1.token ++ [c] })
  else
    let s1 := if s.ctype ≠ some CType.WORD then
      { endToken s with ctype := some CType.WORD } else s
    (Mode.normal, { s1 with token := s1.token ++ [c] })

/-- What follows the inner loop of a numeric literal: push the NUMBER token
and, when the literal ended on its decimal point (`dec === i`), step back so
that the point is scanned again by the main loop. -/
def endNumber (ns : List Char) (dec : Option Nat) (s : LexState) : Mode × LexState :=
  let s1 := s.push (numberToken ns dec)
  if dec = some 0 then stepNormal '.' s1 else (Mode.normal, s1)

/-- One character of the scan, in any mode. -/
def step (m : Mode) (c : Char) (s : LexState) : Mode × LexState :=
  match m with
  | Mode.normal => stepNormal c s
  | Mode.comment _ =>
    if c = '\\' then (Mode.comment true, s)
    else if c = '#' then (Mode.normal, s)
    else (Mode.comment false, s)
  | Mode.string str escaped =>
    if !escaped ∧ c = '\\' then (Mode.string str true, s)
    else if !escaped ∧ c = '"' then (Mode.normal, s.push (stringToken s str))
    else if escaped then
      (Mode.string (str ++ [if c = 'n' then '\n' else if c = 't' then '\t' else c]) false, s)
    else (Mode.string (str ++ [c]) false, s)
  | Mode.number ns dec =>
    if c = '.' ∧ dec = none then (Mode.number ns (some 0), s)
    else if 48 ≤ c.toNat ∧ c.toNat ≤ 57 then (Mode.number (ns ++ [c]) (dec.map (· + 1)), s)
    else if c = '_' then (Mode.number ns (dec.map (· + 1)), s)
    else
      let r := endNumber ns dec s
      stepNormal c r.2

/-- The scan of `lex` over the remaining characters. -/
def lexLoop : List Char → Mode → LexState → List Branch
  | [], Mode.normal, s => s.tokens
  | [], Mode.comment _, s => s.tokens
  | [], Mode.string str _, s => (s.push (stringToken s str)).tokens
  | [], Mode.number ns dec, s => (endNumber ns dec s).2.tokens
  | c :: rest, m, s => lexLoop rest (step m c s).1 (step m c s).2

/-- `lex(script)`: the tokens of a source text. -/
def lex (script : String) : List Branch :=
  lexLoop script.toList Mode.normal { tokens := [], token := [], ctype := none }

/-! ## `parse` -/

/-- What the embedding can answer instead of a result. -/
inductive Err where
  | typeError
  | unmodelled
  | outOfFuel
  deriving DecidableEq

/-- The test `branches[x].type === types.token.OPERATOR`. -/
def Branch.isOperator : Branch → Bool
  | Branch.OPERATOR _ => true
  | _ => false

/-- The inner loop `for (let x = 1; x < branches.length; x++)` of `pexp` for
one tier `ops`.  The array is held as the entries before `x - 1` (`done`, last
first), the entry `prev` at `x - 1`, and the entries from `x` on.  A fold
leaves its result at `x - 1` and does not move `x`; any other turn moves `x`
one to the right. -/
def tierScan (ops : List String) (done : List Branch) (prev : Branch) :
    List Branch → List Branch
  | [] => done.reverse ++ [prev]
  | Branch.OPERATOR op :: rest =>
    if ops.contains op then
      match rest with
      | [] => tierScan ops done (Branch.COMBINATION op prev Branch.UNDEFINED) []
      | b :: rest1 => tierScan ops done (Branch.COMBINATION op prev b) rest1
    else tierScan ops (prev :: done) (Branch.OPERATOR op) rest
  | cur :: rest =>
    if !prev.isOperator then tierScan ops done (Branch.APPLICATION prev cur) rest
    else tierScan ops (prev :: done) cur rest

/-- One pass of the body of `for (const ops of precedence)` over `branches`. -/
def tierPass (branches : List Branch) (ops : List String) : List Branch :=
  match branches with
  | [] => []
  | b0 :: rest => tierScan ops [] b0 rest

/-- The two nested loops of `pexp` that fold operators and applications. -/
def resolve (branches : List Branch) : List Branch :=
  precedence.foldl tierPass branches

/-- The value `pexp` returns for its collected `branches`:
`{ type: EXPRESSION, val: branches[0] || { type: NULL } }`. -/
def expressionOf (branches : List Branch) : Branch :=
  Branch.EXPRESSION ((resolve branches).headD Branch.NULL)

/-- The test that ends the first loop of `pexp`: a BRACKET or SPECIAL token
whose text is one of `) ] } , :`. -/
def isCloser : Branch → Bool
  | Branch.BRACKET c => [')', ']', '\x7d', ',', ':'].contains c
  | Branch.SPECIAL c => [')', ']', '\x7d', ',', ':'].contains c
  | _ => false

/-- The test `tokens[i].type === BRACKET && tokens[i].val === c`. -/
def isBracket (c : Char) : Branch → Bool
  | Branch.BRACKET d => d == c
  | _ => false

/-- The test `tokens[i].type === SPECIAL && tokens[i].val === c`. -/
def isSpecial (c : Char) : Branch → Bool
  | Branch.SPECIAL d => d == c
  | _ => false

/-- The test `o.type === types.token.NULL`. -/
def Branch.isNull : Branch → Bool
  | Branch.NULL => true
  | _ => false

/-- The field `keyElement.val` of a parsed key; `pexp` always returns an
EXPRESSION node. -/
def Branch.child : Branch → Branch
  | Branch.EXPRESSION v => v
  | _ => Branch.UNDEFINED

mutual

/-- The first loop of `pexp(i)`, `for (; i < tokens.length; i++)`, with the
branches collected so far; it returns them with the final `i`. -/
def pexpLoop (tokens : List Branch) : Nat → Nat → List Branch → Except Err (List Branch × Nat)
  | 0, _, _ => Except.error Err.outOfFuel
  | fuel + 1, i, branches =>
    match tokens[i]? with
    | none => Except.ok (branches, i)
    | some t =>
      if isCloser t then Except.ok (branches, i)
      else
        match t with
        | Branch.BRACKET c =>
          if c = '(' then
            match pexp tokens fuel (i + 1) with
            | Except.error e => Except.error e
            | Except.ok (r, j) => pexpLoop tokens fuel (j + 1) (branches ++ [r])
          else if c = '[' then
            match plist tokens fuel (i + 1) [] with
            | Except.error e => Except.error e
            | Except.ok (r, j) => pexpLoop tokens fuel (j + 1) (branches ++ [r])
          else if c = '\x7b' then
            match pdict tokens fuel (i + 1) [] with
            | Except.error e => Except.error e
            | Except.ok (r, j) => pexpLoop tokens fuel (j + 1) (branches ++ [r])
          else pexpLoop tokens fuel (i + 1) (branches ++ [Branch.UNDEFINED])
        | Branch.SPECIAL c =>
          if c = '\\' then
            match tokens[i + 1]? with
            | none => Except.error Err.typeError
            | some t1 =>
              let var : Option String := match t1 with
                | Branch.WORD w => some w
                | _ => none
              match pexp tokens fuel (i + 1 + 1) with
              | Except.error e => Except.error e
              | Except.ok (expression, j) =>
                pexpLoop tokens fuel (j - 1 + 1) (branches ++ [Branch.FUNCTION var expression])
          else pexpLoop tokens fuel (i + 1) branches
        | _ => pexpLoop tokens fuel (i + 1) (branches ++ [t])
termination_by structural fuel => fuel

/-- The function `pexp(i)`: collect the branches, fold them, wrap the result. -/
def pexp (tokens : List Branch) : Nat → Nat → Except Err (Branch × Nat)
  | 0, _ => Except.error Err.outOfFuel
  | fuel + 1, i =>
    match pexpLoop tokens fuel i [] with
    | Except.error e => Except.error e
    | Except.ok (branches, j) => Except.ok (expressionOf branches, j)
termination_by structural fuel => fuel

/-- The function `plist(i)`, from its `while` loop on, with the elements `v`
collected so far.  Reading `tokens[i].type` past the end of the tokens is a
`TypeError`. -/
def plist (tokens : List Branch) : Nat → Nat → List Branch → Except Err (Branch × Nat)
  | 0, _, _ => Except.error Err.outOfFuel
  | fuel + 1, i, v =>
    if i < tokens.length then
      match pexp tokens fuel i with
      | Except.error e => Except.error e
      | Except.ok (o, j) =>
        match tokens[j]? with
        | none => Except.error Err.typeError
        | some t =>
          let endBracket := isBracket ']' t
          if endBracket && o.isNull then Except.ok (Branch.LIST v, j)
          else if endBracket then Except.ok (Branch.LIST (v ++ [o]), j)
          else plist tokens fuel (j + 1) (v ++ [o])
    else Except.ok (Branch.LIST v, i)
termination_by structural fuel => fuel

/-- The function `pdict(i)`, from its `while` loop on, with the entries `v`
collected so far. -/
def pdict (tokens : List Branch) : Nat → Nat → List (Branch × Branch) → Except Err (Branch × Nat)
  | 0, _, _ => Except.error Err.outOfFuel
  | fuel + 1, i, v =>
    if i < tokens.length then
      match pexp tokens fuel i with
      | Except.error e => Except.error e
      | Except.ok (keyElement, j) =>
        let key := keyElement.child
        match tokens[j]? with
        | none => Except.error Err.typeError
        | some t =>
          if key.isNull && isBracket '\x7d' t then Except.ok (Branch.DICTIONARY v, j)
          else if isSpecial ',' t || isBracket '\x7d' t then
            if isBracket '\x7d' t then Except.ok (Branch.DICTIONARY (v ++ [(key, keyElement)]), j)
            else pdict tokens fuel (j + 1) (v ++ [(key, keyElement)])
          else
            match pexp tokens fuel (j + 1) with
            | Except.error e => Except.error e
            | Except.ok (val, j1) =>
              match tokens[j1]? with
              | none => Except.error Err.typeError
              | some t1 =>
                if isBracket '\x7d' t1 then Except.ok (Branch.DICTIONARY (v ++ [(key, val)]), j1)
                else pdict tokens fuel (j1 + 1) (v ++ [(key, val)])
    else Except.ok (Branch.DICTIONARY v, i)
termination_by structural fuel => fuel

end

/-- The function `parse(tokens)`: `pexp(0)[0]`. -/
def parse (fuel : Nat) (tokens : List Branch) : Except Err Branch :=
  match pexp tokens fuel 0 with
  | Except.error e => Except.error e
  | Except.ok (tree, _) => Except.ok tree

/-! ## Runtime values -/

/-- The objects `evaluate` returns: the final tokens (NUMBER, STRING, NULL, and
an OPERATOR token left in the tree), and the objects of `types.element`.  A
CLOSURE holds what the JavaScript arrow function closes over: `ctx` and the
FUNCTION node's `variable` and `expression`.  A DICTIONARY holds the own
properties of its `val` object in insertion order.

The last two constructors are JavaScript values that are not objects of the
language but that the evaluator can return all the same: a bare number, and
the bare `val` field of a language object. -/
inductive Value where
  | OPERATOR (val : String)
  | NUMBER (num den : Int)
  | STRING (ref : Nat) (val : List Nat)
  | NULL
  | CLOSURE (ctx : List (String × Value)) (var : Option String) (expression : Branch)
  | LIST (val : List Value)
  | DICTIONARY (val : List (String × Value))
  | RAWNUMBER (n : Int)
  | RAWVAL (owner : Value)

/-- The environment `ctx`: the own properties of a JavaScript object. -/
abbrev Ctx := List (String × Value)

/-- The counter that hands out buffer references. -/
abbrev Heap := Nat

/-- The `type` field of a language object (`types.token`, `types.element`);
a bare JavaScript value has none. -/
def Value.typeTag : Value → Option Int
  | Value.OPERATOR _ => some 2
  | Value.NUMBER _ _ => some 4
  | Value.STRING _ _ => some 5
  | Value.NULL => some 6
  | Value.CLOSURE _ _ _ => some 13
  | Value.LIST _ => some 14
  | Value.DICTIONARY _ => some 15
  | Value.RAWNUMBER _ => none
  | Value.RAWVAL _ => none

/-- Whether the object has a `val` property; a NULL object is `{ type: NULL }`. -/
def Value.hasVal : Value → Bool
  | Value.NULL => false
  | _ => true

/-- JavaScript truthiness, as tested by `x || { type: NULL }`: every object is
truthy, the number 0 and the empty string are not. -/
def Value.truthy : Value → Bool
  | Value.RAWNUMBER n => n ≠ 0
  | Value.RAWVAL (Value.OPERATOR s) => s ≠ ""
  | Value.RAWVAL Value.NULL => false
  | _ => true

/-- The property names every JavaScript object inherits from
`Object.prototype`; reading one of them from an object that does not own it
gives a host function, which the embedding does not model. -/
def inheritedNames : List String :=
  ["constructor", "__proto__", "hasOwnProperty", "isPrototypeOf", "propertyIsEnumerable",
   "toLocaleString", "toString", "valueOf", "__defineGetter__", "__defineSetter__",
   "__lookupGetter__", "__lookupSetter__"]

/-- The assignment `res[k] = v` on the own properties of an object: an
existing key keeps its place. -/
def setKey (k : String) (v : Value) : List (String × Value) → List (String × Value)
  | [] => [(k, v)]
  | (k1, v1) :: rest => if k1 = k then (k, v) :: rest else (k1, v1) :: setKey k v rest

/-- The expression `obj[k] || { type: NULL }` on the own properties `m` of an
object. -/
def getKey (m : List (String × Value)) (k : String) : Except Err Value :=
  match m.lookup k with
  | some v => Except.ok (if v.truthy then v else Value.NULL)
  | none => if inheritedNames.contains k then Except.error Err.unmodelled else Except.ok Value.NULL

/-- The string JavaScript makes of a number that holds an integer, as
`toString()` and as a property name: its decimal digits when it is below
`2^53` in absolute value.  A larger number is written with the fewest digits
that tell it from its neighbours, or with an exponent; the embedding answers
`none` there. -/
def numberToString (n : Int) : Option String :=
  if n.natAbs < 9007199254740992 then some (toString n) else none

/-- The value of `k` in case `.` of `evaluate`: a number, a string, or
`undefined`. -/
inductive Key where
  | num (n : Int)
  | str (s : String)
  | undef

/-- The `switch (b.type)` that computes `k` from the evaluated right operand. -/
def keyOf : Value → Except Err Key
  | Value.NUMBER n _ => Except.ok (Key.num n)
  | Value.STRING _ bs =>
    match utf8Decode bs with
    | some cs => Except.ok (Key.str (String.mk cs))
    | none => Except.error Err.unmodelled
  | Value.RAWNUMBER _ => Except.error Err.unmodelled
  | Value.RAWVAL _ => Except.error Err.unmodelled
  | _ => Except.ok Key.undef

/-- The end of case `.` of `evaluate`, from `if (a.type === types.token.STRING)` on.
A string key on a buffer or an array reaches host properties and is not
modelled. -/
def index (a : Value) (k : Key) (h : Heap) : Except Err (Value × Heap) :=
  match a with
  | Value.STRING _ bs =>
    match k with
    | Key.num n =>
      if 0 ≤ n ∧ n < bs.length then
        if bs.getD n.toNat 0 = 0 then Except.ok (Value.NULL, h)
        else Except.ok (Value.STRING h [bs.getD n.toNat 0], h + 1)
      else Except.ok (Value.NULL, h)
    | Key.str _ => Except.error Err.unmodelled
    | Key.undef => Except.ok (Value.NULL, h)
  | Value.LIST vs =>
    match k with
    | Key.num n =>
      if 0 ≤ n ∧ n < vs.length then
        Except.ok (if (vs.getD n.toNat Value.NULL).truthy then vs.getD n.toNat Value.NULL
          else Value.NULL, h)
      else Except.ok (Value.NULL, h)
    | Key.str _ => Except.error Err.unmodelled
    | Key.undef => Except.ok (Value.NULL, h)
  | Value.DICTIONARY m =>
    let name : Option String := match k with
      | Key.num n => numberToString n
      | Key.str s => some s
      | Key.undef => some "undefined"
    match name with
    | none => Except.error Err.unmodelled
    | some key =>
      match getKey m key with
      | Except.error e => Except.error e
      | Except.ok v => Except.ok (v, h)
  | Value.NULL => Except.error Err.typeError
  | _ => Except.error Err.unmodelled

/-- The call `s.subarray(b, e)` on the bytes of a buffer: a negative index
counts from the end, and both are clamped to the buffer. -/
def subarray (s : List Nat) (b e : Int) : List Nat :=
  let len : Int := s.length
  let rel := fun (x : Int) => if x < 0 then max (len + x) 0 else min x len
  (s.drop (rel b).toNat).take (rel e - rel b).toNat

/-- The first loop of cases `<<` and `>>`, from turn `i` on, for `count` more
turns: move whole bytes by `ni` places; `len` is `a.val.length`. -/
def shiftMove (left : Bool) (a : List Nat) (ni : Nat) (len : Nat) :
    Nat → Nat → List Nat → List Nat
  | 0, _, res => res
  | count + 1, i, res =>
    let source : Int := if left then (len : Int) - i - 1 else i
    let dest : Int := if left then source - ni else source + ni
    if dest > len ∨ dest < 0 then res
    else shiftMove left a ni len count (i + 1) (res.set dest.toNat (a.getD source.toNat 0))

/-- The second loop of cases `<<` and `>>`, from turn `i` on, for `count` more
turns: shift every byte by `nr` bits and bring in the `carry` of the byte
before it.  A byte stored into the buffer is taken modulo 256. -/
def shiftCarry (left : Bool) (nr : Nat) (len : Nat) :
    Nat → Nat → List Nat → Nat → List Nat
  | 0, _, res, _ => res
  | count + 1, i, res, carry =>
    let p : Nat := if left then len - i - 1 else i
    let v := res.getD p 0
    let shifted := (if left then v <<< nr else v >>> nr) % 256
    let stored := (shifted ||| carry) % 256
    let carry1 := if left then v >>> (8 - nr) else v <<< (8 - nr)
    shiftCarry left nr len count (i + 1) (res.set p stored) carry1

/-- The body of cases `<<` and `>>` of `evaluate` on the bytes `a` and a shift
`n ≥ 0`: `ni = Math.floor(n / 8)`, `nr = n % 8`, then the two loops over a
zeroed buffer of the same length. -/
def shiftBuffer (left : Bool) (a : List Nat) (n : Nat) : List Nat :=
  let ni := n / 8
  let nr := n % 8
  let res := shiftMove left a ni a.length a.length 0 (List.replicate a.length 0)
  shiftCarry left nr a.length a.length 0 res 0

/-- The loop of cases `&`, `|`, `^` of `evaluate`; a byte missing from `b` is
`undefined`, which the bit operators read as 0. -/
def bitwise (op : String) (a b : List Nat) : List Nat :=
  (List.range a.length).map fun i =>
    let x := a.getD i 0
    let y := b.getD i 0
    (if op = "&" then x &&& y else if op = "|" then x ||| y else x ^^^ y) % 256

/-- The expression `evaluate(branch.val.a, ctx).val.length` of case `--`. -/
def lengthOf : Value → Except Err Int
  | Value.STRING _ bs => Except.ok bs.length
  | Value.LIST vs => Except.ok vs.length
  | Value.NUMBER _ _ => Except.ok 2
  | Value.OPERATOR s => Except.ok (s.toList.flatMap utf16Units).length
  | Value.CLOSURE _ _ _ => Except.ok 1
  | Value.NULL => Except.error Err.typeError
  | _ => Except.error Err.unmodelled

/-- The object `{ ...a, ...b }` of case `//`: the own properties of two
language objects, which are `type` and (but for NULL) `val`; the right object
overrides the left one. -/
def spread (a b : Value) : Except Err (List (String × Value)) :=
  match a.typeTag, b.typeTag with
  | some _, some tb =>
    Except.ok (("type", Value.RAWNUMBER tb) ::
      (if b.hasVal then [("val", Value.RAWVAL b)]
       else if a.hasVal then [("val", Value.RAWVAL a)] else []))
  | _, _ => Except.error Err.unmodelled

/-- What the cases of `evaluate` that use the left operand before they
evaluate the right one do with it: `++` spreads `a.val`, and `--` reads
`a.val.length`. -/
def checkLeft (op : String) (a : Value) : Except Err Unit :=
  if op = "++" then
    match a with
    | Value.LIST _ => Except.ok ()
    | Value.NULL => Except.error Err.typeError
    | _ => Except.error Err.unmodelled
  else if op = "--" then
    match lengthOf a with
    | Except.ok _ => Except.ok ()
    | Except.error e => Except.error e
  else Except.ok ()

/-- The cases of `switch (branch.val.op)` that evaluate both operands once,
left then right, and combine the two values; `h` is the heap after both. -/
def binary (op : String) (a b : Value) (h : Heap) : Except Err (Value × Heap) :=
  if op = ".." then
    match a, b with
    | Value.STRING _ x, Value.STRING _ y => Except.ok (Value.STRING h (x ++ y), h + 1)
    | _, _ => Except.error Err.unmodelled
  else if op = "++" then
    match a, b with
    | Value.LIST x, Value.LIST y => Except.ok (Value.LIST (x ++ y), h)
    | Value.LIST _, Value.NULL => Except.error Err.typeError
    | _, _ => Except.error Err.unmodelled
  else if op = "//" then
    match spread a b with
    | Except.ok m => Except.ok (Value.DICTIONARY m, h)
    | Except.error e => Except.error e
  else if op = "--" then
    match lengthOf a, b with
    | Except.ok len, Value.NUMBER n d =>
      match fraction.add (fraction.deint len) (-n, d) with
      | some r => Except.ok (Value.NUMBER r.1 r.2, h)
      | none => Except.error Err.unmodelled
    | Except.ok _, Value.NULL => Except.error Err.typeError
    | Except.ok _, _ => Except.error Err.unmodelled
    | Except.error e, _ => Except.error e
  else if op = "/<" ∨ op = "/>" then
    match a, b with
    | Value.STRING _ s, Value.NUMBER n _ =>
      let left := decide (op = "/<")
      Except.ok (Value.STRING h
        (subarray s (if left then 0 else n) (s.length - (if left then n else 0))), h + 1)
    | _, Value.NULL => Except.error Err.typeError
    | Value.NULL, Value.NUMBER _ _ => Except.error Err.typeError
    | _, _ => Except.error Err.unmodelled
  else if op = "<<" ∨ op = ">>" then
    match a, b with
    | Value.STRING _ s, Value.NUMBER n _ =>
      if 0 ≤ n then
        Except.ok (Value.STRING h (shiftBuffer (decide (op = "<<")) s n.toNat), h + 1)
      else Except.error Err.unmodelled
    | _, Value.NULL => Except.error Err.typeError
    | _, _ => Except.error Err.unmodelled
  else if op = "&" ∨ op = "|" ∨ op = "^" then
    match a, b with
    | Value.STRING _ x, Value.STRING _ y => Except.ok (Value.STRING h (bitwise op x y), h + 1)
    | _, _ => Except.error Err.unmodelled
  else if op = "+" ∨ op = "-" ∨ op = "*" ∨ op = "/" ∨ op = "<" ∨ op = ">" ∨ op = "<=" ∨ op = ">="
  then
    match a, b with
    | Value.NUMBER an ad, Value.NUMBER bn bd =>
      match fraction.operate op (an, ad) (bn, bd) with
      | some r => Except.ok (Value.NUMBER r.1 r.2, h)
      | none => Except.error Err.unmodelled
    | Value.NULL, _ => Except.error Err.typeError
    | Value.NUMBER _ _, Value.NULL => Except.error Err.typeError
    | _, _ => Except.error Err.unmodelled
  else if op = "~=" then
    match a.typeTag, b.typeTag with
    | some ta, some tb =>
      Except.ok (Value.NUMBER (fraction.debool (decide (ta = tb))).1
        (fraction.debool (decide (ta = tb))).2, h)
    | _, _ => Except.error Err.unmodelled
  else if op = "=" then
    match a.typeTag, b.typeTag with
    | some ta, some tb =>
      if ta ≠ tb then Except.ok (Value.NUMBER 0 1, h)
      else
        match a, b with
        | Value.STRING ra _, Value.STRING rb _ =>
          Except.ok (Value.NUMBER (if ra = rb then 1 else 0) 1, h)
        | Value.NUMBER an ad, Value.NUMBER bn bd =>
          Except.ok (Value.NUMBER (fraction.eq (an, ad) (bn, bd)).1 1, h)
        | _, _ => Except.ok (Value.NUMBER 0 1, h)
    | _, _ => Except.error Err.unmodelled
  else Except.error Err.unmodelled

/-- The loop of `array.map(x => f(x))`: the calls are made in order and each
starts from the heap the one before it left. -/
def mapCalls {α : Type} (call : α → Heap → Except Err (Value × Heap)) :
    List α → Heap → Except Err (List Value × Heap)
  | [], h => Except.ok ([], h)
  | x :: xs, h =>
    match call x h with
    | Except.error e => Except.error e
    | Except.ok (v, h1) =>
      match mapCalls call xs h1 with
      | Except.error e => Except.error e
      | Except.ok (vs, h2) => Except.ok (v :: vs, h2)

/-- The environment a closure evaluates its body in:
`variable ? { ...ctx, [variable]: x } : ctx`. -/
def extend (ctx : Ctx) (var : Option String) (x : Value) : Ctx :=
  match var with
  | some name => if name ≠ "" then setKey name x ctx else ctx
  | none => ctx

/-- The loop `for (const e of branch.val)` of case DICTIONARY, as a fold over
the entries with the object `res` built so far. -/
def dictLoop (eval : Branch → Heap → Except Err (Value × Heap)) :
    List (Branch × Branch) → List (String × Value) → Heap →
      Except Err (List (String × Value) × Heap)
  | [], res, h => Except.ok (res, h)
  | (k, e) :: rest, res, h =>
    match k with
    | Branch.WORD w =>
      if w = "__proto__" then Except.error Err.unmodelled
      else
        match eval e h with
        | Except.error err => Except.error err
        | Except.ok (v, h1) => dictLoop eval rest (setKey w v res) h1
    | _ =>
      match eval k h with
      | Except.error err => Except.error err
      | Except.ok (kv, h1) =>
        match kv with
        | Value.STRING _ bs =>
          match utf8Decode bs with
          | none => Except.error Err.unmodelled
          | some cs =>
            if String.mk cs = "__proto__" then Except.error Err.unmodelled
            else
              match eval e h1 with
              | Except.error err => Except.error err
              | Except.ok (v, h2) => dictLoop eval rest (setKey (String.mk cs) v res) h2
        | Value.NULL => Except.error Err.typeError
        | _ => Except.error Err.unmodelled

/-- The `case` labels of `switch (branch.val.op)`; for any other operator the
switch does nothing and `evaluate` returns `undefined`. -/
def switchCases : List String :=
  [".", "..", "++", "//", "--", ".>", "/<", "/>", "<<", ">>", "&", "|", "^",
   "+", "-", "*", "/", "<", ">", "<=", ">=", "~=", "="]

/-- The function `evaluate(branch, ctx)`.  The heap counter goes in and comes
out; `fuel` bounds the depth of the recursion. -/
def evaluate : Nat → Branch → Ctx → Heap → Except Err (Value × Heap)
  | 0, _, _, _ => Except.error Err.outOfFuel
  | fuel + 1, branch, ctx, h =>
    match branch with
    | Branch.EXPRESSION val => evaluate fuel val ctx h
    | Branch.COMBINATION op a b =>
      if switchCases.contains op = false then Except.error Err.unmodelled
      else
      match evaluate fuel a ctx h with
      | Except.error e => Except.error e
      | Except.ok (va, h1) =>
        if op = "." then
          match b with
          | Branch.WORD w => index va (Key.str w) h1
          | Branch.UNDEFINED => Except.error Err.typeError
          | _ =>
            match evaluate fuel b ctx h1 with
            | Except.error e => Except.error e
            | Except.ok (vb, h2) =>
              match keyOf vb with
              | Except.error e => Except.error e
              | Except.ok k => index va k h2
        else if op = ".>" then
          match evaluate fuel b ctx h1 with
          | Except.error e => Except.error e
          | Except.ok (f, h2) =>
            let call := fun (x : Value) (hx : Heap) =>
              match f with
              | Value.CLOSURE cctx var expression => evaluate fuel expression (extend cctx var x) hx
              | Value.RAWNUMBER _ => Except.error Err.unmodelled
              | Value.RAWVAL _ => Except.error Err.unmodelled
              | _ => Except.error Err.typeError
            match va with
            | Value.DICTIONARY _ =>
              match evaluate fuel a ctx h2 with
              | Except.error e => Except.error e
              | Except.ok (Value.DICTIONARY m, h3) =>
                match mapCalls
                  (fun (key : String) (hx : Heap) =>
                    call (Value.STRING hx (utf8Encode key.toList)) (hx + 1))
                  (sortKeys (m.map Prod.fst)) h3 with
                | Except.error e => Except.error e
                | Except.ok (vs, h4) => Except.ok (Value.LIST vs, h4)
              | Except.ok _ => Except.error Err.unmodelled
            | Value.LIST xs =>
              match mapCalls call xs h2 with
              | Except.error e => Except.error e
              | Except.ok (vs, h3) => Except.ok (Value.LIST vs, h3)
            | _ => Except.error Err.unmodelled
        else
          match checkLeft op va with
          | Except.error e => Except.error e
          | Except.ok _ =>
            match evaluate fuel b ctx h1 with
            | Except.error e => Except.error e
            | Except.ok (vb, h2) => binary op va vb h2
    | Branch.APPLICATION a b =>
      match evaluate fuel a ctx h with
      | Except.error e => Except.error e
      | Except.ok (f, h1) =>
        match evaluate fuel b ctx h1 with
        | Except.error e => Except.error e
        | Except.ok (x, h2) =>
          match f with
          | Value.CLOSURE cctx var expression => evaluate fuel expression (extend cctx var x) h2
          | Value.RAWNUMBER _ => Except.error Err.unmodelled
          | Value.RAWVAL _ => Except.error Err.unmodelled
          | _ => Except.error Err.typeError
    | Branch.FUNCTION var expression => Except.ok (Value.CLOSURE ctx var expression, h)
    | Branch.WORD val =>
      match getKey ctx val with
      | Except.error e => Except.error e
      | Except.ok v => Except.ok (v, h)
    | Branch.DICTIONARY val =>
      match dictLoop (fun e hx => evaluate fuel e ctx hx) val [] h with
      | Except.error e => Except.error e
      | Except.ok (res, h1) => Except.ok (Value.DICTIONARY res, h1)
    | Branch.LIST val =>
      match mapCalls (fun e hx => evaluate fuel e ctx hx) val h with
      | Except.error e => Except.error e
      | Except.ok (res, h1) => Except.ok (Value.LIST res, h1)
    | Branch.OPERATOR val => Except.ok (Value.OPERATOR val, h)
    | Branch.NUMBER num den => Except.ok (Value.NUMBER num den, h)
    | Branch.NUMERAL _ _ => Except.error Err.unmodelled
    | Branch.STRING ref val => Except.ok (Value.STRING ref val, h)
    | Branch.NULL => Except.ok (Value.NULL, h)
    | Branch.UNDEFINED => Except.error Err.typeError
    | Branch.BRACKET _ => Except.error Err.unmodelled
    | Branch.SPECIAL _ => Except.error Err.unmodelled

/-- The function `interpret(script, ctx)`: lex, parse, evaluate.  Buffer
references handed out by the evaluator start after those of the tokens. -/
def interpret (fuel : Nat) (script : String) (ctx : Ctx) : Except Err Value :=
  match parse fuel (lex script) with
  | Except.error e => Except.error e
  | Except.ok tree =>
    match evaluate fuel tree ctx (lex script).length with
    | Except.error e => Except.error e
    | Except.ok (v, _) => Except.ok v

/-- The call `f.val(x)` of case APPLICATION (and of the mapping in `.>`) on
two values: a closure evaluates its body in its extended environment, and
calling anything else is a `TypeError`. -/
def applyValue (fuel : Nat) (f x : Value) (h : Heap) : Except Err (Value × Heap) :=
  match f with
  | Value.CLOSURE cctx var expression => evaluate fuel expression (extend cctx var x) h
  | Value.RAWNUMBER _ => Except.error Err.unmodelled
  | Value.RAWVAL _ => Except.error Err.unmodelled
  | _ => Except.error Err.typeError

/-! ## `pretty` -/

/-- The call `str.replaceAll(pat, rep)` for a pattern of one character. -/
def replaceAll (pat : Char) (rep : List Char) (str : List Char) : List Char :=
  str.flatMap fun c => if c = pat then rep else [c]

/-- The STRING case of `pretty` on the text of the buffer: the four
`replaceAll` calls in the order of the source, between two double quotes. -/
def prettyText (text : List Char) : List Char :=
  ['"'] ++ replaceAll '\t' ['\\', 't']
    (replaceAll '\n' ['\\', 'n']
      (replaceAll '"' ['\\', '"']
        (replaceAll '\\' ['\\', '\\'] text))) ++ ['"']

/-- Whether a property name is an array index, which `for (const key in obj)`
visits before the other names and out of insertion order. -/
def isIndexName (k : String) : Bool :=
  k.toList ≠ [] && k.toList.all fun c => decide (48 ≤ c.toNat ∧ c.toNat ≤ 57)

mutual

/-- The function `pretty(v, tab)`; `none` where the embedding does not follow
JavaScript (a number from `2^53` on, a buffer that is not well-formed UTF-8,
a bare `val`, a dictionary with an array-index key). -/
def pretty : Value → Nat → Option (List Char)
  | Value.NUMBER num den, _ =>
    if den = 1 then (numberToString num).map String.toList
    else
      match numberToString num, numberToString den with
      | some n, some d => some (n.toList ++ " / ".toList ++ d.toList)
      | _, _ => none
  | Value.STRING _ val, _ => (utf8Decode val).map prettyText
  | Value.NULL, _ => some ['_']
  | Value.DICTIONARY val, tab =>
    if val.any (fun e => isIndexName e.1) then none
    else
      (prettyEntries val tab).map fun body =>
        "\x7b\n".toList ++ body ++ List.replicate tab '\t' ++ ['\x7d']
  | Value.LIST val, tab =>
    (prettyList val tab).map fun items =>
      ['['] ++ (String.intercalate ", " (items.map String.mk)).toList ++ [']']
  | Value.CLOSURE _ _ _, _ => some "(\\x)".toList
  | Value.OPERATOR _, _ => some "(# UNKNOWN #)".toList
  | Value.RAWNUMBER _, _ => some "(# UNKNOWN #)".toList
  | Value.RAWVAL _, _ => none

/-- The `val.map(x => pretty(x, tab))` of case LIST. -/
def prettyList : List Value → Nat → Option (List (List Char))
  | [], _ => some []
  | v :: rest, tab =>
    match pretty v tab, prettyList rest tab with
    | some x, some xs => some (x :: xs)
    | _, _ => none

/-- The loop `for (const key in v.val)` of case DICTIONARY: one line per
entry. -/
def prettyEntries : List (String × Value) → Nat → Option (List Char)
  | [], _ => some []
  | (key, v) :: rest, tab =>
    match (utf8Decode (utf8Encode key.toList)).map prettyText, pretty v (tab + 1),
      prettyEntries rest tab with
    | some k, some x, some xs =>
      some (List.replicate tab '\t' ++ ['\t'] ++ k ++ ": ".toList ++ x ++ ",\n".toList ++ xs)
    | _, _, _ => none

end

/-! ## Vocabulary of the statements -/

/-- An operand leaf: a NUMBER, STRING, NULL or WORD token. -/
def Branch.isLeaf : Branch → Bool
  | Branch.NUMBER _ _ => true
  | Branch.NUMERAL _ _ => true
  | Branch.STRING _ _ => true
  | Branch.NULL => true
  | Branch.WORD _ => true
  | _ => false

/-- The position of the first tier of `tiers` that holds `op`. -/
def tierIndex (op : String) : List (List String) → Option Nat
  | [] => none
  | t :: rest => if t.contains op then some 0 else (tierIndex op rest).map (· + 1)

/-- The tier of an operator in the precedence table, 0 for the tightest. -/
def tierOf (op : String) : Option Nat := tierIndex op precedence

/-- The closure `\x (x * 2)` evaluates to in the empty environment: it doubles
its argument. -/
def doubling : Value :=
  Value.CLOSURE [] (some "x")
    (Branch.EXPRESSION (Branch.EXPRESSION
      (Branch.COMBINATION "*" (Branch.WORD "x") (Branch.NUMBER 2 1))))

/-- A byte buffer read as a big-endian unsigned integer. -/
def beValue (a : List Nat) : Nat := a.foldl (fun acc b => acc * 256 + b) 0

/-- The big-endian encoding of `x` on `len` bytes (of `x` modulo `2^(8 len)`). -/
def beEncode : Nat → Nat → List Nat
  | 0, _ => []
  | len + 1, x => beEncode len (x / 256) ++ [x % 256]

/-- The byte of weight `256^k` in the base-256 expansion of `x`. -/
def byteAt (x k : Nat) : Nat := x / 256 ^ k % 256

/-- A character that reaches the `default:` label of the lexer's main loop:
it extends a WORD. -/
def isWordChar (c : Char) : Bool :=
  !(c = '#' || c = '"' || c = ' ' || c = '\t' || c = '\r' || c = '\n'
    || c = '(' || c = ')' || c = '[' || c = ']' || c = '\x7b' || c = '\x7d'
    || c = '\\' || c = ':' || c = ',' || c = '_' || c = '@'
    || decide (48 ≤ c.toNat ∧ c.toNat ≤ 57) || operatorChars.contains c)

/-- The initial state of `lex`: no tokens, an empty accumulator. -/
def lexStart : LexState := { tokens := [], token := [], ctype := none }

/-- A decimal digit, the test `48 <= v && v <= 57` of the lexer. -/
def isDigitChar (c : Char) : Bool := decide (48 ≤ c.toNat ∧ c.toNat ≤ 57)

/-- The characters the inner loop of a numeric literal consumes besides the
first decimal point: digits and the separator `_`. -/
def isNumberChar (c : Char) : Bool := isDigitChar c || c = '_'

/-- The digits among the characters of a literal, in order. -/
def digitsOf (cs : List Char) : List Char := cs.filter isDigitChar

/-- What the four `replaceAll` calls of `pretty` make of one character. -/
def escapeChar (c : Char) : List Char :=
  if c = '\\' then ['\\', '\\']
  else if c = '"' then ['\\', '"']
  else if c = '\n' then ['\\', 'n']
  else if c = '\t' then ['\\', 't']
  else [c]

/-- The pair that case `*` of `fraction.operate` returns when neither product
is rounded. -/
def mulExact (a b : Int × Int) : Int × Int :=
  let f1 := fraction.simplify a.1 b.2
  let f2 := fraction.simplify b.1 a.2
  (f1.1 * f2.1, f1.2 * f2.2)

/-- The pair that case `+` of `fraction.operate` returns when no product and
no sum is rounded. -/
def addExact (a b : Int × Int) : Int × Int :=
  fraction.simplify (a.1 * b.2 + b.1 * a.2) (a.2 * b.2)

/-! ## Theorems -/

/-! ### The parser on flat token sequences -/

theorem tierScan_nil (ops : List String) (done : List Branch) (prev : Branch) :
    tierScan ops done prev [] = done.reverse ++ [prev] := by
  simp [tierScan]

theorem tierScan_fold (ops : List String) (done : List Branch) (prev b : Branch)
    (op : String) (rest : List Branch) (h : ops.contains op = true) :
    tierScan ops done prev (Branch.OPERATOR op :: b :: rest)
      = tierScan ops done (Branch.COMBINATION op prev b) rest := by
  rw [tierScan.eq_3]
  simp only [h, if_true]

theorem tierScan_fold_last (ops : List String) (done : List Branch) (prev : Branch)
    (op : String) (h : ops.contains op = true) :
    tierScan ops done prev [Branch.OPERATOR op]
      = done.reverse ++ [Branch.COMBINATION op prev Branch.UNDEFINED] := by
  rw [tierScan.eq_2]
  simp only [h, if_true]
  rw [tierScan.eq_1]

theorem tierScan_keep (ops : List String) (done : List Branch) (prev : Branch)
    (op : String) (rest : List Branch) (h : ops.contains op = false) :
    tierScan ops done prev (Branch.OPERATOR op :: rest)
      = tierScan ops (prev :: done) (Branch.OPERATOR op) rest := by
  cases rest with
  | nil => rw [tierScan.eq_2, if_neg (by rw [h]; exact Bool.false_ne_true)]
  | cons b rest1 => rw [tierScan.eq_3, if_neg (by rw [h]; exact Bool.false_ne_true)]

theorem tierScan_apply (ops : List String) (done : List Branch) (prev cur : Branch)
    (rest : List Branch) (hc : cur.isOperator = false) (hp : prev.isOperator = false) :
    tierScan ops done prev (cur :: rest)
      = tierScan ops done (Branch.APPLICATION prev cur) rest := by
  cases cur
  case OPERATOR => simp [Branch.isOperator] at hc
  all_goals
    rw [tierScan.eq_4]
    · simp only [hp, Bool.not_false, if_true]
    · intro op heq
      cases heq

theorem tierScan_skip (ops : List String) (done : List Branch) (prev cur : Branch)
    (rest : List Branch) (hc : cur.isOperator = false) (hp : prev.isOperator = true) :
    tierScan ops done prev (cur :: rest) = tierScan ops (prev :: done) cur rest := by
  cases cur
  case OPERATOR => simp [Branch.isOperator] at hc
  all_goals
    rw [tierScan.eq_4]
    · simp only [hp, Bool.not_true, Bool.false_eq_true, if_false]
    · intro op heq
      cases heq

theorem isOperator_of_isLeaf {a : Branch} (h : a.isLeaf = true) : a.isOperator = false := by
  cases a <;> simp [Branch.isLeaf, Branch.isOperator] at h ⊢

theorem tierIndex_cons_true (q : String) (t : List String) (rest : List (List String))
    (h : t.contains q = true) : tierIndex q (t :: rest) = some 0 := by
  rw [tierIndex, if_pos h]

theorem tierIndex_cons_false (q : String) (t : List String) (rest : List (List String))
    (h : t.contains q = false) :
    tierIndex q (t :: rest) = (tierIndex q rest).map (· + 1) := by
  rw [tierIndex, if_neg (by rw [h]; exact Bool.false_ne_true)]

theorem foldl_tierPass_single (ts : List (List String)) (x : Branch) :
    ts.foldl tierPass [x] = [x] := by
  induction ts with
  | nil => rfl
  | cons t rest ih =>
    rw [List.foldl_cons]
    have h1 : tierPass [x] t = [x] := by
      simp [tierPass, tierScan_nil]
    rw [h1, ih]

theorem foldl_tierPass_three (ts : List (List String)) (a x : Branch) (q : String)
    (hx : x.isOperator = false)
    (h : (tierIndex q ts).isSome = true) :
    ts.foldl tierPass [a, Branch.OPERATOR q, x] = [Branch.COMBINATION q a x] := by
  induction ts with
  | nil => simp [tierIndex] at h
  | cons t rest ih =>
    rw [List.foldl_cons]
    cases hq : t.contains q with
    | true =>
      have h1 : tierPass [a, Branch.OPERATOR q, x] t = [Branch.COMBINATION q a x] := by
        simp only [tierPass]
        rw [tierScan_fold _ _ _ _ _ _ hq, tierScan_nil]
        rfl
      rw [h1, foldl_tierPass_single]
    | false =>
      have h1 : tierPass [a, Branch.OPERATOR q, x] t = [a, Branch.OPERATOR q, x] := by
        simp only [tierPass]
        rw [tierScan_keep _ _ _ _ _ hq, tierScan_skip t [a] (Branch.OPERATOR q) x [] hx rfl,
          tierScan_nil]
        rfl
      rw [h1]
      apply ih
      rw [tierIndex_cons_false q t rest hq] at h
      simpa using h

theorem foldl_tierPass_right (ts : List (List String)) (a b c : Branch) (p q : String)
    (i j : Nat) (hb : b.isOperator = false)
    (hc : c.isOperator = false) (hp : tierIndex p ts = some i) (hq : tierIndex q ts = some j)
    (hij : i < j) :
    ts.foldl tierPass [a, Branch.OPERATOR q, b, Branch.OPERATOR p, c]
      = [Branch.COMBINATION q a (Branch.COMBINATION p b c)] := by
  induction ts generalizing i j with
  | nil => simp [tierIndex] at hp
  | cons t rest ih =>
    rw [List.foldl_cons]
    have hqt : t.contains q = false := by
      cases hq1 : t.contains q with
      | false => rfl
      | true =>
        rw [tierIndex_cons_true q t rest hq1] at hq
        have hj : 0 = j := Option.some.inj hq
        omega
    have hqr : tierIndex q rest = some (j - 1) ∧ 0 < j := by
      rw [tierIndex_cons_false q t rest hqt, Option.map_eq_some'] at hq
      obtain ⟨k, hk, rfl⟩ := hq
      simp [hk]
    cases hpt : t.contains p with
    | true =>
      have h1 : tierPass [a, Branch.OPERATOR q, b, Branch.OPERATOR p, c] t
          = [a, Branch.OPERATOR q, Branch.COMBINATION p b c] := by
        simp only [tierPass]
        rw [tierScan_keep _ _ _ _ _ hqt, tierScan_skip t [a] (Branch.OPERATOR q) b _ hb rfl,
          tierScan_fold _ _ _ _ _ _ hpt, tierScan_nil]
        rfl
      rw [h1]
      apply foldl_tierPass_three rest a (Branch.COMBINATION p b c) q rfl
      simp [hqr.1]
    | false =>
      have h1 : tierPass [a, Branch.OPERATOR q, b, Branch.OPERATOR p, c] t
          = [a, Branch.OPERATOR q, b, Branch.OPERATOR p, c] := by
        simp only [tierPass]
        rw [tierScan_keep _ _ _ _ _ hqt, tierScan_skip t [a] (Branch.OPERATOR q) b _ hb rfl,
          tierScan_keep _ _ _ _ _ hpt,
          tierScan_skip t [b, Branch.OPERATOR q, a] (Branch.OPERATOR p) c _ hc rfl, tierScan_nil]
        rfl
      rw [h1]
      rw [tierIndex_cons_false p t rest hpt, Option.map_eq_some'] at hp
      obtain ⟨k, hk, rfl⟩ := hp
      exact ih k (j - 1) hk hqr.1 (by omega)

theorem foldl_tierPass_left (ts : List (List String)) (a b c : Branch) (p q : String)
    (i j : Nat) (hb : b.isOperator = false)
    (hc : c.isOperator = false) (hp : tierIndex p ts = some i) (hq : tierIndex q ts = some j)
    (hij : i < j) :
    ts.foldl tierPass [a, Branch.OPERATOR p, b, Branch.OPERATOR q, c]
      = [Branch.COMBINATION q (Branch.COMBINATION p a b) c] := by
  induction ts generalizing i j with
  | nil => simp [tierIndex] at hp
  | cons t rest ih =>
    rw [List.foldl_cons]
    have hqt : t.contains q = false := by
      cases hq1 : t.contains q with
      | false => rfl
      | true =>
        rw [tierIndex_cons_true q t rest hq1] at hq
        have hj : 0 = j := Option.some.inj hq
        omega
    have hqr : tierIndex q rest = some (j - 1) ∧ 0 < j := by
      rw [tierIndex_cons_false q t rest hqt, Option.map_eq_some'] at hq
      obtain ⟨k, hk, rfl⟩ := hq
      simp [hk]
    cases hpt : t.contains p with
    | true =>
      have h1 : tierPass [a, Branch.OPERATOR p, b, Branch.OPERATOR q, c] t
          = [Branch.COMBINATION p a b, Branch.OPERATOR q, c] := by
        simp only [tierPass]
        rw [tierScan_fold _ _ _ _ _ _ hpt, tierScan_keep _ _ _ _ _ hqt,
          tierScan_skip t [Branch.COMBINATION p a b] (Branch.OPERATOR q) c _ hc rfl, tierScan_nil]
        rfl
      rw [h1]
      apply foldl_tierPass_three rest (Branch.COMBINATION p a b) c q hc
      simp [hqr.1]
    | false =>
      have h1 : tierPass [a, Branch.OPERATOR p, b, Branch.OPERATOR q, c] t
          = [a, Branch.OPERATOR p, b, Branch.OPERATOR q, c] := by
        simp only [tierPass]
        rw [tierScan_keep _ _ _ _ _ hpt, tierScan_skip t [a] (Branch.OPERATOR p) b _ hb rfl,
          tierScan_keep _ _ _ _ _ hqt,
          tierScan_skip t [b, Branch.OPERATOR p, a] (Branch.OPERATOR q) c _ hc rfl, tierScan_nil]
        rfl
      rw [h1]
      rw [tierIndex_cons_false p t rest hpt, Option.map_eq_some'] at hp
      obtain ⟨k, hk, rfl⟩ := hp
      exact ih k (j - 1) hk hqr.1 (by omega)

/-- On tokens that are all operand leaves or operators, the first loop of
`pexp` collects every token from `i` on. -/
theorem pexpLoop_flat (tokens : List Branch)
    (hflat : ∀ t ∈ tokens, t.isLeaf = true ∨ t.isOperator = true) :
    ∀ (fuel i : Nat) (branches : List Branch), i ≤ tokens.length → tokens.length - i < fuel →
      pexpLoop tokens fuel i branches = Except.ok (branches ++ tokens.drop i, tokens.length) := by
  intro fuel
  induction fuel with
  | zero => intro i branches _ h; omega
  | succ fuel ih =>
    intro i branches hi hfuel
    rw [pexpLoop]
    by_cases hlt : i < tokens.length
    · have hget : tokens[i]? = some tokens[i] := List.getElem?_eq_getElem hlt
      have hdrop : tokens.drop i = tokens[i] :: tokens.drop (i + 1) :=
        List.drop_eq_getElem_cons hlt
      have hmem : tokens[i] ∈ tokens := List.getElem_mem hlt
      rw [hget, hdrop]
      have hnext := ih (i + 1) (branches ++ [tokens[i]]) (by omega) (by omega)
      rcases hflat _ hmem with h | h
      · revert h hnext
        cases tokens[i] <;> intro h hnext <;>
          simp_all [Branch.isLeaf, isCloser]
      · revert h hnext
        cases tokens[i] <;> intro h hnext <;>
          simp_all [Branch.isOperator, isCloser]
    · have hi2 : i = tokens.length := by omega
      subst hi2
      simp

theorem parse_flat (tokens : List Branch)
    (hflat : ∀ t ∈ tokens, t.isLeaf = true ∨ t.isOperator = true)
    (fuel : Nat) (hfuel : tokens.length + 2 ≤ fuel) :
    parse fuel tokens = Except.ok (expressionOf tokens) := by
  obtain ⟨k, rfl⟩ : ∃ k, fuel = k + 1 := ⟨fuel - 1, by omega⟩
  rw [parse, pexp, pexpLoop_flat tokens hflat k 0 [] (by omega) (by omega)]
  simp

theorem resolve_apply_left (a b c : Branch) (op : String) (i : Nat)
    (ha : a.isOperator = false) (hb : b.isOperator = false) (hc : c.isOperator = false)
    (hop : tierOf op = some i) :
    resolve [a, b, Branch.OPERATOR op, c]
      = [Branch.COMBINATION op (Branch.APPLICATION a b) c] := by
  have hprec : precedence = ["."] :: precedence.tail := rfl
  rw [resolve, hprec, List.foldl_cons]
  cases hdot : ["."].contains op with
  | true =>
    have h1 : tierPass [a, b, Branch.OPERATOR op, c] ["."]
        = [Branch.COMBINATION op (Branch.APPLICATION a b) c] := by
      simp only [tierPass]
      rw [tierScan_apply _ _ _ _ _ hb ha, tierScan_fold _ _ _ _ _ _ hdot, tierScan_nil]
      rfl
    rw [h1, foldl_tierPass_single]
  | false =>
    have h1 : tierPass [a, b, Branch.OPERATOR op, c] ["."]
        = [Branch.APPLICATION a b, Branch.OPERATOR op, c] := by
      simp only [tierPass]
      rw [tierScan_apply _ _ _ _ _ hb ha, tierScan_keep _ _ _ _ _ hdot,
        tierScan_skip ["."] [Branch.APPLICATION a b] (Branch.OPERATOR op) c _ hc rfl,
        tierScan_nil]
      rfl
    rw [h1]
    apply foldl_tierPass_three _ _ _ _ hc
    rw [tierOf, hprec, tierIndex_cons_false op ["."] _ hdot] at hop
    cases h : tierIndex op precedence.tail with
    | none => rw [h] at hop; cases hop
    | some k => rfl

theorem resolve_apply_right (a b c : Branch) (op : String) (i : Nat)
    (hb : b.isOperator = false) (hc : c.isOperator = false)
    (hop : tierOf op = some i) (hdot : op ≠ ".") :
    resolve [a, Branch.OPERATOR op, b, c]
      = [Branch.COMBINATION op a (Branch.APPLICATION b c)] := by
  have hprec : precedence = ["."] :: precedence.tail := rfl
  have hdot1 : ["."].contains op = false := by simpa using hdot
  rw [resolve, hprec, List.foldl_cons]
  have h1 : tierPass [a, Branch.OPERATOR op, b, c] ["."]
      = [a, Branch.OPERATOR op, Branch.APPLICATION b c] := by
    simp only [tierPass]
    rw [tierScan_keep _ _ _ _ _ hdot1,
      tierScan_skip ["."] [a] (Branch.OPERATOR op) b _ hb rfl,
      tierScan_apply _ _ _ _ _ hc hb, tierScan_nil]
    rfl
  rw [h1]
  apply foldl_tierPass_three precedence.tail a (Branch.APPLICATION b c) op rfl
  rw [tierOf, hprec, tierIndex_cons_false op ["."] _ hdot1] at hop
  cases h : tierIndex op precedence.tail with
  | none => rw [h] at hop; cases hop
  | some k => rfl

theorem resolve_member_then_apply (a b c : Branch) (hc : c.isOperator = false) :
    resolve [a, Branch.OPERATOR ".", b, c]
      = [Branch.APPLICATION (Branch.COMBINATION "." a b) c] := by
  have hprec : precedence = ["."] :: precedence.tail := rfl
  rw [resolve, hprec, List.foldl_cons]
  have h1 : tierPass [a, Branch.OPERATOR ".", b, c] ["."]
      = [Branch.APPLICATION (Branch.COMBINATION "." a b) c] := by
    simp only [tierPass]
    rw [tierScan_fold _ _ _ _ _ _ (by rfl),
      tierScan_apply ["."] [] (Branch.COMBINATION "." a b) c [] hc rfl, tierScan_nil]
    rfl
  rw [h1, foldl_tierPass_single]

/-! ### C1 -/

/-- C1: operators of a tighter tier bind first.  For operand leaves `a`, `b`,
`c` and operators `p`, `q` of the precedence table with `p` in a strictly
earlier tier than `q`, parsing `a q b p c` gives
`COMBINATION(q, a, COMBINATION(p, b, c))` and parsing `a p b q c` gives
`COMBINATION(q, COMBINATION(p, a, b), c)`, each as the child of the EXPRESSION
node `parse` returns; and `2 + 3 * 4` is interpreted as `NUMBER(14,1)`,
`(2 + 3) * 4` as `NUMBER(20,1)`. -/
theorem precedence_follows_tiers (a b c : Branch) (p q : String) (i j fuel : Nat)
    (ha : a.isLeaf = true) (hb : b.isLeaf = true) (hc : c.isLeaf = true)
    (hp : tierOf p = some i) (hq : tierOf q = some j) (hij : i < j) (hfuel : 12 ≤ fuel) :
    parse fuel [a, Branch.OPERATOR q, b, Branch.OPERATOR p, c]
        = Except.ok (Branch.EXPRESSION (Branch.COMBINATION q a (Branch.COMBINATION p b c)))
    ∧ parse fuel [a, Branch.OPERATOR p, b, Branch.OPERATOR q, c]
        = Except.ok (Branch.EXPRESSION (Branch.COMBINATION q (Branch.COMBINATION p a b) c))
    ∧ interpret fuel "2 + 3 * 4" [] = Except.ok (Value.NUMBER 14 1)
    ∧ interpret fuel "(2 + 3) * 4" [] = Except.ok (Value.NUMBER 20 1) := by
  have hob := isOperator_of_isLeaf hb
  have hoc := isOperator_of_isLeaf hc
  obtain ⟨k, rfl⟩ : ∃ k, fuel = k + 12 := ⟨fuel - 12, by omega⟩
  refine ⟨?_, ?_, ?_, ?_⟩
  · rw [parse_flat _ _ _ (by simp)]
    · rw [expressionOf, resolve, foldl_tierPass_right precedence a b c p q i j hob hoc hp hq hij]
      rfl
    · intro t ht
      simp only [List.mem_cons, List.mem_singleton, List.not_mem_nil, or_false] at ht
      rcases ht with rfl | rfl | rfl | rfl | rfl <;> simp [ha, hb, hc, Branch.isOperator]
  · rw [parse_flat _ _ _ (by simp)]
    · rw [expressionOf, resolve, foldl_tierPass_left precedence a b c p q i j hob hoc hp hq hij]
      rfl
    · intro t ht
      simp only [List.mem_cons, List.mem_singleton, List.not_mem_nil, or_false] at ht
      rcases ht with rfl | rfl | rfl | rfl | rfl <;> simp [ha, hb, hc, Branch.isOperator]
  · rfl
  · rfl

/-- C1 at `2 + 3 * 4`: the operators `*` (tier 5) and `+` (tier 6). -/
theorem precedence_follows_tiers_witness :
    parse 12 [Branch.NUMBER 2 1, Branch.OPERATOR "+", Branch.NUMBER 3 1, Branch.OPERATOR "*",
        Branch.NUMBER 4 1]
      = Except.ok (Branch.EXPRESSION (Branch.COMBINATION "+" (Branch.NUMBER 2 1)
          (Branch.COMBINATION "*" (Branch.NUMBER 3 1) (Branch.NUMBER 4 1)))) :=
  (precedence_follows_tiers (Branch.NUMBER 2 1) (Branch.NUMBER 3 1) (Branch.NUMBER 4 1)
    "*" "+" 5 6 12 rfl rfl rfl rfl rfl (by decide) (by decide)).1

/-! ### C2 -/

/-- C2, the claim as stated fails at the operator `.`: the tokens `a . b c`
parse to `APPLICATION(COMBINATION(., a, b), c)`, not to
`COMBINATION(., a, APPLICATION(b, c))`. -/
theorem member_access_before_application :
    parse 6 [Branch.WORD "a", Branch.OPERATOR ".", Branch.WORD "b", Branch.WORD "c"]
        = Except.ok (Branch.EXPRESSION (Branch.APPLICATION
            (Branch.COMBINATION "." (Branch.WORD "a") (Branch.WORD "b")) (Branch.WORD "c")))
    ∧ parse 6 [Branch.WORD "a", Branch.OPERATOR ".", Branch.WORD "b", Branch.WORD "c"]
        ≠ Except.ok (Branch.EXPRESSION (Branch.COMBINATION "." (Branch.WORD "a")
            (Branch.APPLICATION (Branch.WORD "b") (Branch.WORD "c")))) := by
  have h : parse 6 [Branch.WORD "a", Branch.OPERATOR ".", Branch.WORD "b", Branch.WORD "c"]
      = Except.ok (Branch.EXPRESSION (Branch.APPLICATION
          (Branch.COMBINATION "." (Branch.WORD "a") (Branch.WORD "b")) (Branch.WORD "c"))) := rfl
  refine ⟨h, ?_⟩
  rw [h]
  intro hne
  cases hne

/-- C2, amended: juxtaposition binds tighter than every operator but `.`, and
as tight as `.`.  For operand leaves `a`, `b`, `c` and every operator `op` of
the precedence table, `a b op c` parses to `COMBINATION(op, APPLICATION(a, b), c)`;
`a op b c` parses to `COMBINATION(op, a, APPLICATION(b, c))` when `op` is not
`.`, and `a . b c` parses to `APPLICATION(COMBINATION(., a, b), c)`.  With `f`
bound to the doubling closure, `f 3 + 1` evaluates to `NUMBER(7,1)`. -/
theorem application_binds_tighter (a b c : Branch) (op : String) (i fuel : Nat)
    (ha : a.isLeaf = true) (hb : b.isLeaf = true) (hc : c.isLeaf = true)
    (hop : tierOf op = some i) (hfuel : 12 ≤ fuel) :
    parse fuel [a, b, Branch.OPERATOR op, c]
        = Except.ok (Branch.EXPRESSION (Branch.COMBINATION op (Branch.APPLICATION a b) c))
    ∧ (op ≠ "." → parse fuel [a, Branch.OPERATOR op, b, c]
        = Except.ok (Branch.EXPRESSION (Branch.COMBINATION op a (Branch.APPLICATION b c))))
    ∧ parse fuel [a, Branch.OPERATOR ".", b, c]
        = Except.ok (Branch.EXPRESSION (Branch.APPLICATION (Branch.COMBINATION "." a b) c))
    ∧ interpret fuel "f 3 + 1" [("f", doubling)] = Except.ok (Value.NUMBER 7 1) := by
  have hoa := isOperator_of_isLeaf ha
  have hob := isOperator_of_isLeaf hb
  have hoc := isOperator_of_isLeaf hc
  obtain ⟨k, rfl⟩ : ∃ k, fuel = k + 12 := ⟨fuel - 12, by omega⟩
  refine ⟨?_, ?_, ?_, ?_⟩
  · rw [parse_flat _ _ _ (by simp)]
    · rw [expressionOf, resolve_apply_left a b c op i hoa hob hoc hop]
      rfl
    · intro t ht
      simp only [List.mem_cons, List.mem_singleton, List.not_mem_nil, or_false] at ht
      rcases ht with rfl | rfl | rfl | rfl <;> simp [ha, hb, hc, Branch.isOperator]
  · intro hdot
    rw [parse_flat _ _ _ (by simp)]
    · rw [expressionOf, resolve_apply_right a b c op i hob hoc hop hdot]
      rfl
    · intro t ht
      simp only [List.mem_cons, List.mem_singleton, List.not_mem_nil, or_false] at ht
      rcases ht with rfl | rfl | rfl | rfl <;> simp [ha, hb, hc, Branch.isOperator]
  · rw [parse_flat _ _ _ (by simp)]
    · rw [expressionOf, resolve_member_then_apply a b c hoc]
      rfl
    · intro t ht
      simp only [List.mem_cons, List.mem_singleton, List.not_mem_nil, or_false] at ht
      rcases ht with rfl | rfl | rfl | rfl <;> simp [ha, hb, hc, Branch.isOperator]
  · rfl

/-- C2, amended, at `f 3 + 1`. -/
theorem application_binds_tighter_witness :
    parse 12 [Branch.WORD "f", Branch.NUMBER 3 1, Branch.OPERATOR "+", Branch.NUMBER 1 1]
        = Except.ok (Branch.EXPRESSION (Branch.COMBINATION "+"
            (Branch.APPLICATION (Branch.WORD "f") (Branch.NUMBER 3 1)) (Branch.NUMBER 1 1)))
    ∧ interpret 12 "f 3 + 1" [("f", doubling)] = Except.ok (Value.NUMBER 7 1) :=
  ⟨(application_binds_tighter (Branch.WORD "f") (Branch.NUMBER 3 1) (Branch.NUMBER 1 1)
      "+" 6 12 rfl rfl rfl rfl (by decide)).1,
   (application_binds_tighter (Branch.WORD "f") (Branch.NUMBER 3 1) (Branch.NUMBER 1 1)
      "+" 6 12 rfl rfl rfl rfl (by decide)).2.2.2⟩


/-! ### Bit shifts of byte buffers -/

theorem testBit_byteAt (x k t : Nat) :
    (byteAt x k).testBit t = (decide (t < 8) && x.testBit (8 * k + t)) := by
  have h1 : (256 : Nat) ^ k = 2 ^ (8 * k) := by
    rw [Nat.pow_mul]
  have h2 : (256 : Nat) = 2 ^ 8 := by norm_num
  rw [byteAt, h1, ← Nat.shiftRight_eq_div_pow, h2, Nat.testBit_mod_two_pow, Nat.testBit_shiftRight]

theorem testBit_mod_256 (x t : Nat) : (x % 256).testBit t = (decide (t < 8) && x.testBit t) := by
  have h2 : (256 : Nat) = 2 ^ 8 := by norm_num
  rw [h2, Nat.testBit_mod_two_pow]

theorem byteAt_shiftLeft (x ni nr q : Nat) (hnr : nr < 8) :
    byteAt (x * 2 ^ (8 * ni + nr)) q
      = (((if ni ≤ q then byteAt x (q - ni) else 0) <<< nr) % 256
          ||| ((if ni + 1 ≤ q then byteAt x (q - ni - 1) else 0) >>> (8 - nr))) % 256 := by
  apply Nat.eq_of_testBit_eq
  intro t
  rw [← Nat.shiftLeft_eq, testBit_mod_256, Nat.testBit_or, testBit_mod_256, testBit_byteAt,
    Nat.testBit_shiftLeft, Nat.testBit_shiftLeft, Nat.testBit_shiftRight]
  by_cases h8 : t < 8
  · by_cases ht : nr ≤ t
    · by_cases hq : ni ≤ q
      · have e1 : 8 * q + t - (8 * ni + nr) = 8 * (q - ni) + (t - nr) := by omega
        have e2 : 8 * q + t ≥ 8 * ni + nr := by omega
        have e3 : ¬ (8 - nr + t < 8) := by omega
        by_cases hq1 : ni + 1 ≤ q
        · simp [h8, ht, hq, hq1, testBit_byteAt, e1, e2, e3]
          omega
        · simp [h8, ht, hq, hq1, testBit_byteAt, e1, e2]
          omega
      · have e2 : ¬ (8 * q + t ≥ 8 * ni + nr) := by omega
        have hq1 : ¬ (ni + 1 ≤ q) := by omega
        simp [h8, ht, hq, hq1, e2]
    · by_cases hq1 : ni + 1 ≤ q
      · have hq : ni ≤ q := by omega
        have e1 : 8 * q + t - (8 * ni + nr) = 8 * (q - ni - 1) + (8 - nr + t) := by omega
        have e2 : 8 * q + t ≥ 8 * ni + nr := by omega
        have e3 : 8 - nr + t < 8 := by omega
        simp [h8, ht, hq, hq1, testBit_byteAt, e1, e2, e3]
      · have e2 : ¬ (8 * q + t ≥ 8 * ni + nr) := by omega
        simp [h8, ht, hq1, e2]
  · simp [h8]

theorem byteAt_shiftRight (x ni nr q : Nat) (hnr : nr < 8) :
    byteAt (x / 2 ^ (8 * ni + nr)) q
      = ((byteAt x (q + ni) >>> nr) % 256 ||| (byteAt x (q + ni + 1) <<< (8 - nr))) % 256 := by
  apply Nat.eq_of_testBit_eq
  intro t
  rw [← Nat.shiftRight_eq_div_pow, testBit_mod_256, Nat.testBit_or, testBit_mod_256,
    testBit_byteAt, Nat.testBit_shiftRight, Nat.testBit_shiftRight, Nat.testBit_shiftLeft,
    testBit_byteAt, testBit_byteAt]
  by_cases h8 : t < 8
  · by_cases ht : nr + t < 8
    · have e1 : 8 * ni + nr + (8 * q + t) = 8 * (q + ni) + (nr + t) := by omega
      have e3 : ¬ (t ≥ 8 - nr) := by omega
      simp [h8, ht, e1, e3]
    · have e1 : 8 * ni + nr + (8 * q + t) = 8 * (q + ni + 1) + (t - (8 - nr)) := by omega
      have e3 : t ≥ 8 - nr := by omega
      have e4 : t - (8 - nr) < 8 := by omega
      simp [h8, ht, e1, e3, e4]
  · simp [h8]

theorem getD_set_nat (l : List Nat) (i j v : Nat) :
    (l.set i v).getD j 0 = if i = j ∧ i < l.length then v else l.getD j 0 := by
  rw [List.getD_eq_getElem?_getD, List.getElem?_set, List.getD_eq_getElem?_getD]
  by_cases h1 : i = j
  · subst h1
    by_cases h2 : i < l.length
    · simp [h2]
    · simp [h2]
      rw [List.getElem?_eq_none (by omega)]
      rfl
  · simp [h1]

theorem shiftMove_left (a : List Nat) (ni len : Nat) :
    ∀ (count i : Nat) (res : List Nat), res.length = len →
      (shiftMove true a ni len count i res).length = len ∧
      ∀ d, (shiftMove true a ni len count i res).getD d 0
        = if i + d + ni + 1 ≤ len ∧ len < i + count + d + ni + 1 then a.getD (d + ni) 0
          else res.getD d 0 := by
  intro count
  induction count with
  | zero =>
    intro i res hres
    refine ⟨hres, fun d => ?_⟩
    rw [shiftMove, if_neg (by omega)]
  | succ count ih =>
    intro i res hres
    rw [shiftMove]
    simp only [if_true]
    by_cases hbrk : ((len : Int) - i - 1 - ni > len ∨ (len : Int) - i - 1 - ni < 0)
    · rw [if_pos hbrk]
      refine ⟨hres, fun d => ?_⟩
      rw [if_neg (by omega)]
    · rw [if_neg hbrk]
      have hd0 : ((len : Int) - i - 1 - ni).toNat = len - i - 1 - ni := by omega
      have hs0 : ((len : Int) - i - 1).toNat = len - i - 1 := by omega
      rw [hd0, hs0]
      obtain ⟨hlen, hget⟩ := ih (i + 1) (res.set (len - i - 1 - ni) (a.getD (len - i - 1) 0))
        (by rw [List.length_set]; exact hres)
      refine ⟨hlen, fun d => ?_⟩
      rw [hget d, getD_set_nat]
      by_cases hd : len - i - 1 - ni = d
      · have e1 : d + ni = len - i - 1 := by omega
        rw [if_neg (by omega), if_pos ⟨hd, by omega⟩, if_pos (by omega), e1]
      · by_cases hc : i + 1 + d + ni + 1 ≤ len ∧ len < i + 1 + count + d + ni + 1
        · rw [if_pos hc, if_pos (by omega)]
        · rw [if_neg hc, if_neg (by omega), if_neg (by omega)]

theorem shiftMove_right (a : List Nat) (ni len : Nat) :
    ∀ (count i : Nat) (res : List Nat), res.length = len →
      (shiftMove false a ni len count i res).length = len ∧
      ∀ d, d < len → (shiftMove false a ni len count i res).getD d 0
        = if i + ni ≤ d ∧ d < i + count + ni then a.getD (d - ni) 0 else res.getD d 0 := by
  intro count
  induction count with
  | zero =>
    intro i res hres
    refine ⟨hres, fun d _ => ?_⟩
    rw [shiftMove, if_neg (by omega)]
  | succ count ih =>
    intro i res hres
    rw [shiftMove]
    simp only [Bool.false_eq_true, if_false]
    by_cases hbrk : ((i : Int) + ni > len ∨ (i : Int) + ni < 0)
    · rw [if_pos hbrk]
      refine ⟨hres, fun d hd => ?_⟩
      rw [if_neg (by omega)]
    · rw [if_neg hbrk]
      have hd0 : ((i : Int) + ni).toNat = i + ni := by omega
      have hs0 : (i : Int).toNat = i := by omega
      rw [hd0, hs0]
      obtain ⟨hlen, hget⟩ := ih (i + 1) (res.set (i + ni) (a.getD i 0))
        (by rw [List.length_set]; exact hres)
      refine ⟨hlen, fun d hdl => ?_⟩
      rw [hget d hdl, getD_set_nat]
      by_cases hd : i + ni = d
      · have e1 : d - ni = i := by omega
        rw [if_neg (by omega), if_pos ⟨hd, by omega⟩, if_pos (by omega), e1]
      · by_cases hc : i + 1 + ni ≤ d ∧ d < i + 1 + count + ni
        · rw [if_pos hc, if_pos (by omega)]
        · rw [if_neg hc, if_neg (by omega), if_neg (by omega)]

theorem shiftCarry_right (nr len : Nat) :
    ∀ (count i : Nat) (res : List Nat) (carry : Nat), res.length = len →
      (shiftCarry false nr len count i res carry).length = len ∧
      ∀ p, (shiftCarry false nr len count i res carry).getD p 0
        = if i ≤ p ∧ p < i + count ∧ p < len then
            ((res.getD p 0 >>> nr) % 256
              ||| (if p = i then carry else res.getD (p - 1) 0 <<< (8 - nr))) % 256
          else res.getD p 0 := by
  intro count
  induction count with
  | zero =>
    intro i res carry hres
    refine ⟨hres, fun p => ?_⟩
    rw [shiftCarry, if_neg (by omega)]
  | succ count ih =>
    intro i res carry hres
    rw [shiftCarry]
    simp only [Bool.false_eq_true, if_false]
    obtain ⟨hlen, hget⟩ := ih (i + 1)
      (res.set i (((res.getD i 0 >>> nr) % 256 ||| carry) % 256))
      (res.getD i 0 <<< (8 - nr)) (by rw [List.length_set]; exact hres)
    refine ⟨hlen, fun p => ?_⟩
    rw [hget p]
    simp only [getD_set_nat, hres]
    split_ifs <;> first | rfl | omega | (subst_vars; simp)

theorem shiftCarry_left (nr len : Nat) :
    ∀ (count i : Nat) (res : List Nat) (carry : Nat), res.length = len → i + count ≤ len →
      (shiftCarry true nr len count i res carry).length = len ∧
      ∀ p, (shiftCarry true nr len count i res carry).getD p 0
        = if i + p + 1 ≤ len ∧ len < i + count + p + 1 then
            ((res.getD p 0 <<< nr) % 256
              ||| (if i + p + 1 = len then carry else res.getD (p + 1) 0 >>> (8 - nr))) % 256
          else res.getD p 0 := by
  intro count
  induction count with
  | zero =>
    intro i res carry hres _
    refine ⟨hres, fun p => ?_⟩
    rw [shiftCarry, if_neg (by omega)]
  | succ count ih =>
    intro i res carry hres hle
    rw [shiftCarry]
    simp only [if_true]
    obtain ⟨hlen, hget⟩ := ih (i + 1)
      (res.set (len - i - 1) (((res.getD (len - i - 1) 0 <<< nr) % 256 ||| carry) % 256))
      (res.getD (len - i - 1) 0 >>> (8 - nr)) (by rw [List.length_set]; exact hres) (by omega)
    refine ⟨hlen, fun p => ?_⟩
    rw [hget p]
    simp only [getD_set_nat, hres]
    by_cases hp : len - i - 1 = p
    · subst hp
      have c1 : ¬ (i + 1 + (len - i - 1) + 1 ≤ len ∧ len < i + 1 + count + (len - i - 1) + 1) := by
        omega
      have c2 : len - i - 1 = len - i - 1 ∧ len - i - 1 < len := by omega
      have c3 : i + (len - i - 1) + 1 ≤ len ∧ len < i + (count + 1) + (len - i - 1) + 1 := by
        omega
      have c4 : i + (len - i - 1) + 1 = len := by omega
      rw [if_neg c1, if_pos c2, if_pos c3, if_pos c4]
    · by_cases hc : i + 1 + p + 1 ≤ len ∧ len < i + 1 + count + p + 1
      · have c2 : ¬ (len - i - 1 = p ∧ len - i - 1 < len) := by omega
        have c3 : i + p + 1 ≤ len ∧ len < i + (count + 1) + p + 1 := by omega
        have c4 : ¬ (i + p + 1 = len) := by omega
        by_cases hp1 : i + 1 + p + 1 = len
        · have e : len - i - 1 = p + 1 := by omega
          rw [if_pos hc, if_neg c2, if_pos hp1, if_pos c3, if_neg c4, e]
        · have c5 : ¬ (len - i - 1 = p + 1 ∧ len - i - 1 < len) := by omega
          rw [if_pos hc, if_neg c2, if_neg hp1, if_neg c5, if_pos c3, if_neg c4]
      · have c2 : ¬ (len - i - 1 = p ∧ len - i - 1 < len) := by omega
        have c3 : ¬ (i + p + 1 ≤ len ∧ len < i + (count + 1) + p + 1) := by omega
        rw [if_neg hc, if_neg c2, if_neg c3]

theorem getD_replicate_zero (len d : Nat) : (List.replicate len 0).getD d 0 = 0 := by
  rw [List.getD_eq_getElem?_getD, List.getElem?_replicate]
  split <;> rfl

theorem getD_out_of_range (a : List Nat) (k : Nat) (h : a.length ≤ k) : a.getD k 0 = 0 := by
  rw [List.getD_eq_getElem?_getD, List.getElem?_eq_none h]
  rfl

/-- The bytes `<<` computes, position by position. -/
theorem shiftBuffer_left_getD (a : List Nat) (n p : Nat) (hp : p < a.length) :
    (shiftBuffer true a n).length = a.length ∧
    (shiftBuffer true a n).getD p 0
      = ((a.getD (p + n / 8) 0 <<< (n % 8)) % 256
          ||| (a.getD (p + 1 + n / 8) 0 >>> (8 - n % 8))) % 256 := by
  obtain ⟨hml, hmg⟩ := shiftMove_left a (n / 8) a.length a.length 0
    (List.replicate a.length 0) (by simp)
  obtain ⟨hcl, hcg⟩ := shiftCarry_left (n % 8) a.length a.length 0
    (shiftMove true a (n / 8) a.length a.length 0 (List.replicate a.length 0)) 0 hml (by omega)
  have hmoved : ∀ d, (shiftMove true a (n / 8) a.length a.length 0
      (List.replicate a.length 0)).getD d 0 = a.getD (d + n / 8) 0 := by
    intro d
    rw [hmg d]
    by_cases hd : d + n / 8 + 1 ≤ a.length
    · rw [if_pos ⟨by omega, by omega⟩]
    · rw [if_neg (by omega), getD_replicate_zero, getD_out_of_range a _ (by omega)]
  refine ⟨hcl, ?_⟩
  simp only [shiftBuffer]
  rw [hcg p, if_pos ⟨by omega, by omega⟩, hmoved p, hmoved (p + 1)]
  by_cases hlast : 0 + p + 1 = a.length
  · rw [if_pos hlast, getD_out_of_range a (p + 1 + n / 8) (by omega)]
    simp
  · rw [if_neg hlast]

/-- The bytes `>>` computes, position by position. -/
theorem shiftBuffer_right_getD (a : List Nat) (n p : Nat) (hp : p < a.length) :
    (shiftBuffer false a n).length = a.length ∧
    (shiftBuffer false a n).getD p 0
      = (((if n / 8 ≤ p then a.getD (p - n / 8) 0 else 0) >>> (n % 8)) % 256
          ||| ((if n / 8 + 1 ≤ p then a.getD (p - 1 - n / 8) 0 else 0) <<< (8 - n % 8))) % 256 := by
  obtain ⟨hml, hmg⟩ := shiftMove_right a (n / 8) a.length a.length 0
    (List.replicate a.length 0) (by simp)
  obtain ⟨hcl, hcg⟩ := shiftCarry_right (n % 8) a.length a.length 0
    (shiftMove false a (n / 8) a.length a.length 0 (List.replicate a.length 0)) 0 hml
  have hmoved : ∀ d, d < a.length → (shiftMove false a (n / 8) a.length a.length 0
      (List.replicate a.length 0)).getD d 0 = if n / 8 ≤ d then a.getD (d - n / 8) 0 else 0 := by
    intro d hd
    rw [hmg d hd]
    by_cases hd1 : n / 8 ≤ d
    · rw [if_pos ⟨by omega, by omega⟩, if_pos hd1]
    · rw [if_neg (by omega), if_neg hd1, getD_replicate_zero]
  refine ⟨hcl, ?_⟩
  simp only [shiftBuffer]
  rw [hcg p, if_pos ⟨by omega, by omega, hp⟩, hmoved p hp]
  by_cases hfirst : p = 0
  · subst hfirst
    have c1 : ¬ (n / 8 + 1 ≤ 0) := by omega
    rw [if_pos rfl, if_neg c1, Nat.zero_shiftLeft]
  · rw [if_neg hfirst, hmoved (p - 1) (by omega)]
    by_cases h1 : n / 8 + 1 ≤ p
    · have c1 : n / 8 ≤ p - 1 := by omega
      rw [if_pos h1, if_pos c1]
    · have c1 : ¬ (n / 8 ≤ p - 1) := by omega
      rw [if_neg h1, if_neg c1]

theorem foldl_be (a : List Nat) (acc : Nat) :
    a.foldl (fun acc b => acc * 256 + b) acc
      = acc * 256 ^ a.length + a.foldl (fun acc b => acc * 256 + b) 0 := by
  induction a generalizing acc with
  | nil => simp
  | cons b rest ih =>
    rw [List.foldl_cons, List.foldl_cons, ih (acc * 256 + b), ih (0 * 256 + b)]
    simp only [List.length_cons, pow_succ]
    ring

theorem beValue_cons (b : Nat) (rest : List Nat) :
    beValue (b :: rest) = b * 256 ^ rest.length + beValue rest := by
  rw [beValue, List.foldl_cons, foldl_be, beValue]
  simp

theorem beValue_lt (a : List Nat) (hbytes : ∀ b ∈ a, b < 256) : beValue a < 256 ^ a.length := by
  induction a with
  | nil => simp [beValue]
  | cons b rest ih =>
    have hb : b < 256 := hbytes b (List.mem_cons_self _ _)
    have hrest := ih (fun x hx => hbytes x (List.mem_cons_of_mem _ hx))
    rw [beValue_cons, List.length_cons, pow_succ]
    nlinarith

theorem byteAt_of_lt (x len k : Nat) (hx : x < 256 ^ len) (hk : len ≤ k) : byteAt x k = 0 := by
  have h1 : (256 : Nat) ^ len ≤ 256 ^ k := Nat.pow_le_pow_right (by norm_num) hk
  rw [byteAt, Nat.div_eq_of_lt (by omega)]

theorem byteAt_top (b v r : Nat) (hb : b < 256) (hv : v < 256 ^ r) :
    byteAt (b * 256 ^ r + v) r = b := by
  have hpos : 0 < 256 ^ r := by positivity
  rw [byteAt, Nat.add_comm, Nat.add_mul_div_right _ _ hpos, Nat.div_eq_of_lt hv, Nat.zero_add,
    Nat.mod_eq_of_lt hb]

theorem byteAt_below (b v r j : Nat) (hj : j < r) :
    byteAt (b * 256 ^ r + v) j = byteAt v j := by
  have hpos : 0 < 256 ^ j := by positivity
  have hsplit : 256 ^ r = 256 ^ (r - j - 1) * 256 * 256 ^ j := by
    rw [← pow_succ, ← pow_add]
    congr 1
    omega
  rw [byteAt, byteAt, hsplit, ← Nat.mul_assoc, Nat.add_comm,
    Nat.add_mul_div_right _ _ hpos, ← Nat.mul_assoc, Nat.add_mul_mod_self_right]

theorem byteAt_div (x j : Nat) : byteAt (x / 256) j = byteAt x (j + 1) := by
  rw [byteAt, byteAt, Nat.div_div_eq_div_mul, pow_succ, Nat.mul_comm]

theorem byteAt_mod (y len q : Nat) (hq : q < len) :
    byteAt (y % 2 ^ (8 * len)) q = byteAt y q := by
  apply Nat.eq_of_testBit_eq
  intro t
  rw [testBit_byteAt, testBit_byteAt, Nat.testBit_mod_two_pow]
  by_cases h8 : t < 8
  · have : 8 * q + t < 8 * len := by omega
    simp [h8, this]
  · simp [h8]

theorem getD_eq_byteAt (a : List Nat) (hbytes : ∀ b ∈ a, b < 256) :
    ∀ k, k < a.length → a.getD k 0 = byteAt (beValue a) (a.length - 1 - k) := by
  induction a with
  | nil => intro k hk; simp at hk
  | cons b rest ih =>
    intro k hk
    have hb : b < 256 := hbytes b (List.mem_cons_self _ _)
    have hrb : ∀ x ∈ rest, x < 256 := fun x hx => hbytes x (List.mem_cons_of_mem _ hx)
    rw [beValue_cons]
    cases k with
    | zero =>
      simp only [List.length_cons, Nat.add_sub_cancel, Nat.sub_zero, List.getD_cons_zero]
      rw [byteAt_top b _ _ hb (beValue_lt rest hrb)]
    | succ k =>
      simp only [List.length_cons] at hk
      have hk1 : k < rest.length := by omega
      have e : (b :: rest).length - 1 - (k + 1) = rest.length - 1 - k := by
        simp only [List.length_cons]; omega
      rw [e, List.getD_cons_succ, ih hrb k hk1, byteAt_below b _ _ _ (by omega)]

theorem beEncode_length (len y : Nat) : (beEncode len y).length = len := by
  induction len generalizing y with
  | zero => rfl
  | succ len ih => simp [beEncode, ih]

theorem beEncode_getD (len y p : Nat) (hp : p < len) :
    (beEncode len y).getD p 0 = byteAt y (len - 1 - p) := by
  induction len generalizing y with
  | zero => omega
  | succ len ih =>
    rw [beEncode, List.getD_eq_getElem?_getD]
    by_cases hlt : p < len
    · rw [List.getElem?_append_left (by rw [beEncode_length]; exact hlt),
        ← List.getD_eq_getElem?_getD, ih _ hlt, byteAt_div]
      congr 1
      omega
    · have hpe : p = len := by omega
      subst hpe
      rw [List.getElem?_append_right (by rw [beEncode_length]), beEncode_length]
      simp [byteAt]

theorem eq_of_getD_eq (l1 l2 : List Nat) (hlen : l1.length = l2.length)
    (h : ∀ p, p < l1.length → l1.getD p 0 = l2.getD p 0) : l1 = l2 := by
  apply List.ext_getElem hlen
  intro p h1 h2
  have := h p h1
  rw [List.getD_eq_getElem?_getD, List.getD_eq_getElem?_getD, List.getElem?_eq_getElem h1,
    List.getElem?_eq_getElem h2] at this
  simpa using this

/-- The loops of `<<` compute the big-endian encoding of `X * 2^n mod 2^(8L)`. -/
theorem shiftBuffer_left_eq (a : List Nat) (n : Nat) (hbytes : ∀ b ∈ a, b < 256) :
    shiftBuffer true a n
      = beEncode a.length (beValue a * 2 ^ n % 2 ^ (8 * a.length)) := by
  apply eq_of_getD_eq
  · rw [beEncode_length]
    by_cases h0 : 0 < a.length
    · exact (shiftBuffer_left_getD a n 0 h0).1
    · have : a = [] := List.length_eq_zero.mp (by omega)
      subst this
      rfl
  · intro p hp
    have hpa : p < a.length := by
      by_cases h0 : 0 < a.length
      · rw [(shiftBuffer_left_getD a n 0 h0).1] at hp
        exact hp
      · have : a = [] := List.length_eq_zero.mp (by omega)
        subst this
        simp [shiftBuffer, shiftCarry, shiftMove] at hp
    have hn : n = 8 * (n / 8) + n % 8 := by omega
    have hlt := beValue_lt a hbytes
    rw [(shiftBuffer_left_getD a n p hpa).2, beEncode_getD _ _ _ hpa, byteAt_mod _ _ _ (by omega)]
    conv_rhs => rw [hn]
    rw [byteAt_shiftLeft _ _ _ _ (Nat.mod_lt _ (by norm_num))]
    by_cases h1 : n / 8 ≤ a.length - 1 - p
    · rw [if_pos h1, getD_eq_byteAt a hbytes (p + n / 8) (by omega)]
      have e1 : a.length - 1 - (p + n / 8) = a.length - 1 - p - n / 8 := by omega
      rw [e1]
      by_cases h2 : n / 8 + 1 ≤ a.length - 1 - p
      · rw [if_pos h2, getD_eq_byteAt a hbytes (p + 1 + n / 8) (by omega)]
        have e2 : a.length - 1 - (p + 1 + n / 8) = a.length - 1 - p - n / 8 - 1 := by omega
        rw [e2]
      · rw [if_neg h2, getD_out_of_range a (p + 1 + n / 8) (by omega)]
    · have h2 : ¬ (n / 8 + 1 ≤ a.length - 1 - p) := by omega
      rw [if_neg h1, if_neg h2, getD_out_of_range a (p + n / 8) (by omega),
        getD_out_of_range a (p + 1 + n / 8) (by omega)]

/-- The loops of `>>` compute the big-endian encoding of `floor(X / 2^n)`. -/
theorem shiftBuffer_right_eq (a : List Nat) (n : Nat) (hbytes : ∀ b ∈ a, b < 256) :
    shiftBuffer false a n = beEncode a.length (beValue a / 2 ^ n) := by
  apply eq_of_getD_eq
  · rw [beEncode_length]
    by_cases h0 : 0 < a.length
    · exact (shiftBuffer_right_getD a n 0 h0).1
    · have : a = [] := List.length_eq_zero.mp (by omega)
      subst this
      rfl
  · intro p hp
    have hpa : p < a.length := by
      by_cases h0 : 0 < a.length
      · rw [(shiftBuffer_right_getD a n 0 h0).1] at hp
        exact hp
      · have : a = [] := List.length_eq_zero.mp (by omega)
        subst this
        simp [shiftBuffer, shiftCarry, shiftMove] at hp
    have hn : n = 8 * (n / 8) + n % 8 := by omega
    have hlt := beValue_lt a hbytes
    rw [(shiftBuffer_right_getD a n p hpa).2, beEncode_getD _ _ _ hpa]
    conv_rhs => rw [hn]
    rw [byteAt_shiftRight _ _ _ _ (Nat.mod_lt _ (by norm_num))]
    by_cases h1 : n / 8 ≤ p
    · rw [if_pos h1, getD_eq_byteAt a hbytes (p - n / 8) (by omega)]
      have e1 : a.length - 1 - (p - n / 8) = a.length - 1 - p + n / 8 := by omega
      rw [e1]
      by_cases h2 : n / 8 + 1 ≤ p
      · rw [if_pos h2, getD_eq_byteAt a hbytes (p - 1 - n / 8) (by omega)]
        have e2 : a.length - 1 - (p - 1 - n / 8) = a.length - 1 - p + n / 8 + 1 := by omega
        rw [e2]
      · rw [if_neg h2, byteAt_of_lt _ _ (a.length - 1 - p + n / 8 + 1) hlt (by omega)]
    · have h2 : ¬ (n / 8 + 1 ≤ p) := by omega
      rw [if_neg h1, if_neg h2, byteAt_of_lt _ _ (a.length - 1 - p + n / 8) hlt (by omega),
        byteAt_of_lt _ _ (a.length - 1 - p + n / 8 + 1) hlt (by omega)]

theorem beEncode_zero (len : Nat) : beEncode len 0 = List.replicate len 0 := by
  induction len with
  | zero => rfl
  | succ len ih =>
    rw [beEncode, Nat.zero_div, ih, Nat.zero_mod, List.replicate_succ']


/-! ### Sorting of keys -/

theorem unitsLt_asymm : ∀ (a b : List Nat), unitsLt a b = true → unitsLt b a = false
  | _, [], h => by simp [unitsLt] at h
  | [], _ :: _, _ => by simp [unitsLt]
  | x :: xs, y :: ys, h => by
    rw [unitsLt] at h ⊢
    by_cases h1 : x < y
    · rw [if_neg (by omega), if_pos h1]
    · rw [if_neg h1] at h
      by_cases h2 : y < x
      · rw [if_pos h2] at h
        cases h
      · rw [if_neg h2] at h
        rw [if_neg h2, if_neg h1]
        exact unitsLt_asymm xs ys h

theorem unitsLt_le_trans : ∀ (a b c : List Nat),
    unitsLt b a = false → unitsLt c b = false → unitsLt c a = false
  | [], _, c, _, _ => by cases c <;> simp [unitsLt]
  | _ :: _, [], _, h1, _ => by simp [unitsLt] at h1
  | _ :: _, _ :: _, [], _, h2 => by simp [unitsLt] at h2
  | x :: xs, y :: ys, z :: zs, h1, h2 => by
    rw [unitsLt] at h1 h2 ⊢
    by_cases hyx : y < x
    · rw [if_pos hyx] at h1
      cases h1
    · rw [if_neg hyx] at h1
      by_cases hzy : z < y
      · rw [if_pos hzy] at h2
        cases h2
      · rw [if_neg hzy] at h2
        by_cases hxy : x < y
        · rw [if_neg (by omega), if_pos (by omega)]
        · rw [if_neg hxy] at h1
          by_cases hyz : y < z
          · rw [if_neg (by omega), if_pos (by omega)]
          · rw [if_neg hyz] at h2
            rw [if_neg (by omega), if_neg (by omega)]
            exact unitsLt_le_trans xs ys zs h1 h2

theorem mem_insertKey (k y : String) (l : List String) :
    y ∈ insertKey k l ↔ y = k ∨ y ∈ l := by
  induction l with
  | nil => simp [insertKey]
  | cons x xs ih =>
    rw [insertKey]
    by_cases h : strLt x k = true
    · rw [if_pos h, List.mem_cons, ih, List.mem_cons]
      tauto
    · rw [if_neg h, List.mem_cons, List.mem_cons]

theorem insertKey_perm (k : String) (l : List String) : (insertKey k l).Perm (k :: l) := by
  induction l with
  | nil => exact List.Perm.refl _
  | cons x xs ih =>
    rw [insertKey]
    by_cases h : strLt x k = true
    · rw [if_pos h]
      exact (List.Perm.cons x ih).trans (List.Perm.swap k x xs)
    · rw [if_neg h]

theorem insertKey_sorted (k : String) (l : List String)
    (hl : l.Pairwise (fun x y => strLt y x = false)) :
    (insertKey k l).Pairwise (fun x y => strLt y x = false) := by
  induction l with
  | nil => simp [insertKey]
  | cons x xs ih =>
    rw [List.pairwise_cons] at hl
    rw [insertKey]
    by_cases h : strLt x k = true
    · rw [if_pos h, List.pairwise_cons]
      refine ⟨fun y hy => ?_, ih hl.2⟩
      rcases (mem_insertKey k y xs).mp hy with rfl | hy
      · exact unitsLt_asymm _ _ h
      · exact hl.1 y hy
    · rw [if_neg h]
      have hxk : strLt x k = false := by simpa using h
      refine List.pairwise_cons.mpr ⟨fun y hy => ?_, List.pairwise_cons.mpr hl⟩
      rcases List.mem_cons.mp hy with rfl | hy
      · exact hxk
      · exact unitsLt_le_trans _ _ _ hxk (hl.1 y hy)

theorem sortKeys_perm (l : List String) : (sortKeys l).Perm l := by
  induction l with
  | nil => exact List.Perm.refl _
  | cons k rest ih =>
    rw [sortKeys, List.foldr_cons]
    exact (insertKey_perm k _).trans (List.Perm.cons k ih)

theorem sortKeys_sorted (l : List String) :
    (sortKeys l).Pairwise (fun x y => strLt y x = false) := by
  induction l with
  | nil => simp [sortKeys]
  | cons k rest ih =>
    rw [sortKeys, List.foldr_cons]
    exact insertKey_sorted k _ ih

/-! ### Evaluation in stages -/

/-- The result of `interpret` from the results of its three stages. -/
theorem interpret_of_stages (fuel : Nat) (script : String) (ctx : Ctx) (tokens : List Branch)
    (tree : Branch) (v : Value) (h1 : Heap) (hlex : lex script = tokens)
    (hparse : parse fuel tokens = Except.ok tree)
    (heval : evaluate fuel tree ctx tokens.length = Except.ok (v, h1)) :
    interpret fuel script ctx = Except.ok v := by
  rw [interpret, hlex, hparse]
  simp only [heval]

/-- The cases of `evaluate` for an operator other than `.` and `.>`: both
operands are evaluated, left then right, and `binary` combines them. -/
theorem evaluate_binary (fuel : Nat) (op : String) (x y : Branch) (ctx : Ctx)
    (h h1 h2 : Heap) (va vb : Value) (hop0 : switchCases.contains op = true)
    (hop1 : op ≠ ".") (hop2 : op ≠ ".>")
    (hx : evaluate fuel x ctx h = Except.ok (va, h1))
    (hc : checkLeft op va = Except.ok ())
    (hy : evaluate fuel y ctx h1 = Except.ok (vb, h2)) :
    evaluate (fuel + 1) (Branch.COMBINATION op x y) ctx h = binary op va vb h2 := by
  rw [evaluate]
  simp only [hx, hy, hc, if_neg hop1, if_neg hop2, hop0, Bool.true_eq_false, if_false]

/-! ### C3 -/

/-- C3, the claim as stated fails: mapping the identity over `{b: 1, a: 2}`
gives the keys `"a"` and `"b"` as STRING values, not the values 2 and 1. -/
theorem map_over_dictionary_gives_keys :
    interpret 9 "\x7bb: 1, a: 2\x7d.> \\x (x)" []
        = Except.ok (Value.LIST [Value.STRING 15 [97], Value.STRING 16 [98]])
    ∧ interpret 9 "\x7bb: 1, a: 2\x7d.> \\x (x)" []
        ≠ Except.ok (Value.LIST [Value.NUMBER 2 1, Value.NUMBER 1 1]) := by
  have h : interpret 9 "\x7bb: 1, a: 2\x7d.> \\x (x)" []
      = Except.ok (Value.LIST [Value.STRING 15 [97], Value.STRING 16 [98]]) := rfl
  refine ⟨h, ?_⟩
  rw [h]
  intro hne
  cases hne

/-- C3, amended: mapping over a dictionary applies the function to the keys,
in sorted order.  When the left operand evaluates to a DICTIONARY (the
evaluator evaluates it a second time to read the keys, giving the object `m`)
and the right operand to a closure, `D .> f` is the LIST of the results of
calling the closure, one call after the other, on the keys of `m` as fresh
STRING values holding their UTF-8 bytes; the keys are those of `m`, each
once, sorted by JavaScript string order (by UTF-16 code units, which is byte
order on ASCII keys).  `{b: 1, a: 2}.> \x (x)` evaluates to the LIST of the
STRINGs `a` and `b`. -/
theorem map_over_dictionary_keys (fuel : Nat) (a b : Branch) (ctx : Ctx) (h h1 h2 h3 : Heap)
    (m0 m : List (String × Value)) (cctx : Ctx) (var : Option String) (body : Branch)
    (ha : evaluate fuel a ctx h = Except.ok (Value.DICTIONARY m0, h1))
    (hb : evaluate fuel b ctx h1 = Except.ok (Value.CLOSURE cctx var body, h2))
    (ha2 : evaluate fuel a ctx h2 = Except.ok (Value.DICTIONARY m, h3)) :
    evaluate (fuel + 1) (Branch.COMBINATION ".>" a b) ctx h
        = (match mapCalls
            (fun (key : String) (hx : Heap) =>
              evaluate fuel body (extend cctx var (Value.STRING hx (utf8Encode key.toList)))
                (hx + 1))
            (sortKeys (m.map Prod.fst)) h3 with
          | Except.error e => Except.error e
          | Except.ok (vs, h4) => Except.ok (Value.LIST vs, h4))
    ∧ (sortKeys (m.map Prod.fst)).Perm (m.map Prod.fst)
    ∧ (sortKeys (m.map Prod.fst)).Pairwise (fun x y => strLt y x = false)
    ∧ interpret (fuel + 9) "\x7bb: 1, a: 2\x7d.> \\x (x)" []
        = Except.ok (Value.LIST [Value.STRING 15 [97], Value.STRING 16 [98]]) := by
  refine ⟨?_, sortKeys_perm _, sortKeys_sorted _, rfl⟩
  rw [evaluate]
  simp only [ha, hb, ha2]
  rfl

/-- C3, amended, at the dictionary literal `{b: 1, a: 2}` and the identity
function. -/
theorem map_over_dictionary_keys_witness :
    evaluate 6
        (Branch.COMBINATION ".>"
          (Branch.DICTIONARY [(Branch.WORD "b", Branch.NUMBER 1 1),
            (Branch.WORD "a", Branch.NUMBER 2 1)])
          (Branch.FUNCTION (some "x") (Branch.WORD "x"))) [] 0
      = Except.ok (Value.LIST [Value.STRING 0 [97], Value.STRING 1 [98]], 2) :=
  (map_over_dictionary_keys 5
    (Branch.DICTIONARY [(Branch.WORD "b", Branch.NUMBER 1 1), (Branch.WORD "a", Branch.NUMBER 2 1)])
    (Branch.FUNCTION (some "x") (Branch.WORD "x")) [] 0 0 0 0
    [("b", Value.NUMBER 1 1), ("a", Value.NUMBER 2 1)]
    [("b", Value.NUMBER 1 1), ("a", Value.NUMBER 2 1)] [] (some "x") (Branch.WORD "x")
    rfl rfl rfl).1

/-! ### C4 -/

/-- C4: the code compares the two buffers by reference.  `"ab" = "ab"`
evaluates to `NUMBER(0,1)` although both strings hold the same bytes; a
string compared with itself gives `NUMBER(1,1)`; and in general `=` on two
STRING values answers whether their buffers are the same object, whatever
their bytes. -/
theorem string_equality_is_by_reference (fuel : Nat) :
    interpret (fuel + 5) "\"ab\" = \"ab\"" [] = Except.ok (Value.NUMBER 0 1)
    ∧ interpret (fuel + 11) "(\\x (x = x)) \"ab\"" [] = Except.ok (Value.NUMBER 1 1)
    ∧ ∀ (r1 r2 : Nat) (s t : List Nat) (h : Heap),
        binary "=" (Value.STRING r1 s) (Value.STRING r2 t) h
          = Except.ok (Value.NUMBER (if r1 = r2 then 1 else 0) 1, h) := by
  refine ⟨by rfl, by rfl, ?_⟩
  intro r1 r2 s t h
  rfl

/-! ### C5 -/

/-- C5: the code keeps the empty placeholder.  The tokens of `[]` parse to a
LIST node with one element, the EXPRESSION that wraps the NULL placeholder
(`plist` tests the type of the EXPRESSION node, which is never NULL), so `[]`
evaluates to a LIST of length 1 and `[] -- 0` to `NUMBER(1,1)`. -/
theorem empty_list_literal_has_one_element (fuel : Nat) :
    parse (fuel + 5) (lex "[]")
        = Except.ok (Branch.EXPRESSION (Branch.LIST [Branch.EXPRESSION Branch.NULL]))
    ∧ interpret (fuel + 5) "[]" [] = Except.ok (Value.LIST [Value.NULL])
    ∧ interpret (fuel + 5) "[] -- 0" [] = Except.ok (Value.NUMBER 1 1) :=
  ⟨by rfl, by rfl, by rfl⟩

/-! ### C6 -/

theorem merge_example_value (fuel : Nat) :
    interpret (fuel + 10) "\x7ba: 1\x7d // \x7bb: 2\x7d" []
      = Except.ok (Value.DICTIONARY [("type", Value.RAWNUMBER 15),
          ("val", Value.RAWVAL (Value.DICTIONARY [("b", Value.NUMBER 2 1)]))]) := by
  rfl

theorem merge_example_right_key (fuel : Nat) :
    interpret (fuel + 10) "(\x7ba: 1\x7d // \x7bb: 2\x7d) . b " [] = Except.ok Value.NULL := by
  rfl

theorem merge_example_left_key (fuel : Nat) :
    interpret (fuel + 10) "(\x7ba: 1\x7d // \x7bb: 2\x7d) . a " [] = Except.ok Value.NULL := by
  rfl

/-- C6: the code spreads the two DICTIONARY objects, not their `val`
mappings.  `{a: 1} // {b: 2}` evaluates to a DICTIONARY whose keys are `type`
and `val`, and looking up `a` or `b` in it gives NULL, while `{b: 2} . b` is
`NUMBER(2,1)`. -/
theorem merge_spreads_the_wrappers (fuel : Nat) :
    interpret (fuel + 10) "\x7ba: 1\x7d // \x7bb: 2\x7d" []
        = Except.ok (Value.DICTIONARY [("type", Value.RAWNUMBER 15),
            ("val", Value.RAWVAL (Value.DICTIONARY [("b", Value.NUMBER 2 1)]))])
    ∧ interpret (fuel + 10) "(\x7ba: 1\x7d // \x7bb: 2\x7d) . b " [] = Except.ok Value.NULL
    ∧ interpret (fuel + 10) "(\x7ba: 1\x7d // \x7bb: 2\x7d) . a " [] = Except.ok Value.NULL
    ∧ interpret (fuel + 10) "\x7bb: 2\x7d . b " [] = Except.ok (Value.NUMBER 2 1) :=
  ⟨merge_example_value fuel, merge_example_right_key fuel, merge_example_left_key fuel, by rfl⟩

/-! ### C7 -/

/-- C7, the claim as stated fails: `"abc" /< 1` is `ab`, the string without
its last byte, and `"abc" /> 1` is `bc`, the string without its first byte. -/
theorem trim_left_drops_the_last_bytes :
    interpret 5 "\"abc\" /< 1" [] = Except.ok (Value.STRING 3 [97, 98])
    ∧ interpret 5 "\"abc\" /> 1" [] = Except.ok (Value.STRING 3 [98, 99])
    ∧ interpret 5 "\"abc\" /< 1" [] ≠ Except.ok (Value.STRING 3 [98, 99]) := by
  have h : interpret 5 "\"abc\" /< 1" [] = Except.ok (Value.STRING 3 [97, 98]) := rfl
  refine ⟨h, rfl, ?_⟩
  rw [h]
  intro hne
  cases hne

/-- C7, amended: each trim operator keeps the side it names.  For operands
that evaluate to a STRING with bytes `s` and to a NUMBER with numerator `n`,
`0 ≤ n ≤ length(s)`, `s /< n` evaluates to `s` without its last `n` bytes (the
leftmost `length(s) - n` bytes) and `s /> n` to `s` without its first `n`
bytes. -/
theorem trim_keeps_the_named_side (fuel : Nat) (x y : Branch) (ctx : Ctx) (h h1 h2 r : Nat)
    (s : List Nat) (n d : Int) (hn0 : 0 ≤ n) (hn1 : n ≤ s.length)
    (hx : evaluate fuel x ctx h = Except.ok (Value.STRING r s, h1))
    (hy : evaluate fuel y ctx h1 = Except.ok (Value.NUMBER n d, h2)) :
    evaluate (fuel + 1) (Branch.COMBINATION "/<" x y) ctx h
        = Except.ok (Value.STRING h2 (s.take (s.length - n.toNat)), h2 + 1)
    ∧ evaluate (fuel + 1) (Branch.COMBINATION "/>" x y) ctx h
        = Except.ok (Value.STRING h2 (s.drop n.toNat), h2 + 1) := by
  have e1 : subarray s 0 ((s.length : Int) - n) = s.take (s.length - n.toNat) := by
    simp only [subarray]
    rw [if_neg (by omega), if_neg (by omega)]
    have e1 : (min (0 : Int) (s.length : Int)).toNat = 0 := by omega
    have e2 : (min ((s.length : Int) - n) (s.length : Int) - min (0 : Int) (s.length : Int)).toNat
        = s.length - n.toNat := by omega
    rw [e1, e2, List.drop_zero]
  have e2 : subarray s n ((s.length : Int) - 0) = s.drop n.toNat := by
    simp only [subarray]
    rw [if_neg (by omega), if_neg (by omega)]
    have e1 : (min n (s.length : Int)).toNat = n.toNat := by omega
    have e2 : (min ((s.length : Int) - 0) (s.length : Int) - min n (s.length : Int)).toNat
        = s.length - n.toNat := by omega
    rw [e1, e2]
    apply List.take_of_length_le
    rw [List.length_drop]
  constructor
  · rw [evaluate_binary fuel "/<" x y ctx h h1 h2 _ _ (by rfl) (by decide) (by decide) hx
        (by rfl) hy,
      ← e1]
    rfl
  · rw [evaluate_binary fuel "/>" x y ctx h h1 h2 _ _ (by rfl) (by decide) (by decide) hx
        (by rfl) hy,
      ← e2]
    rfl

/-- C7, amended, at the string `abc` and `n = 1`. -/
theorem trim_keeps_the_named_side_witness :
    evaluate 2 (Branch.COMBINATION "/<" (Branch.STRING 0 [97, 98, 99]) (Branch.NUMBER 1 1)) [] 1
        = Except.ok (Value.STRING 1 [97, 98], 2)
    ∧ evaluate 2 (Branch.COMBINATION "/>" (Branch.STRING 0 [97, 98, 99]) (Branch.NUMBER 1 1)) [] 1
        = Except.ok (Value.STRING 1 [98, 99], 2) :=
  trim_keeps_the_named_side 1 (Branch.STRING 0 [97, 98, 99]) (Branch.NUMBER 1 1) [] 1 1 1 0
    [97, 98, 99] 1 1 (by decide) (by decide) rfl rfl

/-! ### C8 -/

/-- C8: the code answers NULL for a zero byte that is in range.  `"a" ^ "a"`
is the one-byte buffer 0x00, and indexing it at 0 gives NULL, where indexing
`"a"` at 0 gives the one-byte STRING `a`; in general an index in range whose
byte is 0 gives NULL (`!a.val[k]` is true for the byte 0). -/
theorem zero_byte_indexes_to_null (fuel : Nat) :
    interpret (fuel + 7) "\"a\" ^ \"a\"" [] = Except.ok (Value.STRING 3 [0])
    ∧ interpret (fuel + 7) "(\"a\" ^ \"a\") . 0" [] = Except.ok Value.NULL
    ∧ interpret (fuel + 7) "\"a\" . 0" [] = Except.ok (Value.STRING 3 [97])
    ∧ ∀ (r : Nat) (s : List Nat) (k : Nat) (h : Heap), k < s.length → s.getD k 0 = 0 →
        index (Value.STRING r s) (Key.num k) h = Except.ok (Value.NULL, h) := by
  refine ⟨by rfl, by rfl, by rfl, ?_⟩
  intro r s k h hk hz
  have hk1 : (0 : Int) ≤ (k : Int) ∧ (k : Int) < (s.length : Int) := by omega
  rw [index]
  simp only [hk1, and_self, if_true, Int.toNat_ofNat, hz]

/-! ### C9 -/

theorem beValue_append_byte (l : List Nat) (b : Nat) : beValue (l ++ [b]) = beValue l * 256 + b := by
  simp [beValue, List.foldl_append]

/-- The two readings of a buffer are inverse: the integer of the `len`-byte
encoding of `y` is `y` modulo `256^len`. -/
theorem beValue_beEncode (len y : Nat) : beValue (beEncode len y) = y % 256 ^ len := by
  induction len generalizing y with
  | zero => simp [beEncode, beValue, Nat.mod_one]
  | succ len ih =>
    rw [beEncode, beValue_append_byte, ih, pow_succ, Nat.mul_comm (256 ^ len) 256,
      Nat.mod_mul, Nat.add_comm, Nat.mul_comm]

theorem shift_example (fuel : Nat) :
    interpret (fuel + 5) "\"\x01\" << 1" [] = Except.ok (Value.STRING 3 [2]) := by
  rfl

/-- C9: the shifts of a byte buffer are the shifts of the big-endian integer
it holds.  For operands that evaluate to a STRING with bytes `a` (each below
256, `L` of them, the integer `X`) and to a NUMBER with numerator `n ≥ 0`,
`a << n` evaluates to the `L`-byte big-endian encoding of `X * 2^n mod 2^(8L)`
and `a >> n` to that of `floor(X / 2^n)`; for `n ≥ 8L` both are `L` zero
bytes; and the one-byte buffer 0x01 shifted left by 1 is 0x02. -/
theorem shifts_are_bit_precise (fuel : Nat) (x y : Branch) (ctx : Ctx) (h h1 h2 r : Nat)
    (a : List Nat) (n d : Int) (hbytes : ∀ b ∈ a, b < 256) (hn : 0 ≤ n)
    (hx : evaluate fuel x ctx h = Except.ok (Value.STRING r a, h1))
    (hy : evaluate fuel y ctx h1 = Except.ok (Value.NUMBER n d, h2)) :
    evaluate (fuel + 1) (Branch.COMBINATION "<<" x y) ctx h
        = Except.ok (Value.STRING h2
            (beEncode a.length (beValue a * 2 ^ n.toNat % 2 ^ (8 * a.length))), h2 + 1)
    ∧ evaluate (fuel + 1) (Branch.COMBINATION ">>" x y) ctx h
        = Except.ok (Value.STRING h2 (beEncode a.length (beValue a / 2 ^ n.toNat)), h2 + 1)
    ∧ (8 * a.length ≤ n.toNat →
        beEncode a.length (beValue a * 2 ^ n.toNat % 2 ^ (8 * a.length))
            = List.replicate a.length 0
        ∧ beEncode a.length (beValue a / 2 ^ n.toNat) = List.replicate a.length 0)
    ∧ interpret (fuel + 5) "\"\x01\" << 1" [] = Except.ok (Value.STRING 3 [2]) := by
  refine ⟨?_, ?_, ?_, shift_example fuel⟩
  · rw [evaluate_binary fuel "<<" x y ctx h h1 h2 _ _ (by rfl) (by decide) (by decide) hx
        (by rfl) hy,
      ← shiftBuffer_left_eq a n.toNat hbytes]
    have hb : binary "<<" (Value.STRING r a) (Value.NUMBER n d) h2
        = if 0 ≤ n then Except.ok (Value.STRING h2 (shiftBuffer true a n.toNat), h2 + 1)
          else Except.error Err.unmodelled := by rfl
    rw [hb, if_pos hn]
  · rw [evaluate_binary fuel ">>" x y ctx h h1 h2 _ _ (by rfl) (by decide) (by decide) hx
        (by rfl) hy,
      ← shiftBuffer_right_eq a n.toNat hbytes]
    have hb : binary ">>" (Value.STRING r a) (Value.NUMBER n d) h2
        = if 0 ≤ n then Except.ok (Value.STRING h2 (shiftBuffer false a n.toNat), h2 + 1)
          else Except.error Err.unmodelled := by rfl
    rw [hb, if_pos hn]
  · intro hbig
    have hpow : (2 : Nat) ^ (8 * a.length) ∣ 2 ^ n.toNat := Nat.pow_dvd_pow 2 hbig
    have hlt : beValue a < 2 ^ n.toNat := by
      have h1 := beValue_lt a hbytes
      have h2 : (256 : Nat) ^ a.length = 2 ^ (8 * a.length) := by rw [Nat.pow_mul]
      have h3 : (2 : Nat) ^ (8 * a.length) ≤ 2 ^ n.toNat :=
        Nat.pow_le_pow_right (by norm_num) hbig
      omega
    constructor
    · rw [Nat.mod_eq_zero_of_dvd (Dvd.dvd.mul_left hpow _), beEncode_zero]
    · rw [Nat.div_eq_of_lt hlt, beEncode_zero]

/-- C9 at the two-byte buffer 0x01 0x80 and a shift by 9 bits. -/
theorem shifts_are_bit_precise_witness :
    evaluate 2 (Branch.COMBINATION "<<" (Branch.STRING 0 [1, 128]) (Branch.NUMBER 9 1)) [] 1
        = Except.ok (Value.STRING 1
            (beEncode 2 (beValue [1, 128] * 2 ^ 9 % 2 ^ (8 * 2))), 2)
    ∧ evaluate 2 (Branch.COMBINATION ">>" (Branch.STRING 0 [1, 128]) (Branch.NUMBER 9 1)) [] 1
        = Except.ok (Value.STRING 1 (beEncode 2 (beValue [1, 128] / 2 ^ 9)), 2) :=
  ⟨(shifts_are_bit_precise 1 (Branch.STRING 0 [1, 128]) (Branch.NUMBER 9 1) [] 1 1 1 0
      [1, 128] 9 1 (by decide) (by decide) rfl rfl).1,
   (shifts_are_bit_precise 1 (Branch.STRING 0 [1, 128]) (Branch.NUMBER 9 1) [] 1 1 1 0
      [1, 128] 9 1 (by decide) (by decide) rfl rfl).2.1⟩

/-! ### C10 -/

theorem eq_of_cross_mul (a0 a1 b0 b1 : Int) (ha : 0 < a1) (hb : 0 < b1)
    (hga : Int.gcd a0 a1 = 1) (hgb : Int.gcd b0 b1 = 1) (h : a0 * b1 = b0 * a1) :
    a0 = b0 ∧ a1 = b1 := by
  have h1 : a1 ∣ b1 := by
    have hd : a1 ∣ a0 * b1 := ⟨b0, by rw [h]; ring⟩
    exact Int.dvd_of_dvd_mul_right_of_gcd_one hd (by rw [Int.gcd_comm]; exact hga)
  have h2 : b1 ∣ a1 := by
    have hd : b1 ∣ b0 * a1 := ⟨a0, by rw [← h]; ring⟩
    exact Int.dvd_of_dvd_mul_right_of_gcd_one hd (by rw [Int.gcd_comm]; exact hgb)
  have h3 : a1 = b1 := Int.le_antisymm (Int.le_of_dvd hb h1) (Int.le_of_dvd ha h2)
  subst h3
  exact ⟨Int.eq_of_mul_eq_mul_right (by omega) h, rfl⟩

/-- The case `=` answers whether the two pairs have the same components. -/
theorem operate_eq_componentwise (a0 a1 b0 b1 : Int) :
    fraction.operate "=" (a0, a1) (b0, b1)
      = some (if a0 = b0 ∧ a1 = b1 then (1, 1) else (0, 1)) := by
  simp only [fraction.operate, fraction.eq, fraction.debool]
  by_cases h : a0 = b0 ∧ a1 = b1
  · simp [h]
  · rw [if_neg h]
    by_cases h0 : a0 = b0
    · have h1 : ¬ a1 = b1 := fun h1 => h ⟨h0, h1⟩
      simp [h0, h1]
    · simp [h0]

theorem equality_example :
    interpret 11 "1 / (0 - 2) = (0 - 1) / 2" [] = Except.ok (Value.NUMBER 0 1) :=
  interpret_of_stages 11 "1 / (0 - 2) = (0 - 1) / 2" []
    [Branch.NUMBER 1 1, Branch.OPERATOR "/", Branch.BRACKET '(', Branch.NUMBER 0 1,
      Branch.OPERATOR "-", Branch.NUMBER 2 1, Branch.BRACKET ')', Branch.OPERATOR "=",
      Branch.BRACKET '(', Branch.NUMBER 0 1, Branch.OPERATOR "-", Branch.NUMBER 1 1,
      Branch.BRACKET ')', Branch.OPERATOR "/", Branch.NUMBER 2 1]
    (Branch.EXPRESSION (Branch.COMBINATION "="
      (Branch.COMBINATION "/" (Branch.NUMBER 1 1)
        (Branch.EXPRESSION (Branch.COMBINATION "-" (Branch.NUMBER 0 1) (Branch.NUMBER 2 1))))
      (Branch.COMBINATION "/"
        (Branch.EXPRESSION (Branch.COMBINATION "-" (Branch.NUMBER 0 1) (Branch.NUMBER 1 1)))
        (Branch.NUMBER 2 1))))
    (Value.NUMBER 0 1) 15 (by rfl) (by rfl) (by rfl)

/-- C10: the code compares the two pairs component by component, which
tells equal numbers only from pairs in one canonical form, and the library
leaves the sign of a denominator where division put it.  `1 / (0 - 2)` is the
pair `(1, -2)` and `(0 - 1) / 2` is the pair `(-1, 2)`; both are the rational
number `-1/2` (`1 * 2 = -1 * -2`), yet `1 / (0 - 2) = (0 - 1) / 2` evaluates
to `NUMBER(0,1)`.  On every two pairs `=` answers whether the components are
the same, so it also answers 0 on `(1, 2)` and `(2, 4)`; on pairs in lowest
terms with positive denominators that is the equality of the two rational
numbers. -/
theorem fraction_equality_is_componentwise :
    fraction.operate "/" (1, 1) (-2, 1) = some (1, -2)
    ∧ fraction.operate "/" (-1, 1) (2, 1) = some (-1, 2)
    ∧ fraction.operate "=" (1, -2) (-1, 2) = some (0, 1)
    ∧ (1 : Int) * 2 = -1 * -2
    ∧ interpret 11 "1 / (0 - 2) = (0 - 1) / 2" [] = Except.ok (Value.NUMBER 0 1)
    ∧ fraction.operate "=" (1, 2) (2, 4) = some (0, 1)
    ∧ (∀ a0 a1 b0 b1 : Int, fraction.operate "=" (a0, a1) (b0, b1)
        = some (if a0 = b0 ∧ a1 = b1 then (1, 1) else (0, 1)))
    ∧ (∀ a0 a1 b0 b1 : Int, 0 < a1 → 0 < b1 → Int.gcd a0 a1 = 1 → Int.gcd b0 b1 = 1 →
        (a0 = b0 ∧ a1 = b1 ↔ a0 * b1 = b0 * a1)) := by
  refine ⟨by rfl, by rfl, by rfl, by rfl, equality_example, by rfl,
    operate_eq_componentwise, ?_⟩
  intro a0 a1 b0 b1 ha hb hga hgb
  constructor
  · intro h
    rw [h.1, h.2]
  · exact eq_of_cross_mul a0 a1 b0 b1 ha hb hga hgb

/-! ### The fraction library -/

theorem natAbs_tmod (a b : Int) : (Int.tmod a b).natAbs = a.natAbs % b.natAbs := by
  cases a <;> cases b <;> simp [Int.tmod, Int.natAbs_neg] <;> rfl

theorem gcdLoop_natAbs : ∀ (fuel : Nat) (a b : Int), b.natAbs < fuel →
    (fraction.gcdLoop fuel a b).natAbs = Nat.gcd a.natAbs b.natAbs := by
  intro fuel
  induction fuel with
  | zero => intro a b h; omega
  | succ fuel ih =>
    intro a b h
    rw [fraction.gcdLoop]
    by_cases hb : b = 0
    · rw [if_pos hb, hb]
      simp
    · rw [if_neg hb]
      have hpos : 0 < b.natAbs := Int.natAbs_pos.mpr hb
      have hlt : (Int.tmod a b).natAbs < b.natAbs := by
        rw [natAbs_tmod]
        exact Nat.mod_lt _ hpos
      rw [ih b (Int.tmod a b) (by omega), natAbs_tmod]
      exact ((Nat.gcd_comm _ _).trans ((Nat.gcd_rec b.natAbs a.natAbs).trans
        (Nat.gcd_comm _ _))).symm

/-- The absolute value of `fraction.gcd` is the greatest common divisor. -/
theorem gcd_natAbs (a b : Int) : (fraction.gcd a b).natAbs = Int.gcd a b := by
  rw [fraction.gcd, gcdLoop_natAbs _ _ _ (by omega), Int.gcd_eq_natAbs]

theorem gcdLoop_fuel : ∀ (f1 f2 : Nat) (a b : Int), b.natAbs < f1 → b.natAbs < f2 →
    fraction.gcdLoop f1 a b = fraction.gcdLoop f2 a b := by
  intro f1
  induction f1 with
  | zero => intro f2 a b h; omega
  | succ f1 ih =>
    intro f2 a b h1 h2
    cases f2 with
    | zero => omega
    | succ f2 =>
      rw [fraction.gcdLoop, fraction.gcdLoop]
      by_cases hb : b = 0
      · rw [if_pos hb, if_pos hb]
      · rw [if_neg hb, if_neg hb]
        have hpos : 0 < b.natAbs := Int.natAbs_pos.mpr hb
        have hlt : (Int.tmod a b).natAbs < b.natAbs := by
          rw [natAbs_tmod]
          exact Nat.mod_lt _ hpos
        exact ih f2 b (Int.tmod a b) (by omega) (by omega)

/-- The recursion of the source: `gcd(a, b) = b ? gcd(b, a % b) : a`. -/
theorem gcd_unfold (a b : Int) :
    fraction.gcd a b = if b = 0 then a else fraction.gcd b (Int.tmod a b) := by
  rw [fraction.gcd, fraction.gcdLoop]
  by_cases hb : b = 0
  · rw [if_pos hb, if_pos hb]
  · rw [if_neg hb, if_neg hb, fraction.gcd]
    have hpos : 0 < b.natAbs := Int.natAbs_pos.mpr hb
    have hlt : (Int.tmod a b).natAbs < b.natAbs := by
      rw [natAbs_tmod]
      exact Nat.mod_lt _ hpos
    exact gcdLoop_fuel _ _ _ _ (by omega) (by omega)

/-- What `simplify` computes when the two numbers are not both zero: the
quotients by the greatest common divisor. -/
theorem simplify_eq (n d : Int) (h : Int.gcd n d ≠ 0) :
    fraction.simplify n d = (n / (Int.gcd n d : Int), d / (Int.gcd n d : Int)) := by
  have habs : |fraction.gcd n d| = (Int.gcd n d : Int) := by
    rw [Int.abs_eq_natAbs, gcd_natAbs]
  have hne : ¬ ((Int.gcd n d : Int) = 0) := by exact_mod_cast h
  simp only [fraction.simplify, habs, if_neg hne]

theorem simplify_zero_zero : fraction.simplify 0 0 = (0, 0) := by rfl

theorem simplify_coprime (n d : Int) (h : Int.gcd n d ≠ 0) :
    Int.gcd (fraction.simplify n d).1 (fraction.simplify n d).2 = 1 := by
  rw [simplify_eq n d h]
  exact Int.gcd_div_gcd_div_gcd (Nat.pos_of_ne_zero h)

theorem simplify_fst_mul (n d : Int) (h : Int.gcd n d ≠ 0) :
    (fraction.simplify n d).1 * (Int.gcd n d : Int) = n := by
  rw [simplify_eq n d h]
  exact Int.ediv_mul_cancel (Int.gcd_dvd_left)

theorem simplify_snd_mul (n d : Int) (h : Int.gcd n d ≠ 0) :
    (fraction.simplify n d).2 * (Int.gcd n d : Int) = d := by
  rw [simplify_eq n d h]
  exact Int.ediv_mul_cancel (Int.gcd_dvd_right)

theorem gcd_ne_zero_of_right (n d : Int) (hd : d ≠ 0) : Int.gcd n d ≠ 0 := by
  intro h
  exact hd (Int.gcd_eq_zero_iff.mp h).2

theorem simplify_snd_ne_zero (n d : Int) (hd : d ≠ 0) : (fraction.simplify n d).2 ≠ 0 := by
  intro h
  have := simplify_snd_mul n d (gcd_ne_zero_of_right n d hd)
  rw [h, Int.zero_mul] at this
  exact hd this.symm

/-! ### C13 -/

/-- C13: `simplify` reduces to lowest terms without changing the value.  For
all integers `n` and `d` with `d ≠ 0`, `simplify(n, d) = (n', d')` has
`gcd(|n'|, |d'|) = 1`, `n' * d = n * d'` and `d' ≠ 0`, where `fraction.gcd`
runs on JavaScript's truncating remainder and its absolute value is the
greatest common divisor; and `simplify(0, 0)` is `(0, 0)`. -/
theorem simplify_lowest_terms (n d : Int) (hd : d ≠ 0) :
    Nat.gcd (fraction.simplify n d).1.natAbs (fraction.simplify n d).2.natAbs = 1
    ∧ (fraction.simplify n d).1 * d = n * (fraction.simplify n d).2
    ∧ (fraction.simplify n d).2 ≠ 0
    ∧ (fraction.gcd n d).natAbs = Nat.gcd n.natAbs d.natAbs
    ∧ fraction.gcd n d = fraction.gcd d (Int.tmod n d)
    ∧ fraction.simplify 0 0 = (0, 0) := by
  have hg := gcd_ne_zero_of_right n d hd
  refine ⟨?_, ?_, simplify_snd_ne_zero n d hd, ?_, ?_, simplify_zero_zero⟩
  · rw [← Int.gcd_eq_natAbs]
    exact simplify_coprime n d hg
  · have h1 := simplify_fst_mul n d hg
    have h2 := simplify_snd_mul n d hg
    calc (fraction.simplify n d).1 * d
        = (fraction.simplify n d).1 * ((fraction.simplify n d).2 * (Int.gcd n d : Int)) := by
          rw [h2]
      _ = ((fraction.simplify n d).1 * (Int.gcd n d : Int)) * (fraction.simplify n d).2 := by ring
      _ = n * (fraction.simplify n d).2 := by rw [h1]
  · rw [gcd_natAbs, Int.gcd_eq_natAbs]
  · rw [gcd_unfold, if_neg hd]

/-- C13 at `simplify(325, 100)`, which is `(13, 4)`. -/
theorem simplify_lowest_terms_witness :
    Nat.gcd (fraction.simplify 325 100).1.natAbs (fraction.simplify 325 100).2.natAbs = 1
    ∧ (fraction.simplify 325 100).1 * 100 = 325 * (fraction.simplify 325 100).2 :=
  ⟨(simplify_lowest_terms 325 100 (by decide)).1, (simplify_lowest_terms 325 100 (by decide)).2.1⟩

theorem coprime_of_dvd (a0 a1 x v g1 g2 : Int) (h : Int.gcd a0 a1 = 1) (hx : x * g1 = a0)
    (hv : v * g2 = a1) : IsCoprime x v := by
  have hc : IsCoprime a0 a1 := Int.isCoprime_iff_gcd_eq_one.mpr h
  rw [← hx, ← hv] at hc
  exact hc.of_mul_left_left.of_mul_right_left

/-- The product of two fractions in lowest terms is in lowest terms. -/
theorem mul_lowest_terms (a0 a1 b0 b1 : Int) (ha : a1 ≠ 0) (hb : b1 ≠ 0)
    (hga : Int.gcd a0 a1 = 1) (hgb : Int.gcd b0 b1 = 1) :
    Int.gcd (mulExact (a0, a1) (b0, b1)).1 (mulExact (a0, a1) (b0, b1)).2 = 1
    ∧ (mulExact (a0, a1) (b0, b1)).2 ≠ 0 := by
  have hg1 := gcd_ne_zero_of_right a0 b1 hb
  have hg2 := gcd_ne_zero_of_right b0 a1 ha
  have hx := simplify_fst_mul a0 b1 hg1
  have hy := simplify_snd_mul a0 b1 hg1
  have hu := simplify_fst_mul b0 a1 hg2
  have hv := simplify_snd_mul b0 a1 hg2
  have cxy : IsCoprime (fraction.simplify a0 b1).1 (fraction.simplify a0 b1).2 :=
    Int.isCoprime_iff_gcd_eq_one.mpr (simplify_coprime a0 b1 hg1)
  have cuv : IsCoprime (fraction.simplify b0 a1).1 (fraction.simplify b0 a1).2 :=
    Int.isCoprime_iff_gcd_eq_one.mpr (simplify_coprime b0 a1 hg2)
  have cxv := coprime_of_dvd a0 a1 _ _ _ _ hga hx hv
  have cuy := coprime_of_dvd b0 b1 _ _ _ _ hgb hu hy
  constructor
  · simp only [mulExact]
    exact Int.isCoprime_iff_gcd_eq_one.mp
      (IsCoprime.mul_left (IsCoprime.mul_right cxy cxv) (IsCoprime.mul_right cuy cuv))
  · simp only [mulExact]
    exact Int.mul_ne_zero (simplify_snd_ne_zero a0 b1 hb) (simplify_snd_ne_zero b0 a1 ha)

/-- A sum is in lowest terms. -/
theorem add_lowest_terms (a0 a1 b0 b1 : Int) (ha : a1 ≠ 0) (hb : b1 ≠ 0) :
    Int.gcd (addExact (a0, a1) (b0, b1)).1 (addExact (a0, a1) (b0, b1)).2 = 1
    ∧ (addExact (a0, a1) (b0, b1)).2 ≠ 0 := by
  have hd : a1 * b1 ≠ 0 := Int.mul_ne_zero ha hb
  simp only [addExact]
  exact ⟨simplify_coprime _ _ (gcd_ne_zero_of_right _ _ hd), simplify_snd_ne_zero _ _ hd⟩

/-! ### Products and sums that are not rounded -/

/-- Rounding to a double on a few integers above `2^53`: a tie goes to the
neighbour whose last kept bit is 0, down from `2^53 + 1` and up from
`2^53 + 3`; the sign is kept; twelve bits are dropped above `2^64`, where
`2^64 + 2^11` is a tie and goes down and `2^64 + 2^11 + 1` goes up. -/
theorem roundToDouble_examples :
    roundToDouble 9007199254740992 = some 9007199254740992
    ∧ roundToDouble 9007199254740993 = some 9007199254740992
    ∧ roundToDouble 9007199254740995 = some 9007199254740996
    ∧ roundToDouble (-9007199515875289) = some (-9007199515875288)
    ∧ roundToDouble 18446744073709553664 = some 18446744073709551616
    ∧ roundToDouble 18446744073709553665 = some 18446744073709555712 :=
  ⟨by rfl, by rfl, by rfl, by rfl, by rfl, by rfl⟩

/-- An integer below `2^53` in absolute value is a double. -/
theorem roundToDouble_small (x : Int) (h : x.natAbs < 2 ^ 53) : roundToDouble x = some x := by
  have h1 : x.natAbs < 9007199254740992 := by
    have e : (2 : Nat) ^ 53 = 9007199254740992 := by norm_num
    rw [e] at h
    exact h
  simp only [roundToDouble]
  rw [if_pos h1]

theorem natAbs_mul_lt (x y : Int) (hx : x.natAbs < 2 ^ 26) (hy : y.natAbs < 2 ^ 26) :
    (x * y).natAbs < 2 ^ 52 := by
  rw [Int.natAbs_mul]
  have e : (2 : Nat) ^ 52 = 2 ^ 26 * 2 ^ 26 := by norm_num
  rw [e]
  exact Nat.mul_lt_mul'' hx hy

theorem natAbs_add_lt (p q : Int) (hp : p.natAbs < 2 ^ 52) (hq : q.natAbs < 2 ^ 52) :
    (p + q).natAbs < 2 ^ 53 := by
  have h := Int.natAbs_add_le p q
  have e : (2 : Nat) ^ 53 = 2 ^ 52 + 2 ^ 52 := by norm_num
  omega

theorem natAbs_simplify_fst_le (n d : Int) (hd : d ≠ 0) :
    (fraction.simplify n d).1.natAbs ≤ n.natAbs := by
  have hg := gcd_ne_zero_of_right n d hd
  have h := congrArg Int.natAbs (simplify_fst_mul n d hg)
  rw [Int.natAbs_mul, Int.natAbs_ofNat] at h
  calc (fraction.simplify n d).1.natAbs
      ≤ (fraction.simplify n d).1.natAbs * Int.gcd n d :=
        Nat.le_mul_of_pos_right _ (Nat.pos_of_ne_zero hg)
    _ = n.natAbs := h

theorem natAbs_simplify_snd_le (n d : Int) (hd : d ≠ 0) :
    (fraction.simplify n d).2.natAbs ≤ d.natAbs := by
  have hg := gcd_ne_zero_of_right n d hd
  have h := congrArg Int.natAbs (simplify_snd_mul n d hg)
  rw [Int.natAbs_mul, Int.natAbs_ofNat] at h
  calc (fraction.simplify n d).2.natAbs
      ≤ (fraction.simplify n d).2.natAbs * Int.gcd n d :=
        Nat.le_mul_of_pos_right _ (Nat.pos_of_ne_zero hg)
    _ = d.natAbs := h

/-- Case `*` returns the exact products when both are below `2^53`. -/
theorem mul_of_exact (a b : Int × Int) (h1 : (mulExact a b).1.natAbs < 2 ^ 53)
    (h2 : (mulExact a b).2.natAbs < 2 ^ 53) : fraction.mul a b = some (mulExact a b) := by
  simp only [mulExact] at h1 h2
  simp only [fraction.mul, mulExact, roundToDouble_small _ h1, roundToDouble_small _ h2]

/-- Case `+` returns the exact sum over the exact denominator when the three
products and the sum are below `2^53`. -/
theorem add_of_exact (a b : Int × Int) (h1 : (a.1 * b.2).natAbs < 2 ^ 53)
    (h2 : (b.1 * a.2).natAbs < 2 ^ 53) (h3 : (a.2 * b.2).natAbs < 2 ^ 53)
    (h4 : (a.1 * b.2 + b.1 * a.2).natAbs < 2 ^ 53) :
    fraction.add a b = some (addExact a b) := by
  simp only [fraction.add, addExact, roundToDouble_small _ h1, roundToDouble_small _ h2,
    roundToDouble_small _ h3, roundToDouble_small _ h4]

/-- No product of case `*` is rounded when all four components are below
`2^26`. -/
theorem mul_of_small (a0 a1 b0 b1 : Int) (ha : a1 ≠ 0) (hb : b1 ≠ 0)
    (ba0 : a0.natAbs < 2 ^ 26) (ba1 : a1.natAbs < 2 ^ 26)
    (bb0 : b0.natAbs < 2 ^ 26) (bb1 : b1.natAbs < 2 ^ 26) :
    fraction.mul (a0, a1) (b0, b1) = some (mulExact (a0, a1) (b0, b1)) := by
  have e : (2 : Nat) ^ 52 < 2 ^ 53 := by norm_num
  apply mul_of_exact
  · simp only [mulExact]
    exact Nat.lt_trans (natAbs_mul_lt _ _
      (Nat.lt_of_le_of_lt (natAbs_simplify_fst_le a0 b1 hb) ba0)
      (Nat.lt_of_le_of_lt (natAbs_simplify_fst_le b0 a1 ha) bb0)) e
  · simp only [mulExact]
    exact Nat.lt_trans (natAbs_mul_lt _ _
      (Nat.lt_of_le_of_lt (natAbs_simplify_snd_le a0 b1 hb) bb1)
      (Nat.lt_of_le_of_lt (natAbs_simplify_snd_le b0 a1 ha) ba1)) e

/-- No product and no sum of case `+` is rounded when all four components
are below `2^26`. -/
theorem add_of_small (a0 a1 b0 b1 : Int)
    (ba0 : a0.natAbs < 2 ^ 26) (ba1 : a1.natAbs < 2 ^ 26)
    (bb0 : b0.natAbs < 2 ^ 26) (bb1 : b1.natAbs < 2 ^ 26) :
    fraction.add (a0, a1) (b0, b1) = some (addExact (a0, a1) (b0, b1)) := by
  have e : (2 : Nat) ^ 52 < 2 ^ 53 := by norm_num
  apply add_of_exact
  · exact Nat.lt_trans (natAbs_mul_lt _ _ ba0 bb1) e
  · exact Nat.lt_trans (natAbs_mul_lt _ _ bb0 ba1) e
  · exact Nat.lt_trans (natAbs_mul_lt _ _ ba1 bb1) e
  · exact natAbs_add_lt _ _ (natAbs_mul_lt _ _ ba0 bb1) (natAbs_mul_lt _ _ bb0 ba1)

/-! ### C19 -/

theorem rounded_product_example :
    interpret 12 "94906267 / 2 * (94906267 / 2)" []
      = Except.ok (Value.NUMBER 9007199515875288 4) :=
  interpret_of_stages 12 "94906267 / 2 * (94906267 / 2)" []
    [Branch.NUMBER 94906267 1, Branch.OPERATOR "/", Branch.NUMBER 2 1, Branch.OPERATOR "*",
      Branch.BRACKET '(', Branch.NUMBER 94906267 1, Branch.OPERATOR "/", Branch.NUMBER 2 1,
      Branch.BRACKET ')']
    (Branch.EXPRESSION (Branch.COMBINATION "*"
      (Branch.COMBINATION "/" (Branch.NUMBER 94906267 1) (Branch.NUMBER 2 1))
      (Branch.EXPRESSION
        (Branch.COMBINATION "/" (Branch.NUMBER 94906267 1) (Branch.NUMBER 2 1)))))
    (Value.NUMBER 9007199515875288 4) 9 (by rfl) (by rfl) (by rfl)

/-- C19, the claim as stated fails where a product is rounded: `94906267/2`
is in lowest terms, its square has the numerator `94906267 * 94906267 =
9007199515875289`, which is above `2^53` and is rounded to the double
`9007199515875288`, and the result `(9007199515875288, 4)` has the common
factor 4.  The program `94906267 / 2 * (94906267 / 2)` evaluates to it. -/
theorem rounded_product_is_not_reduced :
    Int.gcd 94906267 2 = 1
    ∧ (94906267 : Int) * 94906267 = 9007199515875289
    ∧ roundToDouble 9007199515875289 = some 9007199515875288
    ∧ fraction.operate "*" (94906267, 2) (94906267, 2) = some (9007199515875288, 4)
    ∧ Int.gcd 9007199515875288 4 = 4
    ∧ interpret 12 "94906267 / 2 * (94906267 / 2)" []
        = Except.ok (Value.NUMBER 9007199515875288 4) :=
  ⟨by rfl, by rfl, by rfl, by rfl, by rfl, rounded_product_example⟩

/-- C19, amended: lowest terms is an invariant of fraction arithmetic as
long as no product is rounded.  For fractions `a` and `b` in lowest terms
with nonzero denominators whose four components are below `2^26` in absolute
value, the results of `+`, `-` and `*` are in lowest terms with a nonzero
denominator, and so is the result of `/` when the numerator of `b` is not
zero. -/
theorem lowest_terms_invariant (a0 a1 b0 b1 : Int) (ha : a1 ≠ 0) (hb : b1 ≠ 0)
    (hga : Int.gcd a0 a1 = 1) (hgb : Int.gcd b0 b1 = 1)
    (ba0 : a0.natAbs < 2 ^ 26) (ba1 : a1.natAbs < 2 ^ 26)
    (bb0 : b0.natAbs < 2 ^ 26) (bb1 : b1.natAbs < 2 ^ 26) :
    (∀ op, op = "+" ∨ op = "-" ∨ op = "*" →
      ∃ r, fraction.operate op (a0, a1) (b0, b1) = some r ∧ Int.gcd r.1 r.2 = 1 ∧ r.2 ≠ 0)
    ∧ (b0 ≠ 0 →
      ∃ r, fraction.operate "/" (a0, a1) (b0, b1) = some r ∧ Int.gcd r.1 r.2 = 1 ∧ r.2 ≠ 0) := by
  constructor
  · intro op hop
    rcases hop with rfl | rfl | rfl
    · exact ⟨_, add_of_small a0 a1 b0 b1 ba0 ba1 bb0 bb1, add_lowest_terms a0 a1 b0 b1 ha hb⟩
    · exact ⟨_, add_of_small a0 a1 (-b0) b1 ba0 ba1 (by rw [Int.natAbs_neg]; exact bb0) bb1,
        add_lowest_terms a0 a1 (-b0) b1 ha hb⟩
    · exact ⟨_, mul_of_small a0 a1 b0 b1 ha hb ba0 ba1 bb0 bb1,
        mul_lowest_terms a0 a1 b0 b1 ha hb hga hgb⟩
  · intro hb0
    exact ⟨_, mul_of_small a0 a1 b1 b0 ha hb0 ba0 ba1 bb1 bb0,
      mul_lowest_terms a0 a1 b1 b0 ha hb0 hga (by rw [Int.gcd_comm]; exact hgb)⟩

/-- C19, amended, at `1/2` and `2/3`. -/
theorem lowest_terms_invariant_witness :
    ∃ r, fraction.operate "*" (1, 2) (2, 3) = some r ∧ Int.gcd r.1 r.2 = 1 ∧ r.2 ≠ 0 :=
  (lowest_terms_invariant 1 2 2 3 (by decide) (by decide) (by decide) (by decide)
    (by decide) (by decide) (by decide) (by decide)).1 "*" (Or.inr (Or.inr rfl))

theorem ediv_natAbs_self (c : Int) : c / (c.natAbs : Int) = Int.sign c := by
  rw [Int.sign_eq_ediv_abs, Int.abs_eq_natAbs]

/-- `simplify` on two numbers with a common factor `c` and coprime cofactors
leaves the cofactors, each with the sign of `c`. -/
theorem simplify_mul_common (x g c : Int) (hc : c ≠ 0) (hco : Int.gcd x g = 1) :
    fraction.simplify (x * c) (g * c) = (x * Int.sign c, g * Int.sign c) := by
  have hgcd : Int.gcd (x * c) (g * c) = c.natAbs := by
    rw [Int.gcd_mul_right, hco, Nat.one_mul]
  have hne : Int.gcd (x * c) (g * c) ≠ 0 := by
    rw [hgcd]
    exact Int.natAbs_ne_zero.mpr hc
  have hdvd : (c.natAbs : Int) ∣ c := Int.natAbs_dvd.mpr (dvd_refl c)
  rw [simplify_eq _ _ hne, hgcd, Int.mul_ediv_assoc x hdvd, Int.mul_ediv_assoc g hdvd,
    ediv_natAbs_self]

theorem sign_of_mul_pos (u g : Int) (hg : 0 < g) : Int.sign (u * g) = Int.sign u := by
  rw [Int.sign_mul, Int.sign_eq_one_of_pos hg, Int.mul_one]

/-- In exact arithmetic, multiplying by `b` and dividing by `b` again gives
`a` with both components multiplied by the sign of `b`. -/
theorem div_mul_cancel_sign (a0 a1 b0 b1 : Int) (ha : a1 ≠ 0) (hb0 : b0 ≠ 0) (hb1 : b1 ≠ 0)
    (hga : Int.gcd a0 a1 = 1) (hgb : Int.gcd b0 b1 = 1) :
    mulExact (mulExact (a0, a1) (b0, b1)) (b1, b0)
      = (a0 * (Int.sign b0 * Int.sign b1), a1 * (Int.sign b0 * Int.sign b1)) := by
  have hg1 := gcd_ne_zero_of_right a0 b1 hb1
  have hg2 := gcd_ne_zero_of_right b0 a1 ha
  have hx := simplify_fst_mul a0 b1 hg1
  have hy := simplify_snd_mul a0 b1 hg1
  have hu := simplify_fst_mul b0 a1 hg2
  have hv := simplify_snd_mul b0 a1 hg2
  have hg1pos : (0 : Int) < (Int.gcd a0 b1 : Int) := by
    exact_mod_cast Nat.pos_of_ne_zero hg1
  have hg2pos : (0 : Int) < (Int.gcd b0 a1 : Int) := by
    exact_mod_cast Nat.pos_of_ne_zero hg2
  generalize hxd : (fraction.simplify a0 b1).1 = x at hx
  generalize hyd : (fraction.simplify a0 b1).2 = y at hy
  generalize hud : (fraction.simplify b0 a1).1 = u at hu
  generalize hvd : (fraction.simplify b0 a1).2 = v at hv
  generalize (Int.gcd a0 b1 : Int) = g1 at hx hy hg1pos
  generalize (Int.gcd b0 a1 : Int) = g2 at hu hv hg2pos
  have hune : u ≠ 0 := by
    intro h0
    rw [h0, Int.zero_mul] at hu
    exact hb0 hu.symm
  have hyne : y ≠ 0 := by
    intro h0
    rw [h0, Int.zero_mul] at hy
    exact hb1 hy.symm
  have cxg2 : Int.gcd x g2 = 1 := by
    have hc : IsCoprime a0 a1 := Int.isCoprime_iff_gcd_eq_one.mpr hga
    rw [← hx, ← hv, Int.mul_comm v g2] at hc
    exact Int.isCoprime_iff_gcd_eq_one.mp hc.of_mul_left_left.of_mul_right_left
  have cg1v : Int.gcd g1 v = 1 := by
    have hc : IsCoprime a0 a1 := Int.isCoprime_iff_gcd_eq_one.mpr hga
    rw [← hx, ← hv, Int.mul_comm x g1] at hc
    exact Int.isCoprime_iff_gcd_eq_one.mp hc.of_mul_left_left.of_mul_right_left
  have e1 : fraction.simplify (x * u) b0 = (x * Int.sign u, g2 * Int.sign u) := by
    rw [← hu, Int.mul_comm u g2]
    exact simplify_mul_common x g2 u hune cxg2
  have e2 : fraction.simplify b1 (y * v) = (g1 * Int.sign y, v * Int.sign y) := by
    rw [← hy, Int.mul_comm y g1, Int.mul_comm y v]
    exact simplify_mul_common g1 v y hyne cg1v
  have su : Int.sign u = Int.sign b0 := by rw [← hu, sign_of_mul_pos u g2 hg2pos]
  have sy : Int.sign y = Int.sign b1 := by rw [← hy, sign_of_mul_pos y g1 hg1pos]
  have hm : mulExact (a0, a1) (b0, b1) = (x * u, y * v) := by
    simp only [mulExact, hxd, hyd, hud, hvd]
  rw [hm]
  simp only [mulExact, e1, e2, su, sy]
  rw [← hx, ← hv]
  refine Prod.ext ?_ ?_ <;> simp only <;> ring

theorem natAbs_mul_signs (x b0 b1 : Int) (hb0 : b0 ≠ 0) (hb1 : b1 ≠ 0) :
    (x * (Int.sign b0 * Int.sign b1)).natAbs = x.natAbs := by
  rw [Int.natAbs_mul, Int.natAbs_mul, Int.natAbs_sign_of_nonzero hb0,
    Int.natAbs_sign_of_nonzero hb1, Nat.mul_one]

/-! ### C12 -/

/-- C12, the claim as stated fails for a negative `b`: with `a = 1/2` and
`b = -1` the product is `(-1, 2)` and dividing it by `b` gives `(-1, -2)`,
not `(1, 2)`.  It also fails where a product is rounded: with
`a = b = 94906267` the product is the double `9007199515875288`, not
`94906267 * 94906267`, and dividing it by `b` gives
`(9007199515875288, 94906267)`, which is not the rational number `a`. -/
theorem round_trip_negates_both :
    fraction.operate "*" (1, 2) (-1, 1) = some (-1, 2)
    ∧ fraction.operate "/" (-1, 2) (-1, 1) = some (-1, -2)
    ∧ fraction.operate "/" (-1, 2) (-1, 1) ≠ some (1, 2)
    ∧ fraction.operate "*" (94906267, 1) (94906267, 1) = some (9007199515875288, 1)
    ∧ fraction.operate "/" (9007199515875288, 1) (94906267, 1)
        = some (9007199515875288, 94906267)
    ∧ (9007199515875288 : Int) * 1 ≠ 94906267 * 94906267 := by
  refine ⟨by rfl, by rfl, ?_, by rfl, by rfl, by decide⟩
  intro h
  have h2 : fraction.operate "/" (-1, 2) (-1, 1) = some (-1, -2) := by rfl
  rw [h2] at h
  revert h
  decide

/-- C12, amended: multiplying and then dividing by the same nonzero fraction
gives back the same rational number, and the same pair when `b` is positive,
as long as no product is rounded.  For `a` in lowest terms with nonzero
denominator and `b` in lowest terms with nonzero numerator and denominator,
all four components below `2^26` in absolute value,
`operate('/', operate('*', a, b), b)` is the pair `(s * a0, s * a1)` with `s`
the product of the signs of `b0` and `b1`: it denotes the rational number
`a`, and it is `a` itself when `b0` and `b1` have the same sign. -/
theorem round_trip_up_to_sign (a0 a1 b0 b1 : Int) (ha : a1 ≠ 0) (hb0 : b0 ≠ 0) (hb1 : b1 ≠ 0)
    (hga : Int.gcd a0 a1 = 1) (hgb : Int.gcd b0 b1 = 1)
    (ba0 : a0.natAbs < 2 ^ 26) (ba1 : a1.natAbs < 2 ^ 26)
    (bb0 : b0.natAbs < 2 ^ 26) (bb1 : b1.natAbs < 2 ^ 26) :
    ∃ p r, fraction.operate "*" (a0, a1) (b0, b1) = some p
      ∧ fraction.operate "/" p (b0, b1) = some r
      ∧ r = (a0 * (Int.sign b0 * Int.sign b1), a1 * (Int.sign b0 * Int.sign b1))
      ∧ r.1 * a1 = a0 * r.2
      ∧ (0 < b0 * b1 → r = (a0, a1)) := by
  have hcancel := div_mul_cancel_sign a0 a1 b0 b1 ha hb0 hb1 hga hgb
  have e : (2 : Nat) ^ 26 < 2 ^ 53 := by norm_num
  have hdiv : fraction.mul (mulExact (a0, a1) (b0, b1)) (b1, b0)
      = some (a0 * (Int.sign b0 * Int.sign b1), a1 * (Int.sign b0 * Int.sign b1)) := by
    rw [← hcancel]
    apply mul_of_exact
    · rw [hcancel]
      simp only
      rw [natAbs_mul_signs a0 b0 b1 hb0 hb1]
      exact Nat.lt_trans ba0 e
    · rw [hcancel]
      simp only
      rw [natAbs_mul_signs a1 b0 b1 hb0 hb1]
      exact Nat.lt_trans ba1 e
  refine ⟨mulExact (a0, a1) (b0, b1),
    (a0 * (Int.sign b0 * Int.sign b1), a1 * (Int.sign b0 * Int.sign b1)),
    mul_of_small a0 a1 b0 b1 ha hb1 ba0 ba1 bb0 bb1, hdiv, rfl, ?_, ?_⟩
  · simp only
    ring
  · intro hpos
    have hs : Int.sign b0 * Int.sign b1 = 1 := by
      rw [← Int.sign_mul]
      exact Int.sign_eq_one_of_pos hpos
    rw [hs, Int.mul_one, Int.mul_one]

/-- C12, amended, at `a = 1/2` and `b = 2/3`. -/
theorem round_trip_up_to_sign_witness :
    ∃ p r, fraction.operate "*" (1, 2) (2, 3) = some p
      ∧ fraction.operate "/" p (2, 3) = some r
      ∧ r = (1 * (Int.sign 2 * Int.sign 3), 2 * (Int.sign 2 * Int.sign 3))
      ∧ r.1 * 2 = 1 * r.2
      ∧ (0 < (2 : Int) * 3 → r = (1, 2)) :=
  round_trip_up_to_sign 1 2 2 3 (by decide) (by decide) (by decide) (by decide) (by decide)
    (by decide) (by decide) (by decide) (by decide)

/-! ### C11 -/

theorem rat_sub_div (a0 a1 b0 b1 : Int) (ha : a1 ≠ 0) (hb : b1 ≠ 0) :
    (a0 : ℚ) / a1 - (b0 : ℚ) / b1 = ((a0 * b1 - b0 * a1 : Int) : ℚ) / ((a1 * b1 : Int) : ℚ) := by
  have ha' : (a1 : ℚ) ≠ 0 := by exact_mod_cast ha
  have hb' : (b1 : ℚ) ≠ 0 := by exact_mod_cast hb
  push_cast
  field_simp
  ring

/-- Cross-multiplication decides the order of two fractions whose
denominators have the same sign. -/
theorem cross_lt_same_sign (a0 a1 b0 b1 : Int) (h : 0 < a1 * b1) :
    a0 * b1 < b0 * a1 ↔ (a0 : ℚ) / a1 < (b0 : ℚ) / b1 := by
  have ha : a1 ≠ 0 := by rintro rfl; simp at h
  have hb : b1 ≠ 0 := by rintro rfl; simp at h
  have hpos : (0 : ℚ) < ((a1 * b1 : Int) : ℚ) := by exact_mod_cast h
  rw [show ((a0 : ℚ) / a1 < (b0 : ℚ) / b1) ↔ ((a0 : ℚ) / a1 - (b0 : ℚ) / b1 < 0) from
    sub_neg.symm, rat_sub_div a0 a1 b0 b1 ha hb, div_lt_iff hpos, zero_mul, Int.cast_lt_zero,
    sub_neg]

/-- With denominators of opposite signs cross-multiplication decides the
reverse order. -/
theorem cross_lt_opposite_sign (a0 a1 b0 b1 : Int) (h : a1 * b1 < 0) :
    a0 * b1 < b0 * a1 ↔ (b0 : ℚ) / b1 < (a0 : ℚ) / a1 := by
  have ha : a1 ≠ 0 := by rintro rfl; simp at h
  have hb : b1 ≠ 0 := by rintro rfl; simp at h
  have hneg : ((a1 * b1 : Int) : ℚ) < 0 := by exact_mod_cast h
  rw [show ((b0 : ℚ) / b1 < (a0 : ℚ) / a1) ↔ (0 < (a0 : ℚ) / a1 - (b0 : ℚ) / b1) from
    sub_pos.symm, rat_sub_div a0 a1 b0 b1 ha hb, lt_div_iff_of_neg hneg, zero_mul, Int.cast_lt_zero,
    sub_neg]

theorem less_than_example :
    interpret 9 "1 / (0 - 2) < 0" [] = Except.ok (Value.NUMBER 0 1) :=
  interpret_of_stages 9 "1 / (0 - 2) < 0" []
    [Branch.NUMBER 1 1, Branch.OPERATOR "/", Branch.BRACKET '(', Branch.NUMBER 0 1,
      Branch.OPERATOR "-", Branch.NUMBER 2 1, Branch.BRACKET ')', Branch.OPERATOR "<",
      Branch.NUMBER 0 1]
    (Branch.EXPRESSION (Branch.COMBINATION "<"
      (Branch.COMBINATION "/" (Branch.NUMBER 1 1)
        (Branch.EXPRESSION (Branch.COMBINATION "-" (Branch.NUMBER 0 1) (Branch.NUMBER 2 1))))
      (Branch.NUMBER 0 1)))
    (Value.NUMBER 0 1) 9 (by rfl) (by rfl) (by rfl)

/-- The case `<` compares the two cross products, which are exact below
`2^53`. -/
theorem operate_lt_cross (a0 a1 b0 b1 : Int) (h1 : (a0 * b1).natAbs < 2 ^ 53)
    (h2 : (b0 * a1).natAbs < 2 ^ 53) :
    fraction.operate "<" (a0, a1) (b0, b1)
      = some (if a0 * b1 < b0 * a1 then (1, 1) else (0, 1)) := by
  simp only [fraction.operate, fraction.lt, fraction.debool, roundToDouble_small _ h1,
    roundToDouble_small _ h2]
  by_cases h : a0 * b1 < b0 * a1
  · simp [h]
  · simp [h]

/-- C11: the code compares `a0 * b1` with `b0 * a1` whatever the signs of
the denominators.  `1 / (0 - 2)` is the pair `(1, -2)`, the rational number
`-1/2`, which is less than 0, yet `1 / (0 - 2) < 0` evaluates to `NUMBER(0,1)`;
in general, with both cross products below `2^53` and so not rounded, `<`
answers the order of the two rational numbers when the denominators have the
same sign and the reverse order when they have opposite signs. -/
theorem less_than_ignores_denominator_sign :
    fraction.operate "/" (1, 1) (-2, 1) = some (1, -2)
    ∧ fraction.operate "<" (1, -2) (0, 1) = some (0, 1)
    ∧ ((1 : Int) : ℚ) / ((-2 : Int) : ℚ) < ((0 : Int) : ℚ) / ((1 : Int) : ℚ)
    ∧ interpret 9 "1 / (0 - 2) < 0" [] = Except.ok (Value.NUMBER 0 1)
    ∧ (∀ a0 a1 b0 b1 : Int, (a0 * b1).natAbs < 2 ^ 53 → (b0 * a1).natAbs < 2 ^ 53 →
        fraction.operate "<" (a0, a1) (b0, b1)
          = some (if a0 * b1 < b0 * a1 then (1, 1) else (0, 1)))
    ∧ (∀ a0 a1 b0 b1 : Int, 0 < a1 * b1 →
        (a0 * b1 < b0 * a1 ↔ (a0 : ℚ) / a1 < (b0 : ℚ) / b1))
    ∧ (∀ a0 a1 b0 b1 : Int, a1 * b1 < 0 →
        (a0 * b1 < b0 * a1 ↔ (b0 : ℚ) / b1 < (a0 : ℚ) / a1)) :=
  ⟨by rfl, by rfl, by norm_num, less_than_example, operate_lt_cross, cross_lt_same_sign,
    cross_lt_opposite_sign⟩

/-! ### The lexer on runs of characters -/

theorem stepNormal_word (c : Char) (hc : isWordChar c = true) (tokens : List Branch)
    (t : List Char) :
    stepNormal c { tokens := tokens, token := t, ctype := some CType.WORD }
      = (Mode.normal, { tokens := tokens, token := t ++ [c], ctype := some CType.WORD }) := by
  simp only [isWordChar, Bool.not_eq_true', Bool.or_eq_false_iff, decide_eq_false_iff_not] at hc
  obtain ⟨⟨⟨⟨⟨⟨⟨⟨⟨⟨⟨⟨⟨⟨⟨⟨⟨⟨h1, h2⟩, h3⟩, h4⟩, h5⟩, h6⟩, h7⟩, h8⟩, h9⟩, h10⟩, h11⟩, h12⟩, h13⟩,
    h14⟩, h15⟩, h16⟩, h17⟩, h18⟩, h19⟩ := hc
  have h19' : c ∉ operatorChars := by simpa using h19
  simp [stepNormal, h1, h2, h3, h4, h5, h6, h7, h8, h9, h10, h11, h12, h13, h14, h15, h16, h17,
    h18, h19']

theorem stepNormal_word_start (c : Char) (hc : isWordChar c = true) (s : LexState)
    (hs : s.ctype ≠ some CType.WORD) :
    stepNormal c s
      = (Mode.normal, { tokens := (endToken s).tokens, token := [c], ctype := some CType.WORD }) := by
  simp only [isWordChar, Bool.not_eq_true', Bool.or_eq_false_iff, decide_eq_false_iff_not] at hc
  obtain ⟨⟨⟨⟨⟨⟨⟨⟨⟨⟨⟨⟨⟨⟨⟨⟨⟨⟨h1, h2⟩, h3⟩, h4⟩, h5⟩, h6⟩, h7⟩, h8⟩, h9⟩, h10⟩, h11⟩, h12⟩, h13⟩,
    h14⟩, h15⟩, h16⟩, h17⟩, h18⟩, h19⟩ := hc
  have h19' : c ∉ operatorChars := by simpa using h19
  simp [stepNormal, h1, h2, h3, h4, h5, h6, h7, h8, h9, h10, h11, h12, h13, h14, h15, h16, h17,
    h18, h19', hs, endToken]

/-- A run of word characters only grows the accumulator. -/
theorem lexLoop_word_run (w rest : List Char) (hw : ∀ c ∈ w, isWordChar c = true)
    (tokens : List Branch) (t : List Char) :
    lexLoop (w ++ rest) Mode.normal { tokens := tokens, token := t, ctype := some CType.WORD }
      = lexLoop rest Mode.normal
          { tokens := tokens, token := t ++ w, ctype := some CType.WORD } := by
  induction w generalizing t with
  | nil => simp
  | cons c w ih =>
    have hc := hw c (List.mem_cons_self _ _)
    rw [List.cons_append, lexLoop, step, stepNormal_word c hc]
    simp only
    rw [ih (fun x hx => hw x (List.mem_cons_of_mem _ hx))]
    simp

/-- The scan of a word from the initial state, up to the character after it. -/
theorem lexLoop_word (c : Char) (w rest : List Char) (hc : isWordChar c = true)
    (hw : ∀ x ∈ w, isWordChar x = true) (tokens : List Branch) :
    lexLoop (c :: w ++ rest) Mode.normal { tokens := tokens, token := [], ctype := none }
      = lexLoop rest Mode.normal
          { tokens := tokens, token := c :: w, ctype := some CType.WORD } := by
  rw [List.cons_append, lexLoop, step,
    stepNormal_word_start c hc { tokens := tokens, token := [], ctype := none } (by simp)]
  simp only
  have he : (endToken { tokens := tokens, token := [], ctype := none }).tokens = tokens := by
    simp [endToken]
  rw [he, lexLoop_word_run w rest hw]
  simp

/-! ### C15 -/

/-- C15: the code drops a run that ends the source.  `lex` returns without a
last `endToken()`: for every non-empty string `w` of word characters, lexing
`w` yields no token at all, lexing `w` and a space yields the one token
`WORD(w)`, and lexing `w v` for a second such word `v` yields only `WORD(w)`;
so do `lex "abc"` and `lex "abc def"`, and the same holds for operators:
`lex "+"` is empty. -/
theorem trailing_word_is_dropped (c : Char) (w : List Char) (d : Char) (v : List Char)
    (hc : isWordChar c = true) (hw : ∀ x ∈ w, isWordChar x = true)
    (hd : isWordChar d = true) (hv : ∀ x ∈ v, isWordChar x = true) :
    lex (String.mk (c :: w)) = []
    ∧ lex (String.mk (c :: w ++ [' '])) = [Branch.WORD (String.mk (c :: w))]
    ∧ lex (String.mk (c :: w ++ ' ' :: d :: v)) = [Branch.WORD (String.mk (c :: w))]
    ∧ lex "abc" = [] ∧ lex "abc def" = [Branch.WORD "abc"]
    ∧ lex "+" = [] ∧ lex "+ " = [Branch.OPERATOR "+"] := by
  refine ⟨?_, ?_, ?_, by rfl, by rfl, by rfl, by rfl⟩
  · have h := lexLoop_word c w [] hc hw []
    rw [List.append_nil] at h
    rw [lex]
    simp only [String.toList]
    rw [h]
    rfl
  · rw [lex]
    simp only [String.toList]
    rw [lexLoop_word c w [' '] hc hw []]
    simp [lexLoop, step, stepNormal, endToken]
  · rw [lex]
    simp only [String.toList]
    rw [lexLoop_word c w (' ' :: d :: v) hc hw []]
    rw [lexLoop]
    have hsp : step Mode.normal ' ' { tokens := [], token := c :: w, ctype := some CType.WORD }
        = (Mode.normal,
            { tokens := [Branch.WORD (String.mk (c :: w))], token := [], ctype := none }) := by
      simp [step, stepNormal, endToken]
    rw [hsp]
    simp only
    have h := lexLoop_word d v [] hd hv [Branch.WORD (String.mk (c :: w))]
    rw [List.append_nil] at h
    rw [h]
    rfl

/-- C15 at the words `ab` and `cd`. -/
theorem trailing_word_is_dropped_witness :
    lex (String.mk ('a' :: ['b'])) = []
    ∧ lex (String.mk ('a' :: ['b'] ++ [' '])) = [Branch.WORD (String.mk ('a' :: ['b']))] :=
  ⟨(trailing_word_is_dropped 'a' ['b'] 'c' ['d'] (by decide) (by decide) (by decide)
      (by decide)).1,
   (trailing_word_is_dropped 'a' ['b'] 'c' ['d'] (by decide) (by decide) (by decide)
      (by decide)).2.1⟩

/-! ### C16 -/

/-- C16: the code never reads the `escaped` flag of the comment loop, so a
`#` ends the comment whether or not a backslash comes before it.  Lexing
`#a\#b# 5 ` yields no token (the comment ends at the escaped `#`, and `b` and
the second comment swallow the rest), where `#ab# 5 ` yields `NUMBER(5,1)`. -/
theorem escaped_hash_ends_comment :
    lex "#a\\#b# 5 " = []
    ∧ lex "#ab# 5 " = [Branch.NUMBER 5 1]
    ∧ lex "#a\\# 5 " = [Branch.NUMBER 5 1]
    ∧ ∀ (escaped : Bool) (s : LexState),
        step (Mode.comment escaped) '#' s = (Mode.normal, s) := by
  refine ⟨by rfl, by rfl, by rfl, ?_⟩
  intro escaped s
  rfl

/-! ### C14 -/

theorem isDigitChar_iff (c : Char) : isDigitChar c = true ↔ 48 ≤ c.toNat ∧ c.toNat ≤ 57 := by
  simp [isDigitChar]

theorem step_number_digit (c : Char) (hc : isDigitChar c = true) (ns : List Char)
    (dec : Option Nat) (s : LexState) :
    step (Mode.number ns dec) c s = (Mode.number (ns ++ [c]) (dec.map (· + 1)), s) := by
  have hd := (isDigitChar_iff c).mp hc
  have hdot : c ≠ '.' := by
    rintro rfl
    revert hd
    decide
  simp [step, hdot, hd]

theorem step_number_separator (ns : List Char) (dec : Option Nat) (s : LexState) :
    step (Mode.number ns dec) '_' s = (Mode.number ns (dec.map (· + 1)), s) := by
  simp [step]

theorem step_number_point (ns : List Char) (s : LexState) :
    step (Mode.number ns none) '.' s = (Mode.number ns (some 0), s) := by
  simp [step]

/-- Inside a numeric literal a run of digits and separators adds its digits
to `ns` and its length, separators included, to the count after the point. -/
theorem lexLoop_number_run (cs rest : List Char) (hcs : ∀ c ∈ cs, isNumberChar c = true)
    (ns : List Char) (dec : Option Nat) (s : LexState) :
    lexLoop (cs ++ rest) (Mode.number ns dec) s
      = lexLoop rest (Mode.number (ns ++ digitsOf cs) (dec.map (· + cs.length))) s := by
  induction cs generalizing ns dec with
  | nil => cases dec <;> simp [digitsOf]
  | cons c cs ih =>
    have hc := hcs c (List.mem_cons_self _ _)
    have hrest := fun x hx => hcs x (List.mem_cons_of_mem _ hx)
    rw [List.cons_append, lexLoop]
    by_cases hd : isDigitChar c = true
    · rw [step_number_digit c hd]
      simp only
      rw [ih hrest]
      have e : digitsOf (c :: cs) = c :: digitsOf cs := by simp [digitsOf, hd]
      rw [e]
      cases dec <;> simp [Nat.add_comm, Nat.add_left_comm]
    · have hu : c = '_' := by
        simp only [isNumberChar, Bool.or_eq_true, decide_eq_true_eq] at hc
        rcases hc with h | h
        · exact absurd h hd
        · exact h
      subst hu
      rw [step_number_separator]
      simp only
      rw [ih hrest]
      have e : digitsOf ('_' :: cs) = digitsOf cs := by simp [digitsOf, hd]
      rw [e]
      cases dec <;> simp [Nat.add_comm, Nat.add_left_comm]

/-- The token of a literal with a decimal point: the digits over ten to the
number of characters after the point, separators included. -/
theorem lex_decimal_literal (c : Char) (body frac : List Char) (hc : isDigitChar c = true)
    (hbody : ∀ x ∈ body, isNumberChar x = true) (hfrac : ∀ x ∈ frac, isNumberChar x = true)
    (hne : frac ≠ []) :
    lex (String.mk (c :: body ++ '.' :: frac))
      = [numberToken (c :: digitsOf body ++ digitsOf frac) (some frac.length)] := by
  have hd := (isDigitChar_iff c).mp hc
  have hstart : step Mode.normal c lexStart = (Mode.number [c] none, lexStart) := by
    have h1 : c ≠ '#' := by rintro rfl; revert hd; decide
    have h2 : c ≠ '"' := by rintro rfl; revert hd; decide
    have h3 : c ≠ ' ' := by rintro rfl; revert hd; decide
    have h4 : c ≠ '\t' := by rintro rfl; revert hd; decide
    have h5 : c ≠ '\r' := by rintro rfl; revert hd; decide
    have h6 : c ≠ '\n' := by rintro rfl; revert hd; decide
    have h7 : c ≠ '(' := by rintro rfl; revert hd; decide
    have h8 : c ≠ ')' := by rintro rfl; revert hd; decide
    have h9 : c ≠ '[' := by rintro rfl; revert hd; decide
    have h10 : c ≠ ']' := by rintro rfl; revert hd; decide
    have h11 : c ≠ '\x7b' := by rintro rfl; revert hd; decide
    have h12 : c ≠ '\x7d' := by rintro rfl; revert hd; decide
    have h13 : c ≠ '\\' := by rintro rfl; revert hd; decide
    have h14 : c ≠ ':' := by rintro rfl; revert hd; decide
    have h15 : c ≠ ',' := by rintro rfl; revert hd; decide
    have h16 : c ≠ '_' := by rintro rfl; revert hd; decide
    have h17 : c ≠ '@' := by rintro rfl; revert hd; decide
    simp [step, stepNormal, h1, h2, h3, h4, h5, h6, h7, h8, h9, h10, h11, h12, h13, h14, h15,
      h16, h17, hd, lexStart, endToken]
  have hlen : 0 + frac.length ≠ 0 := by
    cases frac with
    | nil => exact absurd rfl hne
    | cons x xs => simp
  rw [lex]
  simp only [String.toList]
  rw [List.cons_append, lexLoop]
  change lexLoop (body ++ '.' :: frac) (step Mode.normal c lexStart).1
    (step Mode.normal c lexStart).2 = _
  rw [hstart]
  simp only
  rw [lexLoop_number_run body ('.' :: frac) hbody, lexLoop]
  simp only [Option.map_none']
  rw [step_number_point]
  simp only
  have h := lexLoop_number_run frac [] hfrac ([c] ++ digitsOf body) (some 0) lexStart
  rw [List.append_nil] at h
  rw [h]
  simp only [Option.map_some', lexLoop, endNumber]
  rw [if_neg (by simpa using hlen)]
  simp [LexState.push, lexStart]

/-- C14: the code counts the separators after the decimal point as digits.
The denominator is `10 ** (i - dec)`, a distance in characters: `1.2_5` lexes
to `NUMBER(1,8)`, the number 0.125, where the digits `125` over `10^2` are
`NUMBER(5,4)`.  In general a literal with a decimal point, whose digits
`parseInt` reads as the number `n` and which has at most 22 characters after
the point, lexes to `n` over ten to the number of characters after the point,
separators included.  Without a separator after the point the claim holds:
`3.25` lexes to `NUMBER(13,4)` and `1_000` to `NUMBER(1000,1)`.  The digits
are read as a double: `9007199254740993` lexes to `NUMBER(9007199254740992,1)`. -/
theorem separator_counts_as_decimal (c : Char) (body frac : List Char) (n : Int)
    (hc : isDigitChar c = true) (hbody : ∀ x ∈ body, isNumberChar x = true)
    (hfrac : ∀ x ∈ frac, isNumberChar x = true) (hne : frac ≠ [])
    (hn : parseInt (c :: digitsOf body ++ digitsOf frac) = some n)
    (hk : frac.length ≤ 22) :
    lex "1.2_5" = [Branch.NUMBER 1 8]
    ∧ fraction.simplify 125 (10 ^ 2) = (5, 4)
    ∧ lex "3.25" = [Branch.NUMBER 13 4]
    ∧ lex "1_000" = [Branch.NUMBER 1000 1]
    ∧ lex "9007199254740993" = [Branch.NUMBER 9007199254740992 1]
    ∧ lex (String.mk (c :: body ++ '.' :: frac))
        = [Branch.NUMBER (fraction.simplify n (10 ^ frac.length)).1
            (fraction.simplify n (10 ^ frac.length)).2] := by
  refine ⟨by rfl, by rfl, by rfl, by rfl, by rfl, ?_⟩
  rw [lex_decimal_literal c body frac hc hbody hfrac hne]
  simp only [numberToken, powerOfTen, hn, if_pos hk]

/-- C14 at the literal `1.2_5`. -/
theorem separator_counts_as_decimal_witness :
    lex (String.mk ('1' :: [] ++ '.' :: ['2', '_', '5']))
      = [Branch.NUMBER (fraction.simplify 125 (10 ^ ['2', '_', '5'].length)).1
          (fraction.simplify 125 (10 ^ ['2', '_', '5'].length)).2] :=
  (separator_counts_as_decimal '1' [] ['2', '_', '5'] 125 (by decide) (by decide) (by decide)
    (by decide) (by rfl) (by decide)).2.2.2.2.2

/-! ### The parser inside a bracket -/

/-- The first loop of `pexp` on a stretch `ts` of operand leaves and
operators that is followed by the end of the tokens or by a closing token:
it collects the stretch and stops right after it. -/
theorem pexpLoop_segment (pre ts post : List Branch)
    (hflat : ∀ t ∈ ts, t.isLeaf = true ∨ t.isOperator = true)
    (hpost : ∀ t, post.head? = some t → isCloser t = true) :
    ∀ (fuel k : Nat) (branches : List Branch), k ≤ ts.length → ts.length - k < fuel →
      pexpLoop (pre ++ (ts ++ post)) fuel (pre.length + k) branches
        = Except.ok (branches ++ ts.drop k, pre.length + ts.length) := by
  intro fuel
  induction fuel with
  | zero => intro k branches _ h; omega
  | succ fuel ih =>
    intro k branches hk hfuel
    rw [pexpLoop]
    by_cases hlt : k < ts.length
    · have hget : (pre ++ (ts ++ post))[pre.length + k]? = some ts[k] := by
        rw [List.getElem?_append_right (by omega)]
        rw [show pre.length + k - pre.length = k by omega]
        rw [List.getElem?_append_left hlt]
        exact List.getElem?_eq_getElem hlt
      have hdrop : ts.drop k = ts[k] :: ts.drop (k + 1) := List.drop_eq_getElem_cons hlt
      have hmem : ts[k] ∈ ts := List.getElem_mem hlt
      rw [hget, hdrop]
      have hnext := ih (k + 1) (branches ++ [ts[k]]) (by omega) (by omega)
      rw [← Nat.add_assoc] at hnext
      rcases hflat _ hmem with h | h
      · revert h hnext
        cases ts[k] <;> intro h hnext <;>
          simp_all [Branch.isLeaf, isCloser]
      · revert h hnext
        cases ts[k] <;> intro h hnext <;>
          simp_all [Branch.isOperator, isCloser]
    · have hk2 : k = ts.length := by omega
      subst hk2
      have hget : (pre ++ (ts ++ post))[pre.length + ts.length]? = post.head? := by
        rw [List.getElem?_append_right (by omega)]
        rw [show pre.length + ts.length - pre.length = ts.length by omega]
        rw [List.getElem?_append_right (by omega)]
        rw [Nat.sub_self]
        cases post <;> simp
      rw [hget]
      cases hp : post.head? with
      | none => simp
      | some t =>
        have hc := hpost t hp
        simp [hc]

/-- The function `pexp` on such a stretch. -/
theorem pexp_segment (pre ts post : List Branch)
    (hflat : ∀ t ∈ ts, t.isLeaf = true ∨ t.isOperator = true)
    (hpost : ∀ t, post.head? = some t → isCloser t = true)
    (fuel : Nat) (hfuel : ts.length + 2 ≤ fuel) :
    pexp (pre ++ (ts ++ post)) fuel pre.length
      = Except.ok (expressionOf ts, pre.length + ts.length) := by
  obtain ⟨k, rfl⟩ : ∃ k, fuel = k + 1 := ⟨fuel - 1, by omega⟩
  have h := pexpLoop_segment pre ts post hflat hpost k 0 [] (by omega) (by omega)
  rw [Nat.add_zero] at h
  rw [pexp, h]
  simp

/-- An opening parenthesis that is never closed: the expression ends with
the tokens. -/
theorem parse_open_paren (ts : List Branch)
    (hflat : ∀ t ∈ ts, t.isLeaf = true ∨ t.isOperator = true)
    (fuel : Nat) (hfuel : ts.length + 4 ≤ fuel) :
    parse fuel (Branch.BRACKET '(' :: ts) = Except.ok (expressionOf [expressionOf ts]) := by
  obtain ⟨k, rfl⟩ : ∃ k, fuel = k + 2 := ⟨fuel - 2, by omega⟩
  have hin := pexp_segment [Branch.BRACKET '('] ts [] hflat (by simp) k (by omega)
  simp only [List.append_nil, List.singleton_append, List.length_singleton] at hin
  obtain ⟨m, rfl⟩ : ∃ m, k = m + 1 := ⟨k - 1, by omega⟩
  have hout : pexpLoop (Branch.BRACKET '(' :: ts) (m + 1) (1 + ts.length + 1)
      [expressionOf ts] = Except.ok ([expressionOf ts], 1 + ts.length + 1) := by
    rw [pexpLoop]
    have hnone : (Branch.BRACKET '(' :: ts)[1 + ts.length + 1]? = none := by
      apply List.getElem?_eq_none
      simp only [List.length_cons, List.length_append, List.length_singleton, List.length_nil]
      omega
    rw [hnone]
  rw [parse, pexp, pexpLoop]
  simp only [List.getElem?_cons_zero, isCloser]
  simp [hin, hout]

/-- An opening parenthesis with its closing one. -/
theorem parse_closed_paren (ts : List Branch)
    (hflat : ∀ t ∈ ts, t.isLeaf = true ∨ t.isOperator = true)
    (fuel : Nat) (hfuel : ts.length + 4 ≤ fuel) :
    parse fuel (Branch.BRACKET '(' :: (ts ++ [Branch.BRACKET ')']))
      = Except.ok (expressionOf [expressionOf ts]) := by
  obtain ⟨k, rfl⟩ : ∃ k, fuel = k + 2 := ⟨fuel - 2, by omega⟩
  have hin := pexp_segment [Branch.BRACKET '('] ts [Branch.BRACKET ')'] hflat
    (by intro t ht; simp at ht; subst ht; rfl) k (by omega)
  simp only [List.singleton_append, List.length_singleton] at hin
  obtain ⟨m, rfl⟩ : ∃ m, k = m + 1 := ⟨k - 1, by omega⟩
  have hout : pexpLoop (Branch.BRACKET '(' :: (ts ++ [Branch.BRACKET ')'])) (m + 1)
      (1 + ts.length + 1) [expressionOf ts]
      = Except.ok ([expressionOf ts], 1 + ts.length + 1) := by
    rw [pexpLoop]
    have hnone : (Branch.BRACKET '(' :: (ts ++ [Branch.BRACKET ')']))[1 + ts.length + 1]?
        = none := by
      apply List.getElem?_eq_none
      simp only [List.length_cons, List.length_append, List.length_singleton, List.length_nil]
      omega
    rw [hnone]
  rw [parse, pexp, pexpLoop]
  simp only [List.getElem?_cons_zero, isCloser]
  simp [hin, hout]

/-- An opening square bracket that is never closed, after at least one
token: `plist` reads `tokens[i].type` past the end. -/
theorem parse_open_list (ts : List Branch)
    (hflat : ∀ t ∈ ts, t.isLeaf = true ∨ t.isOperator = true) (hne : ts ≠ [])
    (fuel : Nat) (hfuel : ts.length + 5 ≤ fuel) :
    parse fuel (Branch.BRACKET '[' :: ts) = Except.error Err.typeError := by
  obtain ⟨k, rfl⟩ : ∃ k, fuel = k + 3 := ⟨fuel - 3, by omega⟩
  have hin := pexp_segment [Branch.BRACKET '['] ts [] hflat (by simp) k (by omega)
  simp only [List.append_nil, List.singleton_append, List.length_singleton] at hin
  have hlen : 0 < ts.length := List.length_pos.mpr hne
  have hnone : (Branch.BRACKET '[' :: ts)[1 + ts.length]? = none := by
    apply List.getElem?_eq_none
    simp only [List.length_cons, List.length_append, List.length_singleton, List.length_nil]
    omega
  have hl : plist (Branch.BRACKET '[' :: ts) (k + 1) 1 [] = Except.error Err.typeError := by
    rw [plist, if_pos (by simp; omega), hin]
    simp only
    rw [hnone]
  rw [parse, pexp, pexpLoop]
  simp only [List.getElem?_cons_zero, isCloser]
  simp [hl]

/-- An opening brace that is never closed, after at least one token. -/
theorem parse_open_dict (ts : List Branch)
    (hflat : ∀ t ∈ ts, t.isLeaf = true ∨ t.isOperator = true) (hne : ts ≠ [])
    (fuel : Nat) (hfuel : ts.length + 5 ≤ fuel) :
    parse fuel (Branch.BRACKET '\x7b' :: ts) = Except.error Err.typeError := by
  obtain ⟨k, rfl⟩ : ∃ k, fuel = k + 3 := ⟨fuel - 3, by omega⟩
  have hin := pexp_segment [Branch.BRACKET '\x7b'] ts [] hflat (by simp) k (by omega)
  simp only [List.append_nil, List.singleton_append, List.length_singleton] at hin
  have hlen : 0 < ts.length := List.length_pos.mpr hne
  have hnone : (Branch.BRACKET '\x7b' :: ts)[1 + ts.length]? = none := by
    apply List.getElem?_eq_none
    simp only [List.length_cons, List.length_append, List.length_singleton, List.length_nil]
    omega
  have hl : pdict (Branch.BRACKET '\x7b' :: ts) (k + 1) 1 [] = Except.error Err.typeError := by
    rw [pdict, if_pos (by simp; omega), hin]
    simp only
    rw [hnone]
  rw [parse, pexp, pexpLoop]
  simp only [List.getElem?_cons_zero, isCloser]
  simp [hl]

/-! ### C18 -/

/-- C18, counterexample: the tokens of `(1 + 2`, whose parenthesis is never
closed, are not rejected.  `parse` returns the tree it returns for `(1 + 2)`,
and the script evaluates to 3. -/
theorem unclosed_parenthesis_parses :
    lex "(1 + 2"
      = [Branch.BRACKET '(', Branch.NUMBER 1 1, Branch.OPERATOR "+", Branch.NUMBER 2 1]
    ∧ parse 10 (lex "(1 + 2")
      = Except.ok (Branch.EXPRESSION (Branch.EXPRESSION
          (Branch.COMBINATION "+" (Branch.NUMBER 1 1) (Branch.NUMBER 2 1))))
    ∧ parse 10 (lex "(1 + 2)") = parse 10 (lex "(1 + 2")
    ∧ interpret 20 "(1 + 2" [] = Except.ok (Value.NUMBER 3 1) := by
  refine ⟨by rfl, by rfl, by rfl, by rfl⟩

/-- C18, amended: the parser has no error of its own, and what a missing
closing bracket does depends on the bracket.  With `ts` a sequence of operand
leaves and operators: the tokens `( ts` parse, to the tree of `( ts )`; the
tokens `[ ts` and `\x7b ts` with `ts` not empty fail, with the type error of
reading a token past the end.  The tokens of `[1, 2` fail in that way, while
those of `[` and of `[1,` parse to lists. -/
theorem missing_bracket_outcomes (ts : List Branch)
    (hflat : ∀ t ∈ ts, t.isLeaf = true ∨ t.isOperator = true) (hne : ts ≠ [])
    (fuel : Nat) (hfuel : ts.length + 5 ≤ fuel) :
    parse fuel (Branch.BRACKET '(' :: ts) = Except.ok (expressionOf [expressionOf ts])
    ∧ parse fuel (Branch.BRACKET '(' :: (ts ++ [Branch.BRACKET ')']))
        = parse fuel (Branch.BRACKET '(' :: ts)
    ∧ parse fuel (Branch.BRACKET '[' :: ts) = Except.error Err.typeError
    ∧ parse fuel (Branch.BRACKET '\x7b' :: ts) = Except.error Err.typeError
    ∧ parse 10 (lex "[1, 2") = Except.error Err.typeError
    ∧ parse 10 (lex "[") = Except.ok (Branch.EXPRESSION (Branch.LIST []))
    ∧ parse 10 (lex "[1,")
        = Except.ok (Branch.EXPRESSION (Branch.LIST [Branch.EXPRESSION (Branch.NUMBER 1 1)])) := by
  refine ⟨parse_open_paren ts hflat fuel (by omega), ?_,
    parse_open_list ts hflat hne fuel hfuel, parse_open_dict ts hflat hne fuel hfuel,
    by rfl, by rfl, by rfl⟩
  rw [parse_open_paren ts hflat fuel (by omega), parse_closed_paren ts hflat fuel (by omega)]

/-- C18 at the tokens `1 + 2`. -/
theorem missing_bracket_outcomes_witness :
    parse 10 [Branch.BRACKET '(', Branch.NUMBER 1 1, Branch.OPERATOR "+", Branch.NUMBER 2 1]
      = Except.ok
          (expressionOf [expressionOf [Branch.NUMBER 1 1, Branch.OPERATOR "+", Branch.NUMBER 2 1]])
    ∧ parse 10 [Branch.BRACKET '[', Branch.NUMBER 1 1, Branch.OPERATOR "+", Branch.NUMBER 2 1]
      = Except.error Err.typeError :=
  have h := missing_bracket_outcomes
    [Branch.NUMBER 1 1, Branch.OPERATOR "+", Branch.NUMBER 2 1] (by decide) (by simp) 10
    (by decide)
  ⟨h.1, h.2.2.1⟩

/-! ### Environments -/

theorem lookup_setKey_self (k : String) (v : Value) (m : List (String × Value)) :
    (setKey k v m).lookup k = some v := by
  induction m with
  | nil => simp [setKey, List.lookup]
  | cons p rest ih =>
    obtain ⟨k1, v1⟩ := p
    rw [setKey]
    by_cases hk : k1 = k
    · rw [if_pos hk]
      simp [List.lookup]
    · rw [if_neg hk]
      have hne : (k == k1) = false := by
        rw [beq_eq_false_iff_ne]
        exact fun h => hk h.symm
      simp [List.lookup, hne, ih]

theorem lookup_setKey_other (k n : String) (v : Value) (m : List (String × Value))
    (hn : n ≠ k) : (setKey k v m).lookup n = m.lookup n := by
  induction m with
  | nil =>
    have hne : (n == k) = false := by
      rw [beq_eq_false_iff_ne]
      exact hn
    simp [setKey, List.lookup, hne]
  | cons p rest ih =>
    obtain ⟨k1, v1⟩ := p
    rw [setKey]
    by_cases hk : k1 = k
    · rw [if_pos hk]
      subst hk
      have hne : (n == k1) = false := by
        rw [beq_eq_false_iff_ne]
        exact hn
      simp [List.lookup, hne]
    · rw [if_neg hk]
      simp only [List.lookup]
      cases hb : n == k1 with
      | true => rfl
      | false => exact ih

/-- The function `\x \y x` as a closure of the environment `E`. -/
theorem evaluate_constant_function (fuel : Nat) (E : Ctx) :
    interpret (fuel + 8) "\\x \\y x " E
      = Except.ok (Value.CLOSURE E (some "x") (Branch.EXPRESSION
          (Branch.FUNCTION (some "y") (Branch.EXPRESSION (Branch.WORD "x"))))) := by
  rfl

theorem two_calls_example (fuel : Nat) :
    interpret (fuel + 30) "(\\k (\\a (\\b [a 7, b 7]) (k 2)) (k 1)) (\\x \\y x)" []
      = Except.ok (Value.LIST [Value.NUMBER 1 1, Value.NUMBER 2 1]) := by
  rfl

/-! ### C17 -/

/-- C17: with `K` the closure that `\x \y x` evaluates to in an environment
`E`, applying `K` to `u1` and then to `u2` gives two closures `c1` and `c2`;
`c1` applied to any `w` returns `u1` and `c2` applied to any `w` returns `u2`,
whatever was called in between.  The calls build their environments from `E`
with `extend` and hand `E` itself to nothing: `K` still holds `E`, and the
environment inside `c1` agrees with `E` on every name other than `x` and `y`.
The values `u1` and `u2` are truthy, as every object of the language is. -/
theorem closures_keep_their_bindings (fuel : Nat) (E : Ctx) (u1 u2 w : Value)
    (h1 h2 h3 h4 : Heap) (hu1 : u1.truthy = true) (hu2 : u2.truthy = true) :
    ∃ K c1 c2 : Value,
      interpret (fuel + 8) "\\x \\y x " E = Except.ok K
      ∧ K = Value.CLOSURE E (some "x") (Branch.EXPRESSION
          (Branch.FUNCTION (some "y") (Branch.EXPRESSION (Branch.WORD "x"))))
      ∧ applyValue (fuel + 2) K u1 h1 = Except.ok (c1, h1)
      ∧ applyValue (fuel + 2) K u2 h2 = Except.ok (c2, h2)
      ∧ applyValue (fuel + 2) c1 w h3 = Except.ok (u1, h3)
      ∧ applyValue (fuel + 2) c2 w h4 = Except.ok (u2, h4)
      ∧ (∀ n : String, n ≠ "x" → n ≠ "y" →
          getKey (extend (extend E (some "x") u1) (some "y") w) n = getKey E n)
      ∧ interpret (fuel + 30) "(\\k (\\a (\\b [a 7, b 7]) (k 2)) (k 1)) (\\x \\y x)" []
          = Except.ok (Value.LIST [Value.NUMBER 1 1, Value.NUMBER 2 1]) := by
  have inner : ∀ (u : Value) (h : Heap), u.truthy = true →
      applyValue (fuel + 2) (Value.CLOSURE (setKey "x" u E) (some "y")
        (Branch.EXPRESSION (Branch.WORD "x"))) w h = Except.ok (u, h) := by
    intro u h hu
    have hx : ("x" : String) ≠ "y" := by decide
    have hl : (setKey "y" w (setKey "x" u E)).lookup "x" = some u := by
      rw [lookup_setKey_other "y" "x" w _ hx, lookup_setKey_self]
    have hy : extend (setKey "x" u E) (some "y") w = setKey "y" w (setKey "x" u E) := by rfl
    rw [applyValue, hy, evaluate, evaluate, getKey, hl]
    simp [hu]
  refine ⟨_, Value.CLOSURE (setKey "x" u1 E) (some "y") (Branch.EXPRESSION (Branch.WORD "x")),
    Value.CLOSURE (setKey "x" u2 E) (some "y") (Branch.EXPRESSION (Branch.WORD "x")),
    evaluate_constant_function fuel E, rfl, by rfl, by rfl, inner u1 h3 hu1, inner u2 h4 hu2,
    ?_, two_calls_example fuel⟩
  intro n hnx hny
  have he : extend (extend E (some "x") u1) (some "y") w = setKey "y" w (setKey "x" u1 E) := by
    rfl
  rw [he, getKey, getKey, lookup_setKey_other "y" n w _ hny, lookup_setKey_other "x" n u1 _ hnx]

/-- C17 with the numbers 1, 2 and 7 in the empty environment. -/
theorem closures_keep_their_bindings_witness :
    ∃ K c1 c2 : Value,
      interpret 8 "\\x \\y x " [] = Except.ok K
      ∧ K = Value.CLOSURE [] (some "x") (Branch.EXPRESSION
          (Branch.FUNCTION (some "y") (Branch.EXPRESSION (Branch.WORD "x"))))
      ∧ applyValue 2 K (Value.NUMBER 1 1) 0 = Except.ok (c1, 0)
      ∧ applyValue 2 K (Value.NUMBER 2 1) 0 = Except.ok (c2, 0)
      ∧ applyValue 2 c1 (Value.NUMBER 7 1) 0 = Except.ok (Value.NUMBER 1 1, 0)
      ∧ applyValue 2 c2 (Value.NUMBER 7 1) 0 = Except.ok (Value.NUMBER 2 1, 0)
      ∧ (∀ n : String, n ≠ "x" → n ≠ "y" →
          getKey (extend (extend [] (some "x") (Value.NUMBER 1 1)) (some "y") (Value.NUMBER 7 1)) n
            = getKey [] n)
      ∧ interpret 30 "(\\k (\\a (\\b [a 7, b 7]) (k 2)) (k 1)) (\\x \\y x)" []
          = Except.ok (Value.LIST [Value.NUMBER 1 1, Value.NUMBER 2 1]) :=
  closures_keep_their_bindings 0 [] (Value.NUMBER 1 1) (Value.NUMBER 2 1) (Value.NUMBER 7 1)
    0 0 0 0 (by rfl) (by rfl)

/-! ### The formatter and the lexer on string literals -/

/-- The four `replaceAll` calls escape each character on its own. -/
theorem prettyText_eq (text : List Char) :
    prettyText text = ['"'] ++ text.flatMap escapeChar ++ ['"'] := by
  have h : replaceAll '\t' ['\\', 't'] (replaceAll '\n' ['\\', 'n']
      (replaceAll '"' ['\\', '"'] (replaceAll '\\' ['\\', '\\'] text)))
      = text.flatMap escapeChar := by
    simp only [replaceAll, List.flatMap_assoc]
    congr 1
    funext c
    by_cases h1 : c = '\\'
    · subst h1
      rfl
    · by_cases h2 : c = '"'
      · subst h2
        rfl
      · by_cases h3 : c = '\n'
        · subst h3
          rfl
        · by_cases h4 : c = '\t'
          · subst h4
            rfl
          · simp [escapeChar, h1, h2, h3, h4]
  rw [prettyText, h]

/-- Inside a string literal the lexer reads an escaped text back. -/
theorem lexLoop_escaped (t rest : List Char) (str : List Char) (s : LexState) :
    lexLoop (t.flatMap escapeChar ++ rest) (Mode.string str false) s
      = lexLoop rest (Mode.string (str ++ t) false) s := by
  induction t generalizing str with
  | nil => simp
  | cons c t ih =>
    rw [List.flatMap_cons, List.append_assoc]
    have hstep : lexLoop (escapeChar c ++ (t.flatMap escapeChar ++ rest)) (Mode.string str false) s
        = lexLoop (t.flatMap escapeChar ++ rest) (Mode.string (str ++ [c]) false) s := by
      by_cases h1 : c = '\\'
      · subst h1
        rfl
      · by_cases h2 : c = '"'
        · subst h2
          rfl
        · by_cases h3 : c = '\n'
          · subst h3
            rfl
          · by_cases h4 : c = '\t'
            · subst h4
              rfl
            · have he : escapeChar c = [c] := by simp [escapeChar, h1, h2, h3, h4]
              rw [he, List.singleton_append, lexLoop]
              simp [step, h1, h2]
    rw [hstep, ih]
    simp

/-- The lexer on the formatter's form of a text. -/
theorem lex_prettyText (t : List Char) :
    lex (String.mk (prettyText t)) = [Branch.STRING 0 (utf8Encode t)] := by
  rw [prettyText_eq, lex]
  simp only [String.toList]
  have h := lexLoop_escaped t ['"'] [] (endToken lexStart)
  rw [List.nil_append] at h
  change lexLoop (t.flatMap escapeChar ++ ['"']) (Mode.string [] false) (endToken lexStart) = _
  rw [h]
  rfl

/-! ### UTF-8 -/

theorem toNat_ofNat_small (n : Nat) (h : n < 0xD800) : (Char.ofNat n).toNat = n := by
  have hv : n.isValidChar := Or.inl h
  simp only [Char.ofNat, hv, Char.ofNatAux, Char.toNat, dite_true]
  rfl

/-- A buffer that decodes to a text is the encoding of that text. -/
theorem utf8Encode_of_decode : ∀ (n : Nat) (s : List Nat) (t : List Char), s.length ≤ n →
    utf8Decode s = some t → utf8Encode t = s := by
  intro n
  induction n with
  | zero =>
    intro s t hlen h
    have hs : s = [] := List.length_eq_zero.mp (by omega)
    subst hs
    simp only [utf8Decode, Option.some.injEq] at h
    subst h
    rfl
  | succ n ih =>
    intro s t hlen h
    cases s with
    | nil =>
      simp only [utf8Decode, Option.some.injEq] at h
      subst h
      rfl
    | cons b0 rest =>
      rw [utf8Decode.eq_def] at h
      simp only at h
      by_cases h0 : b0 < 0x80
      · rw [if_pos h0, Option.map_eq_some'] at h
        obtain ⟨t1, ht1, rfl⟩ := h
        have e := ih rest t1 (by simp at hlen; omega) ht1
        have hc : utf8EncodeChar (Char.ofNat b0) = [b0] := by
          simp only [utf8EncodeChar]
          rw [toNat_ofNat_small b0 (by omega), if_pos h0]
        simp only [utf8Encode, List.flatMap_cons] at e ⊢
        rw [hc, e]
        rfl
      · rw [if_neg h0] at h
        cases rest with
        | nil => simp at h
        | cons b1 rest1 =>
          simp only at h
          by_cases h2 : utf8EncodeChar (Char.ofNat (b0 % 0x20 * 0x40 + b1 % 0x40)) = [b0, b1]
          · rw [if_pos h2, Option.map_eq_some'] at h
            obtain ⟨t1, ht1, rfl⟩ := h
            have e := ih rest1 t1 (by simp at hlen; omega) ht1
            simp only [utf8Encode, List.flatMap_cons] at e ⊢
            rw [h2, e]
            rfl
          · rw [if_neg h2] at h
            cases rest1 with
            | nil => simp at h
            | cons b2 rest2 =>
              simp only at h
              by_cases h3 : utf8EncodeChar
                  (Char.ofNat (b0 % 0x10 * 0x1000 + b1 % 0x40 * 0x40 + b2 % 0x40)) = [b0, b1, b2]
              · rw [if_pos h3, Option.map_eq_some'] at h
                obtain ⟨t1, ht1, rfl⟩ := h
                have e := ih rest2 t1 (by simp at hlen; omega) ht1
                simp only [utf8Encode, List.flatMap_cons] at e ⊢
                rw [h3, e]
                rfl
              · rw [if_neg h3] at h
                cases rest2 with
                | nil => simp at h
                | cons b3 rest3 =>
                  simp only at h
                  by_cases h4 : utf8EncodeChar (Char.ofNat
                      (b0 % 0x8 * 0x40000 + b1 % 0x40 * 0x1000 + b2 % 0x40 * 0x40 + b3 % 0x40))
                      = [b0, b1, b2, b3]
                  · rw [if_pos h4, Option.map_eq_some'] at h
                    obtain ⟨t1, ht1, rfl⟩ := h
                    have e := ih rest3 t1 (by simp at hlen; omega) ht1
                    simp only [utf8Encode, List.flatMap_cons] at e ⊢
                    rw [h4, e]
                    rfl
                  · rw [if_neg h4] at h
                    simp at h

theorem utf8EncodeChar_ofNat (m : Nat) (h : m < 0xD800) :
    utf8EncodeChar (Char.ofNat m) =
      if m < 0x80 then [m]
      else if m < 0x800 then [0xC0 + m / 0x40, 0x80 + m % 0x40]
      else if m < 0x10000 then [0xE0 + m / 0x1000, 0x80 + m / 0x40 % 0x40, 0x80 + m % 0x40]
      else [0xF0 + m / 0x40000, 0x80 + m / 0x1000 % 0x40, 0x80 + m / 0x40 % 0x40,
        0x80 + m % 0x40] := by
  simp only [utf8EncodeChar, toNat_ofNat_small m h]

theorem toNat_lt (c : Char) : c.toNat < 0x110000 := by
  have hv : c.toNat.isValidChar := c.valid
  rcases hv with h | h
  · omega
  · exact h.2

/-- Decoding the bytes of one character, followed by more bytes. -/
theorem utf8Decode_encodeChar (c : Char) (rest : List Nat) :
    utf8Decode (utf8EncodeChar c ++ rest) = (utf8Decode rest).map (c :: ·) := by
  have hlt := toNat_lt c
  have hof := Char.ofNat_toNat c
  by_cases h1 : c.toNat < 0x80
  · have he : utf8EncodeChar c = [c.toNat] := by
      simp only [utf8EncodeChar]
      rw [if_pos h1]
    rw [he, List.singleton_append, utf8Decode.eq_def]
    simp only
    rw [if_pos h1, hof]
  · by_cases h2 : c.toNat < 0x800
    · have he : utf8EncodeChar c = [0xC0 + c.toNat / 0x40, 0x80 + c.toNat % 0x40] := by
        simp only [utf8EncodeChar]
        rw [if_neg h1, if_pos h2]
      have hn : (0xC0 + c.toNat / 0x40) % 0x20 * 0x40 + (0x80 + c.toNat % 0x40) % 0x40
          = c.toNat := by omega
      rw [he, utf8Decode.eq_def]
      simp only [List.cons_append, List.nil_append]
      rw [if_neg (by omega), hn, hof, if_pos he]
    · by_cases h3 : c.toNat < 0x10000
      · have he : utf8EncodeChar c
            = [0xE0 + c.toNat / 0x1000, 0x80 + c.toNat / 0x40 % 0x40, 0x80 + c.toNat % 0x40] := by
          simp only [utf8EncodeChar]
          rw [if_neg h1, if_neg h2, if_pos h3]
        have hn : (0xE0 + c.toNat / 0x1000) % 0x10 * 0x1000
            + (0x80 + c.toNat / 0x40 % 0x40) % 0x40 * 0x40 + (0x80 + c.toNat % 0x40) % 0x40
            = c.toNat := by omega
        have h2b : ¬ utf8EncodeChar (Char.ofNat ((0xE0 + c.toNat / 0x1000) % 0x20 * 0x40
            + (0x80 + c.toNat / 0x40 % 0x40) % 0x40))
            = [0xE0 + c.toNat / 0x1000, 0x80 + c.toNat / 0x40 % 0x40] := by
          rw [utf8EncodeChar_ofNat _ (by omega)]
          split_ifs <;> simp <;> omega
        rw [he, utf8Decode.eq_def]
        simp only [List.cons_append, List.nil_append]
        rw [if_neg (by omega), if_neg h2b, hn, hof, if_pos he]
      · have he : utf8EncodeChar c
            = [0xF0 + c.toNat / 0x40000, 0x80 + c.toNat / 0x1000 % 0x40,
                0x80 + c.toNat / 0x40 % 0x40, 0x80 + c.toNat % 0x40] := by
          simp only [utf8EncodeChar]
          rw [if_neg h1, if_neg h2, if_neg h3]
        have hn : (0xF0 + c.toNat / 0x40000) % 0x8 * 0x40000
            + (0x80 + c.toNat / 0x1000 % 0x40) % 0x40 * 0x1000
            + (0x80 + c.toNat / 0x40 % 0x40) % 0x40 * 0x40 + (0x80 + c.toNat % 0x40) % 0x40
            = c.toNat := by omega
        have h2b : ¬ utf8EncodeChar (Char.ofNat ((0xF0 + c.toNat / 0x40000) % 0x20 * 0x40
            + (0x80 + c.toNat / 0x1000 % 0x40) % 0x40))
            = [0xF0 + c.toNat / 0x40000, 0x80 + c.toNat / 0x1000 % 0x40] := by
          rw [utf8EncodeChar_ofNat _ (by omega)]
          split_ifs <;> simp <;> omega
        have h3b : ¬ utf8EncodeChar (Char.ofNat ((0xF0 + c.toNat / 0x40000) % 0x10 * 0x1000
            + (0x80 + c.toNat / 0x1000 % 0x40) % 0x40 * 0x40
            + (0x80 + c.toNat / 0x40 % 0x40) % 0x40))
            = [0xF0 + c.toNat / 0x40000, 0x80 + c.toNat / 0x1000 % 0x40,
                0x80 + c.toNat / 0x40 % 0x40] := by
          rw [utf8EncodeChar_ofNat _ (by omega)]
          split_ifs <;> simp <;> omega
        rw [he, utf8Decode.eq_def]
        simp only [List.cons_append, List.nil_append]
        rw [if_neg (by omega), if_neg h2b, if_neg h3b, hn, hof, if_pos he]

/-- Every text is read back from its bytes. -/
theorem utf8Decode_encode (t : List Char) : utf8Decode (utf8Encode t) = some t := by
  induction t with
  | nil => rfl
  | cons c t ih =>
    have h := utf8Decode_encodeChar c (utf8Encode t)
    rw [ih] at h
    simpa [utf8Encode, List.flatMap_cons] using h

/-! ### C20 -/

/-- C20: for every STRING value whose buffer `s` holds a text `t`, `pretty`
returns the text between double quotes with its backslashes, double quotes,
newlines and tabs escaped, and `lex` on that output yields exactly one token,
a STRING with the bytes `s`.  Every text is the text of a buffer. -/
theorem pretty_string_reads_back (r : Nat) (s : List Nat) (t : List Char) (tab : Nat)
    (ht : utf8Decode s = some t) :
    pretty (Value.STRING r s) tab = some (prettyText t)
    ∧ prettyText t = ['"'] ++ t.flatMap escapeChar ++ ['"']
    ∧ lex (String.mk (prettyText t)) = [Branch.STRING 0 s]
    ∧ ∀ u : List Char, utf8Decode (utf8Encode u) = some u := by
  refine ⟨?_, prettyText_eq t, ?_, utf8Decode_encode⟩
  · rw [pretty, ht]
    rfl
  · rw [lex_prettyText, utf8Encode_of_decode s.length s t (Nat.le_refl _) ht]

/-- C20 at the text of `a`, a backslash, a double quote, a newline, a tab and
`é`. -/
theorem pretty_string_reads_back_witness :
    pretty (Value.STRING 3 [97, 92, 34, 10, 9, 195, 169]) 0
      = some (prettyText ['a', '\\', '"', '\n', '\t', 'é'])
    ∧ prettyText ['a', '\\', '"', '\n', '\t', 'é']
      = ['"'] ++ ['a', '\\', '"', '\n', '\t', 'é'].flatMap escapeChar ++ ['"']
    ∧ lex (String.mk (prettyText ['a', '\\', '"', '\n', '\t', 'é']))
      = [Branch.STRING 0 [97, 92, 34, 10, 9, 195, 169]]
    ∧ ∀ u : List Char, utf8Decode (utf8Encode u) = some u :=
  pretty_string_reads_back 3 [97, 92, 34, 10, 9, 195, 169] ['a', '\\', '"', '\n', '\t', 'é'] 0
    (by rfl)

end Nli
